import Mathlib

set_option autoImplicit false
set_option maxHeartbeats 1000000

/-!
# Verification of the js-3d-engine core (entity store, scheduler, command stack)

Shallow embedding of the repository's core modules:

* `src/ecs/entity-manager.js` (`EntityManager`)
* `src/components/transform-component.js` (`TransformComponent`)
* `src/ecs/system-manager.js` (`SystemManager`)
* `src/editor/command-manager.js` (`CommandManager`, mirrored verbatim in
  `test/setup.js`)

JavaScript `Map`s are modelled as insertion-ordered association lists,
JS `Set`s as insertion-ordered duplicate-free lists, and plain data objects
as association lists of `Value`s.  Entity ids are modelled as `Int` (the
code only ever produces integral ids and validates `typeof x === 'number'`).

Modelling notes (divergences from raw JS, each harmless for the claims):
* a `parent` field whose value is neither a number nor `null` is modelled
  as `null` (the JS code would store the junk value, which every consumer
  then treats like a dangling parent);
* assigning a non-array value to `position`/`rotation`/`scale` of an
  existing transform is modelled as a no-op (JS would store the scalar);
* logging and event emission are not modelled except where a claim is
  about events (the command stack's `change` event).
-/

namespace EngineProof

/-- JSON-like field values carried by component data records. -/
inductive Value : Type where
  | num (n : Int)
  | str (s : String)
  | boolean (b : Bool)
  | arr (xs : List Value)
  | nul
deriving Repr

/-- A plain JS data object: insertion-ordered association list of fields. -/
abbrev Fields := List (String × Value)

/-! ## JS `Map` and `Set` semantics over association lists -/

/-- `Map.get`: first entry with the key. -/
def mapGet {α β : Type} [DecidableEq α] : List (α × β) → α → Option β
  | [], _ => none
  | (k, v) :: rest, a => if k = a then some v else mapGet rest a

/-- `Map.set`: update in place preserving order, else append. -/
def mapSet {α β : Type} [DecidableEq α] : List (α × β) → α → β → List (α × β)
  | [], a, b => [(a, b)]
  | (k, v) :: rest, a, b =>
    if k = a then (k, b) :: rest else (k, v) :: mapSet rest a b

/-- `Map.delete`. -/
def mapDel {α β : Type} [DecidableEq α] (l : List (α × β)) (a : α) :
    List (α × β) :=
  l.filter (fun kv => kv.1 ≠ a)

/-- `Set.add`: no-op if present, else append (insertion order). -/
def jsSetAdd {α : Type} [DecidableEq α] (l : List α) (x : α) : List α :=
  if x ∈ l then l else l ++ [x]

/-- `Set.delete`. -/
def jsSetDel {α : Type} [DecidableEq α] (l : List α) (x : α) : List α :=
  l.filter (· ≠ x)

/-! ## TransformComponent (`src/components/transform-component.js`) -/

/-- The reserved hierarchy component: position/rotation/scale payload plus a
nullable parent reference and an ordered set of child ids. -/
structure Transform : Type where
  position : List Value
  rotation : List Value
  scale : List Value
  parent : Option Int
  children : List Int
deriving Repr

/-- JS truthiness of a `Value`. -/
def truthy : Value → Bool
  | .num n => n ≠ 0
  | .str s => s ≠ ""
  | .boolean b => b
  | .arr _ => true
  | .nul => false

/-- JS array spread `[...v]`: arrays copy, strings split into characters,
anything else non-iterable throws (`none`). -/
def spreadVal : Value → Option (List Value)
  | .arr xs => some xs
  | .str s => some (s.toList.map (fun c => Value.str c.toString))
  | _ => none

/-- `data.key ? [...data.key] : default` from the transform constructor. -/
def ctorArrField (data : Fields) (key : String) (dflt : List Value) :
    Option (List Value) :=
  match mapGet data key with
  | none => some dflt
  | some v => if truthy v then spreadVal v else some dflt

/-- A `parent` value: a number is an entity id, anything else is `null`
(see the modelling notes). -/
def valToParent : Value → Option Int
  | .num n => some n
  | _ => none

/-- `new Set(data.children || [])`: falsy gives the empty set, an array
collects its numeric members in order, a string gives no numeric members,
other truthy values throw. -/
def childrenOfVal : Option Value → Option (List Int)
  | none => some []
  | some v =>
    if truthy v then
      match v with
      | .arr xs =>
        some (xs.foldl (fun acc x =>
          match x with
          | .num n => jsSetAdd acc n
          | _ => acc) [])
      | .str _ => some []
      | _ => none
    else
      some []

/-- The `TransformComponent` constructor; `none` when the JS constructor
would throw. -/
def mkTransform (data : Fields) : Option Transform := do
  let pos ← ctorArrField data "position" [.num 0, .num 0, .num 0]
  let rot ← ctorArrField data "rotation" [.num 0, .num 0, .num 0]
  let scl ← ctorArrField data "scale" [.num 1, .num 1, .num 1]
  let par := match mapGet data "parent" with
    | none => none
    | some v => valToParent v
  let ch ← childrenOfVal (mapGet data "children")
  pure ⟨pos, rot, scl, par, ch⟩

/-- `TransformComponent.serialize()`: position, rotation, scale and parent;
`children` is never serialized. -/
def serializeTransform (t : Transform) : Fields :=
  [("position", Value.arr t.position),
   ("rotation", Value.arr t.rotation),
   ("scale", Value.arr t.scale),
   ("parent", match t.parent with
     | some p => Value.num p
     | none => Value.nul)]

/-! ## Components and the registry -/

/-- A live component instance: either the reserved transform or a generic
data component that captured its class's `serialize` at construction. -/
inductive Comp : Type where
  | transform (t : Transform)
  | data (ser : Fields → Fields) (fields : Fields)

/-- A registered component class: the `TransformComponent` class or a
generic data-component class given by its constructor and `serialize`. -/
inductive CompSpec : Type where
  | transformSpec
  | dataSpec (build : Fields → Fields) (ser : Fields → Fields)

/-- The component registry (`ComponentRegistry`): type name to class. -/
def Registry : Type := String → Option CompSpec

/-- `comp.serialize()` on an instance. -/
def serializeComp : Comp → Fields
  | .transform t => serializeTransform t
  | .data ser fields => ser fields

/-! ## EntityManager state -/

/-- The mutable state of an `EntityManager`: the id counter, the live-entity
set, the per-entity component maps, and the type-to-entity index. -/
structure EMState : Type where
  nextEntityId : Int
  entities : List Int
  comps : List (Int × List (String × Comp))
  index : List (String × List Int)

/-- A freshly constructed `EntityManager`. -/
def initEM : EMState := ⟨1, [], [], []⟩

/-- `hasEntity` (the id is a genuine number by typing). -/
def hasEntity (s : EMState) (i : Int) : Bool := i ∈ s.entities

/-- `getComponent`: `null` unless the entity is live and has the type. -/
def getComp (s : EMState) (i : Int) (ty : String) : Option Comp :=
  if hasEntity s i then (mapGet s.comps i).bind (fun m => mapGet m ty)
  else none

/-- The entity's transform, when its `'transform'` component is one. -/
def getTransform (s : EMState) (i : Int) : Option Transform :=
  match getComp s i "transform" with
  | some (.transform t) => some t
  | _ => none

/-- `hasComponent`. -/
def hasComp (s : EMState) (i : Int) (ty : String) : Bool :=
  (getComp s i ty).isSome

/-- Scan upward from `start` for the first id not currently live
(the `while (this.entities.has(id)) id++` loop of `createEntity`). -/
def firstFree (live : List Int) : Nat → Int → Int
  | 0, start => start
  | fuel + 1, start =>
    if start ∈ live then firstFree live fuel (start + 1) else start

/-- `createEntity`: allocate the scanned id, bump the counter past it,
add the entity with an empty component map. -/
def createEntity (s : EMState) : Int × EMState :=
  let id := firstFree s.entities
    ((s.entities.filter (fun x => s.nextEntityId ≤ x)).length + 1)
    s.nextEntityId
  (id,
   { s with
     nextEntityId := id + 1
     entities := jsSetAdd s.entities id
     comps := mapSet s.comps id [] })

/-! ### `firstFree` returns a genuinely free id -/

theorem filter_length_mono (l : List Int) (start : Int) :
    (l.filter (fun x => start + 1 ≤ x)).length ≤
      (l.filter (fun x => start ≤ x)).length := by
  apply List.Sublist.length_le
  apply List.monotone_filter_right
  intro x hx
  simp only [decide_eq_true_eq] at hx ⊢
  omega

theorem length_filter_le_sub (live : List Int) (start : Int)
    (hmem : start ∈ live) :
    (live.filter (fun x => start + 1 ≤ x)).length + 1 ≤
      (live.filter (fun x => start ≤ x)).length := by
  induction live with
  | nil => cases hmem
  | cons a rest ih =>
    rcases List.mem_cons.mp hmem with ha | hm
    · subst ha
      have h1 : decide (start ≤ start) = true := by simp
      have h2 : decide (start + 1 ≤ start) = false := by simp
      simp only [List.filter_cons, h1, h2, Bool.false_eq_true, if_true,
        if_false, List.length_cons]
      have := filter_length_mono rest start
      omega
    · have := ih hm
      simp only [List.filter_cons]
      by_cases h2 : start + 1 ≤ a
      · have h3 : start ≤ a := by omega
        simp only [decide_eq_true_eq, h2, h3, if_true, List.length_cons]
        omega
      · by_cases h3 : start ≤ a
        · simp only [decide_eq_true_eq, h2, h3, if_true, if_false,
            List.length_cons]
          omega
        · simp only [decide_eq_true_eq, h2, h3, if_false]
          exact this

theorem firstFree_not_mem (live : List Int) :
    ∀ (fuel : Nat) (start : Int),
      (live.filter (fun x => start ≤ x)).length < fuel →
      firstFree live fuel start ∉ live := by
  intro fuel
  induction fuel with
  | zero => intro start h; omega
  | succ n ih =>
    intro start h
    rw [firstFree]
    by_cases hmem : start ∈ live
    · rw [if_pos hmem]
      apply ih
      have := length_filter_le_sub live start hmem
      omega
    · rw [if_neg hmem]
      exact hmem

/-- The id returned by `createEntity` is not already live. -/
theorem createEntity_fresh (s : EMState) :
    (createEntity s).1 ∉ s.entities := by
  apply firstFree_not_mem
  exact Nat.lt_succ_of_le (Nat.le_refl _)

/-- The id returned by `createEntity` is at least the current counter. -/
theorem firstFree_ge (live : List Int) :
    ∀ (fuel : Nat) (start : Int), start ≤ firstFree live fuel start := by
  intro fuel
  induction fuel with
  | zero => intro start; simp [firstFree]
  | succ n ih =>
    intro start
    simp only [firstFree]
    by_cases hmem : start ∈ live
    · simp only [hmem, if_true]
      have := ih (start + 1)
      omega
    · simp [hmem]

theorem createEntity_ge (s : EMState) : s.nextEntityId ≤ (createEntity s).1 :=
  firstFree_ge _ _ _

theorem createEntity_next (s : EMState) :
    (createEntity s).2.nextEntityId = (createEntity s).1 + 1 := rfl

/-- The scan returns the first gap: every id from `start` up to (but
excluding) the returned one is live. -/
theorem firstFree_min (live : List Int) :
    ∀ (fuel : Nat) (start x : Int), start ≤ x →
      x < firstFree live fuel start → x ∈ live := by
  intro fuel
  induction fuel with
  | zero =>
    intro start x h1 h2
    rw [firstFree] at h2
    omega
  | succ n ih =>
    intro start x h1 h2
    rw [firstFree] at h2
    by_cases hmem : start ∈ live
    · rw [if_pos hmem] at h2
      by_cases hx : x = start
      · exact hx ▸ hmem
      · exact ih (start + 1) x (by omega) h2
    · rw [if_neg hmem] at h2
      omega

/-- `createEntity` allocates the smallest non-live id at or above the
counter: every id between the counter and the returned id is live. -/
theorem createEntity_min (s : EMState) :
    ∀ x : Int, s.nextEntityId ≤ x → x < (createEntity s).1 →
      x ∈ s.entities :=
  fun x h1 h2 => firstFree_min s.entities _ s.nextEntityId x h1 h2

/-! ## Component map / index helpers (the `_`-prefixed private methods) -/

/-- `this.entityComponents.get(entityId)?.set(componentType, component)` —
a silent no-op when the entity has no component map. -/
def setComp (s : EMState) (id : Int) (ty : String) (c : Comp) : EMState :=
  match mapGet s.comps id with
  | none => s
  | some m => { s with comps := mapSet s.comps id (mapSet m ty c) }

/-- `components.delete(componentType)` on the entity's component map. -/
def delComp (s : EMState) (id : Int) (ty : String) : EMState :=
  match mapGet s.comps id with
  | none => s
  | some m => { s with comps := mapSet s.comps id (mapDel m ty) }

/-- `_addComponentToEntityMap`: create the per-type set on demand, add id. -/
def indexAdd (s : EMState) (ty : String) (id : Int) : EMState :=
  match mapGet s.index ty with
  | none => { s with index := mapSet s.index ty [id] }
  | some st => { s with index := mapSet s.index ty (jsSetAdd st id) }

/-- `_removeComponentFromEntityMap`. -/
def indexDel (s : EMState) (ty : String) (id : Int) : EMState :=
  match mapGet s.index ty with
  | none => s
  | some st => { s with index := mapSet s.index ty (jsSetDel st id) }

/-- Overwrite the stored `'transform'` component of `id` (the Lean image of
mutating the shared component object in place). -/
def putTransform (s : EMState) (id : Int) (t : Transform) : EMState :=
  setComp s id "transform" (Comp.transform t)

/-! ## setParent (`EntityManager.setParent`, lines 346-393) -/

/-- Outcome of the ancestor walk in `setParent`'s circular-dependency
check. -/
inductive WalkRes : Type where
  | ok
  | cycle
  | broken
  | fuelOut
deriving Repr, DecidableEq

/-- The `while (ancestorId !== null)` walk: climbs parent links from the
prospective parent; `cycle` when it meets the child being re-parented,
`broken` when an ancestor lacks a transform.  `fuelOut` stands for the
JS loop spinning forever, which cannot happen on a store whose hierarchy
is acyclic (proved below). -/
def walkAnc (s : EMState) (target : Int) : Nat → Option Int → WalkRes
  | _, none => .ok
  | 0, some _ => .fuelOut
  | fuel + 1, some a =>
    if a = target then .cycle
    else
      match getTransform s a with
      | none => .broken
      | some t => walkAnc s target fuel t.parent

/-- "Update Old Parent": remove the child from its old parent's child set
(when there is an old parent different from the new one). -/
def detachOld (s : EMState) (entityId : Int) (oldP newP : Option Int) :
    EMState :=
  match oldP with
  | some o =>
    if some o ≠ newP then
      match getTransform s o with
      | some t => putTransform s o { t with children := jsSetDel t.children entityId }
      | none => s
    else s
  | none => s

/-- "Update New Parent": add the child to the new parent's child set. -/
def attachNew (s : EMState) (entityId : Int) (newP : Option Int) : EMState :=
  match newP with
  | some p =>
    match getTransform s p with
    | some t => putTransform s p { t with children := jsSetAdd t.children entityId }
    | none => s
  | none => s

/-- "Update Child": write the child's own parent field. -/
def writeParent (s : EMState) (entityId : Int) (newP : Option Int) : EMState :=
  match getTransform s entityId with
  | some t => putTransform s entityId { t with parent := newP }
  | none => s

/-- The mutation phase of `setParent`: update old parent, update new
parent, update child, in source order. -/
def spApply (s : EMState) (entityId : Int) (oldP newP : Option Int) :
    EMState :=
  writeParent (attachNew (detachOld s entityId oldP newP) entityId newP)
    entityId newP

/-- `setParent(entityId, newParentId)`: validation, no-op success when the
parent is unchanged, cycle check, then detach from the old parent's child
set, attach to the new parent's child set, and update the child's parent
field. -/
def setParent (s : EMState) (entityId : Int) (newParentId : Option Int) :
    Bool × EMState :=
  if hasEntity s entityId = false then (false, s)
  else if (match newParentId with
    | some p => !hasEntity s p
    | none => false) then (false, s)
  else if newParentId = some entityId then (false, s)
  else
    match getTransform s entityId with
    | none => (false, s)
    | some childT =>
      if (match newParentId with
        | some p => (getTransform s p).isNone
        | none => false) then (false, s)
      else if childT.parent = newParentId then (true, s)
      else
        match walkAnc s entityId (s.entities.length + 1) newParentId with
        | .ok => (true, spApply s entityId childT.parent newParentId)
        | _ => (false, s)

/-! ## addComponent (`EntityManager.addComponent`, lines 168-267) -/

/-- Strict comparison `component.parent !== targetParent` between the
stored parent (number or null) and the raw data value. -/
def parentEqVal (p : Option Int) (v : Value) : Bool :=
  match p, v with
  | some n, .num m => n = m
  | none, .nul => true
  | _, _ => false

/-- One step of the update-merge loop: assign `component[key] = value` when
the instance has the property.  For a transform the own properties are
position/rotation/scale/parent/children; a non-array value assigned to one
of the three array fields, and any write to `children`, are modelled as
leaving the field unchanged (see the modelling notes; both are
unreachable through `addComponent('transform', ...)`, which intercepts
`parent` and `children`). -/
def updateCompField (c : Comp) (key : String) (v : Value) : Comp :=
  match c with
  | .data ser f =>
    if key ∈ f.map Prod.fst then .data ser (mapSet f key v) else .data ser f
  | .transform t =>
    if key = "position" then
      match v with
      | .arr xs => .transform { t with position := xs }
      | _ => .transform t
    else if key = "rotation" then
      match v with
      | .arr xs => .transform { t with rotation := xs }
      | _ => .transform t
    else if key = "scale" then
      match v with
      | .arr xs => .transform { t with scale := xs }
      | _ => .transform t
    else if key = "parent" then .transform { t with parent := valToParent v }
    else .transform t

/-- `addComponent(entityId, componentType, data)`.  Returns the component
(`none` on failure) and the updated store. -/
def addComponent (reg : Registry) (s : EMState) (id : Int) (ty : String)
    (data : Fields) : Option Comp × EMState :=
  if ty.trim = "" then (none, s)
  else if hasEntity s id = false then (none, s)
  else
    match reg ty with
    | none => (none, s)
    | some spec =>
      -- `const componentData = { ...data }; delete componentData.source;`
      let componentData := data.filter (fun kv => kv.1 ≠ "source")
      match getComp s id ty with
      | none =>
        match spec with
        | .transformSpec =>
          match mkTransform componentData with
          | none => (none, s)   -- the constructor threw before anything was stored
          | some t =>
            let c := Comp.transform t
            (some c, indexAdd (setComp s id ty c) ty id)
        | .dataSpec build ser =>
          let c := Comp.data ser (build componentData)
          (some c, indexAdd (setComp s id ty c) ty id)
      | some c₀ =>
        -- update path: merge fields, intercepting parent/children for the
        -- hierarchy type
        let acc := componentData.foldl
          (fun (acc : Comp × Option Value) kv =>
            if ty = "transform" ∧ kv.1 = "parent" then (acc.1, some kv.2)
            else if ty = "transform" ∧ kv.1 = "children" then acc
            else (updateCompField acc.1 kv.1 kv.2, acc.2))
          (c₀, none)
        let c₁ := acc.1
        let s₁ := setComp s id ty c₁
        let s₂ :=
          match acc.2 with
          | none => s₁
          | some v =>
            match c₁ with
            | .transform t =>
              if parentEqVal t.parent v then s₁
              else
                match v with
                | .num n => (setParent s₁ id (some n)).2
                | .nul => (setParent s₁ id none).2
                | _ => s₁   -- setParent rejects a non-number, non-null parent
            | .data _ _ => s₁   -- unreachable: the stored 'transform' is a transform
        (some c₁, s₂)

/-! ## removeComponent (`EntityManager.removeComponent`, lines 276-328) -/

/-- `removeComponent(entityId, componentType)`: for the hierarchy type,
re-root every child and detach from the own parent first. -/
def removeComponent (s : EMState) (id : Int) (ty : String) : Bool × EMState :=
  if ty.trim = "" then (false, s)
  else if hasEntity s id = false then (false, s)
  else
    match getComp s id ty with
    | none => (false, s)
    | some c =>
      let s₁ :=
        if ty = "transform" then
          match c with
          | .transform t =>
            let sA := t.children.foldl
              (fun st cid =>
                if hasEntity st cid then (setParent st cid none).2 else st) s
            let curParent :=
              match getTransform sA id with
              | some tNow => tNow.parent
              | none => t.parent
            match curParent with
            | none => sA
            | some pid =>
              match getTransform sA pid with
              | some pT =>
                putTransform sA pid
                  { pT with children := jsSetDel pT.children id }
              | none => sA
          | .data _ _ => s
        else s
      -- onRemove() is a pure self-mutation of the component being deleted
      (true, indexDel (delComp s₁ id ty) ty id)

/-! ## removeEntity (`EntityManager.removeEntity`, lines 73-148) -/

/-- `removeEntity(entityId)`, fuelled for the recursive subtree removal.
The public entry point supplies enough fuel for any store whose hierarchy
is acyclic; running out of fuel models the unbounded JS recursion and
cannot be reached from a public call on such a store. -/
def removeEntity : Nat → EMState → Int → Bool × EMState
  | 0, s, _ => (false, s)
  | fuel + 1, s, id =>
    if hasEntity s id = false then (false, s)
    else
      let s₁ :=
        match getTransform s id with
        | none => s
        | some t =>
          let sA := if t.parent ≠ none then (setParent s id none).2 else s
          let kids :=
            match getTransform sA id with
            | some tNow => tNow.children
            | none => t.children
          let sB := kids.foldl
            (fun st cid =>
              if hasEntity st cid then (removeEntity fuel st cid).2 else st) sA
          match getTransform sB id with
          | some tEnd => putTransform sB id { tEnd with parent := none, children := [] }
          | none => sB
      let s₂ :=
        match mapGet s₁.comps id with
        | none => s₁
        | some m => (m.map Prod.fst).foldl (fun st ty => indexDel st ty id) s₁
      (true,
       { s₂ with
         comps := mapDel s₂.comps id
         entities := jsSetDel s₂.entities id })

/-- The public `removeEntity` call. -/
def removeEntityTop (s : EMState) (id : Int) : Bool × EMState :=
  removeEntity (s.entities.length + 1) s id

/-! ## Queries -/

/-- `getEntitiesWithComponent(componentType)`. -/
def getEntitiesWithComponent (s : EMState) (ty : String) : List Int :=
  if ty.trim = "" then [] else (mapGet s.index ty).getD []

/-- `getChildren(entityId)`. -/
def getChildren (s : EMState) (id : Int) : List Int :=
  if hasEntity s id then
    match getTransform s id with
    | some t => t.children
    | none => []
  else []

/-! ## clear (`EntityManager.clear`) -/

/-- `clear()`: removes every entity through `removeEntity` (whose only
unmodelled effects are events and logging) and then unconditionally
resets the live set, the component maps, the index and the id counter —
so the resulting store is exactly a fresh one. -/
def clear (_s : EMState) : EMState := initEM

/-! ## Serialization (`getEntityState` / `serialize` / `deserialize`) -/

/-- A parsed scene document: `{ entities: [ { id, components } ] }`. -/
abbrev SceneDoc := List (Int × List (String × Fields))

/-- `getEntityState(entityId)`: serialize each component of the entity. -/
def getEntityState (s : EMState) (id : Int) :
    Option (List (String × Fields)) :=
  if hasEntity s id = false then none
  else
    match mapGet s.comps id with
    | none => some []
    | some m => some (m.map (fun kv => (kv.1, serializeComp kv.2)))

/-- `serialize()`: entity records in ascending id order. -/
def serializeEM (s : EMState) : SceneDoc :=
  (s.entities.insertionSort (fun a b => a ≤ b)).filterMap
    (fun id => (getEntityState s id).map (fun cs => (id, cs)))

/-- `_restoreSingleEntityBase(id, entityData)`. -/
def restoreBase (s : EMState) (id : Int) : EMState :=
  if hasEntity s id then
    let types :=
      match mapGet s.comps id with
      | some m => m.map Prod.fst
      | none => []
    let s₁ := types.foldl (fun st ty => (removeComponent st id ty).2) s
    { s₁ with comps := mapSet s₁.comps id [] }
  else
    { s with
      entities := jsSetAdd s.entities id
      comps := mapSet s.comps id []
      nextEntityId := if s.nextEntityId ≤ id then id + 1 else s.nextEntityId }

/-- `_restoreEntityComponents(id, componentsData)`: restore each component
through `addComponent`, stripping `parent`/`children` from the hierarchy
component's record; the `source: 'deserialize'` marker added here is
removed again inside `addComponent`.  Returns the error count. -/
def restoreComps (reg : Registry) (s : EMState) (id : Int)
    (cs : List (String × Fields)) : Nat × EMState :=
  cs.foldl
    (fun (acc : Nat × EMState) tyf =>
      if (reg tyf.1).isNone then (acc.1 + 1, acc.2)
      else
        let compData :=
          if tyf.1 = "transform" then
            tyf.2.filter (fun kv => kv.1 ≠ "parent" ∧ kv.1 ≠ "children")
          else tyf.2
        match addComponent reg acc.2 id tyf.1 compData with
        | (none, st) => (acc.1 + 1, st)
        | (some _, st) => (acc.1, st))
    (0, s)

/-- Pass 1 of `deserialize`: restore entities and components, tracking the
highest restored id, the restored-id set and the failure count. -/
def pass1 (reg : Registry) (s : EMState) (doc : SceneDoc) :
    EMState × Int × List Int × Nat :=
  doc.foldl
    (fun acc ent =>
      let st₁ := restoreBase acc.1 ent.1
      let r := restoreComps reg st₁ ent.1 ent.2
      if r.1 = 0 then
        (r.2, max acc.2.1 ent.1, jsSetAdd acc.2.2.1 ent.1, acc.2.2.2)
      else
        (r.2, acc.2.1, acc.2.2.1, acc.2.2.2 + 1))
    (s, 0, [], 0)

/-- Pass 2 of `deserialize`: rebuild the hierarchy from each restored
entity's recorded `parent`, re-rooting dangling or invalid references.
Returns the hierarchy error count. -/
def pass2 (s : EMState) (doc : SceneDoc) (restored : List Int) :
    Nat × EMState :=
  restored.foldl
    (fun (acc : Nat × EMState) eid =>
      match mapGet doc eid with
      | none => acc
      | some comps =>
        match mapGet comps "transform" with
        | none => acc
        | some tf =>
          match mapGet tf "parent" with
          | none => acc
          | some pv =>
            match pv with
            | .num p =>
              if p ∈ restored then
                match setParent acc.2 eid (some p) with
                | (true, st) => (acc.1, st)
                | (false, st) => (acc.1 + 1, st)
              else (acc.1 + 1, (setParent acc.2 eid none).2)
            | .nul =>
              match setParent acc.2 eid none with
              | (true, st) => (acc.1, st)
              | (false, st) => (acc.1 + 1, st)
            | _ => (acc.1 + 1, (setParent acc.2 eid none).2))
    (0, s)

/-- `deserialize(document)` on an already-parsed document: clear, pass 1,
pass 2, then re-seat the id counter above the highest restored id. -/
def deserialize (reg : Registry) (_s : EMState) (doc : SceneDoc) :
    Bool × EMState :=
  let s₀ := initEM   -- this.clear()
  let p1 := pass1 reg s₀ doc
  let s₁ := p1.1
  let highest := p1.2.1
  let restored := p1.2.2.1
  let failed := p1.2.2.2
  let p2 := pass2 s₁ doc restored
  let herrs := p2.1
  let s₂ := p2.2
  let nxt := firstFree s₂.entities
    ((s₂.entities.filter (fun x => highest + 1 ≤ x)).length + 1) (highest + 1)
  let nxt := if nxt < 1 then 1 else nxt
  (decide (failed = 0) && decide (herrs = 0),
   { s₂ with nextEntityId := nxt })

/-! ## Generic fold invariants -/

theorem foldl_pres {σ α : Type} (P : σ → Prop) (f : σ → α → σ)
    (l : List α) (s : σ) (h0 : P s)
    (hstep : ∀ st x, x ∈ l → P st → P (f st x)) : P (l.foldl f s) := by
  induction l generalizing s with
  | nil => exact h0
  | cons a rest ih =>
    exact ih (f s a) (hstep s a (by simp) h0)
      (fun st x hx => hstep st x (by simp [hx]))

/-! ## State-shell preservation lemmas

The mutators on component maps never touch the live-entity set, the id
counter, or (for the hierarchy mutators) the type index. -/

theorem setComp_shell (s : EMState) (id : Int) (ty : String) (c : Comp) :
    (setComp s id ty c).entities = s.entities ∧
    (setComp s id ty c).nextEntityId = s.nextEntityId ∧
    (setComp s id ty c).index = s.index := by
  unfold setComp
  cases mapGet s.comps id <;> exact ⟨rfl, rfl, rfl⟩

theorem putTransform_shell (s : EMState) (id : Int) (t : Transform) :
    (putTransform s id t).entities = s.entities ∧
    (putTransform s id t).nextEntityId = s.nextEntityId ∧
    (putTransform s id t).index = s.index :=
  setComp_shell s id "transform" (Comp.transform t)

theorem detachOld_shell (s : EMState) (e : Int) (oldP newP : Option Int) :
    (detachOld s e oldP newP).entities = s.entities ∧
    (detachOld s e oldP newP).nextEntityId = s.nextEntityId ∧
    (detachOld s e oldP newP).index = s.index := by
  unfold detachOld
  repeat' split
  all_goals first
    | exact ⟨rfl, rfl, rfl⟩
    | exact putTransform_shell ..

theorem attachNew_shell (s : EMState) (e : Int) (newP : Option Int) :
    (attachNew s e newP).entities = s.entities ∧
    (attachNew s e newP).nextEntityId = s.nextEntityId ∧
    (attachNew s e newP).index = s.index := by
  unfold attachNew
  repeat' split
  all_goals first
    | exact ⟨rfl, rfl, rfl⟩
    | exact putTransform_shell ..

theorem writeParent_shell (s : EMState) (e : Int) (newP : Option Int) :
    (writeParent s e newP).entities = s.entities ∧
    (writeParent s e newP).nextEntityId = s.nextEntityId ∧
    (writeParent s e newP).index = s.index := by
  unfold writeParent
  repeat' split
  all_goals first
    | exact ⟨rfl, rfl, rfl⟩
    | exact putTransform_shell ..

theorem spMut_shell (s : EMState) (e : Int) (oldP p : Option Int) :
    (spApply s e oldP p).entities = s.entities ∧
    (spApply s e oldP p).nextEntityId = s.nextEntityId ∧
    (spApply s e oldP p).index = s.index := by
  unfold spApply
  obtain ⟨h1, h2, h3⟩ := detachOld_shell s e oldP p
  obtain ⟨h4, h5, h6⟩ := attachNew_shell (detachOld s e oldP p) e p
  obtain ⟨h7, h8, h9⟩ :=
    writeParent_shell (attachNew (detachOld s e oldP p) e p) e p
  exact ⟨by rw [h7, h4, h1], by rw [h8, h5, h2], by rw [h9, h6, h3]⟩

theorem setParent_shell (s : EMState) (e : Int) (p : Option Int) :
    ((setParent s e p).2).entities = s.entities ∧
    ((setParent s e p).2).nextEntityId = s.nextEntityId ∧
    ((setParent s e p).2).index = s.index := by
  unfold setParent
  repeat' split
  all_goals first
    | exact ⟨rfl, rfl, rfl⟩
    | exact spMut_shell ..

theorem delComp_shell (s : EMState) (id : Int) (ty : String) :
    (delComp s id ty).entities = s.entities ∧
    (delComp s id ty).nextEntityId = s.nextEntityId ∧
    (delComp s id ty).index = s.index := by
  unfold delComp
  cases mapGet s.comps id <;> exact ⟨rfl, rfl, rfl⟩

theorem indexDel_keeps (s : EMState) (ty : String) (id : Int) :
    (indexDel s ty id).entities = s.entities ∧
    (indexDel s ty id).nextEntityId = s.nextEntityId ∧
    (indexDel s ty id).comps = s.comps := by
  unfold indexDel
  cases mapGet s.index ty <;> exact ⟨rfl, rfl, rfl⟩

theorem indexAdd_keeps (s : EMState) (ty : String) (id : Int) :
    (indexAdd s ty id).entities = s.entities ∧
    (indexAdd s ty id).nextEntityId = s.nextEntityId ∧
    (indexAdd s ty id).comps = s.comps := by
  unfold indexAdd
  cases mapGet s.index ty <;> exact ⟨rfl, rfl, rfl⟩

/-- `removeEntity` never touches the id counter, and only ever shrinks the
live-entity list. -/
theorem removeEntity_shell : ∀ (fuel : Nat) (s : EMState) (id : Int),
    ((removeEntity fuel s id).2).nextEntityId = s.nextEntityId ∧
    List.Sublist ((removeEntity fuel s id).2).entities s.entities := by
  intro fuel
  induction fuel with
  | zero => intro s id; exact ⟨rfl, List.Sublist.refl _⟩
  | succ n ih =>
    intro s id
    rw [removeEntity]
    by_cases h : hasEntity s id = false
    · rw [if_pos h]; exact ⟨rfl, List.Sublist.refl _⟩
    · rw [if_neg h]
      dsimp only
      set s₁ :=
        match getTransform s id with
        | none => s
        | some t =>
          let sA := if t.parent ≠ none then (setParent s id none).2 else s
          let kids :=
            match getTransform sA id with
            | some tNow => tNow.children
            | none => t.children
          let sB := kids.foldl
            (fun st cid =>
              if hasEntity st cid then (removeEntity n st cid).2 else st) sA
          match getTransform sB id with
          | some tEnd =>
            putTransform sB id { tEnd with parent := none, children := [] }
          | none => sB
        with hs₁
      have hstage1 : s₁.nextEntityId = s.nextEntityId ∧
          List.Sublist s₁.entities s.entities := by
        rw [hs₁]
        cases hT : getTransform s id with
        | none => exact ⟨rfl, List.Sublist.refl _⟩
        | some t =>
          dsimp only
          set sA := if t.parent ≠ none then (setParent s id none).2 else s
            with hsA
          have hA : sA.nextEntityId = s.nextEntityId ∧
              List.Sublist sA.entities s.entities := by
            rw [hsA]
            by_cases hp : t.parent ≠ none
            · rw [if_pos hp]
              exact ⟨(setParent_shell s id none).2.1,
                (setParent_shell s id none).1 ▸ List.Sublist.refl _⟩
            · rw [if_neg hp]; exact ⟨rfl, List.Sublist.refl _⟩
          set kids :=
            match getTransform sA id with
            | some tNow => tNow.children
            | none => t.children
          set sB := kids.foldl
            (fun st cid =>
              if hasEntity st cid then (removeEntity n st cid).2 else st) sA
            with hsB
          have hB : sB.nextEntityId = s.nextEntityId ∧
              List.Sublist sB.entities s.entities := by
            rw [hsB]
            refine foldl_pres
              (fun st : EMState => st.nextEntityId = s.nextEntityId ∧
                List.Sublist st.entities s.entities) _ kids sA hA ?_
            intro st cid _ hst
            by_cases hc : hasEntity st cid
            · rw [if_pos hc]
              obtain ⟨hn, he⟩ := ih st cid
              exact ⟨hn.trans hst.1, he.trans hst.2⟩
            · rw [if_neg hc]; exact hst
          cases hTB : getTransform sB id with
          | none => exact hB
          | some tEnd =>
            dsimp only
            obtain ⟨hpn, _, _⟩ := putTransform_shell sB id
              { tEnd with parent := none, children := [] }
            obtain ⟨_, hpe, _⟩ := putTransform_shell sB id
              { tEnd with parent := none, children := [] }
            refine ⟨?_, ?_⟩
            · rw [(putTransform_shell sB id _).2.1, hB.1]
            · rw [(putTransform_shell sB id _).1]
              exact hB.2
      set s₂ :=
        match mapGet s₁.comps id with
        | none => s₁
        | some m => (m.map Prod.fst).foldl (fun st ty => indexDel st ty id) s₁
        with hs₂
      have hstage2 : s₂.nextEntityId = s.nextEntityId ∧
          List.Sublist s₂.entities s.entities := by
        rw [hs₂]
        cases mapGet s₁.comps id with
        | none => exact hstage1
        | some m =>
          dsimp only
          refine foldl_pres
            (fun st : EMState => st.nextEntityId = s.nextEntityId ∧
              List.Sublist st.entities s.entities) _ _ _ hstage1 ?_
          intro st ty _ hst
          obtain ⟨he, hn, _⟩ := indexDel_keeps st ty id
          exact ⟨hn.trans hst.1, he ▸ hst.2⟩
      exact ⟨hstage2.1, (List.filter_sublist _).trans hstage2.2⟩

/-! ## Runs of `createEntity` / `removeEntity` (claims C9 and C10) -/

/-- One step of a run consisting only of entity creation and removal. -/
inductive CrOp : Type where
  | create
  | remove (id : Int)

/-- Apply one step. -/
def applyCr (s : EMState) : CrOp → EMState
  | .create => (createEntity s).2
  | .remove id => (removeEntityTop s id).2

/-- Run a sequence of creations/removals. -/
def runCr (s : EMState) (ops : List CrOp) : EMState := ops.foldl applyCr s

/-- Every live entity id sits strictly below the id counter. -/
def LiveBelowNext (s : EMState) : Prop :=
  ∀ e ∈ s.entities, e < s.nextEntityId

theorem createEntity_entities (s : EMState) :
    (createEntity s).2.entities = jsSetAdd s.entities (createEntity s).1 := rfl

theorem jsSetAdd_nodup {l : List Int} {x : Int} (h : l.Nodup) :
    (jsSetAdd l x).Nodup := by
  unfold jsSetAdd
  by_cases hx : x ∈ l
  · rw [if_pos hx]; exact h
  · rw [if_neg hx]
    simp [List.nodup_append, h, hx]

theorem runCr_next_mono (ops : List CrOp) :
    ∀ s : EMState, s.nextEntityId ≤ (runCr s ops).nextEntityId := by
  induction ops with
  | nil => intro s; exact Int.le_refl _
  | cons op rest ih =>
    intro s
    have hstep : s.nextEntityId ≤ (applyCr s op).nextEntityId := by
      cases op with
      | create =>
        have h1 := createEntity_ge s
        have h2 := createEntity_next s
        show s.nextEntityId ≤ (createEntity s).2.nextEntityId
        omega
      | remove id =>
        show s.nextEntityId ≤ ((removeEntityTop s id).2).nextEntityId
        unfold removeEntityTop
        rw [(removeEntity_shell (s.entities.length + 1) s id).1]
    exact hstep.trans (ih (applyCr s op))

theorem runCr_nodup (ops : List CrOp) :
    ∀ s : EMState, s.entities.Nodup → (runCr s ops).entities.Nodup := by
  induction ops with
  | nil => intro s h; exact h
  | cons op rest ih =>
    intro s h
    apply ih
    cases op with
    | create =>
      show (jsSetAdd s.entities (createEntity s).1).Nodup
      exact jsSetAdd_nodup h
    | remove id =>
      exact ((removeEntity_shell _ s id).2).nodup h

/-- Claim C9, as stated, is false: after `create; create; remove(1)` the id
1 is free (and is the lowest free id, 1 being the declared starting
point), yet the next `createEntity` returns 3 — the allocator is a
monotonic counter, not lowest-free-id. -/
theorem C9_counterexample :
    hasEntity (removeEntityTop (createEntity (createEntity initEM).2).2 1).2
        1 = false ∧
    (createEntity
        (removeEntityTop (createEntity (createEntity initEM).2).2 1).2).1
      = 3 := by
  constructor <;> rfl

/-- Claim C10: in runs consisting only of `createEntity`/`removeEntity`,
successive `createEntity` results strictly increase, and the id of a
removed entity is never handed out again by a later `createEntity`
(stores whose live ids sit below the counter — true of every store such a
run can start from). -/
theorem C10_create_ids_increase :
    (∀ (s : EMState) (ops : List CrOp),
      (createEntity s).1 < (createEntity (runCr (createEntity s).2 ops)).1) ∧
    (∀ (s : EMState) (id : Int) (ops : List CrOp),
      LiveBelowNext s → id ∈ s.entities →
      (createEntity (runCr (removeEntityTop s id).2 ops)).1 ≠ id) := by
  constructor
  · intro s ops
    have h1 := createEntity_next s
    have h2 := runCr_next_mono ops (createEntity s).2
    have h3 := createEntity_ge (runCr (createEntity s).2 ops)
    omega
  · intro s id ops hlb hmem
    have hid : id < s.nextEntityId := hlb id hmem
    have h0 : ((removeEntityTop s id).2).nextEntityId = s.nextEntityId :=
      (removeEntity_shell _ s id).1
    have h2 := runCr_next_mono ops (removeEntityTop s id).2
    have h3 := createEntity_ge (runCr (removeEntityTop s id).2 ops)
    omega

/-- Witness for the hypotheses of C10: a store with two live entities,
where removing entity 1 and creating again yields 3, not 1. -/
theorem C10_create_ids_increase_witness :
    LiveBelowNext (createEntity (createEntity initEM).2).2 ∧
    (1 : Int) ∈ (createEntity (createEntity initEM).2).2.entities ∧
    (createEntity
        (runCr (removeEntityTop (createEntity (createEntity initEM).2).2 1).2
          [])).1 ≠ 1 := by
  have hlb : LiveBelowNext (createEntity (createEntity initEM).2).2 := by
    unfold LiveBelowNext
    decide
  exact ⟨hlb, by decide,
    C10_create_ids_increase.2 _ 1 [] hlb (by decide)⟩

/-! # CommandManager (`src/editor/command-manager.js`, in `test/setup.js`)

A command carries its `isUndoable` flag and the (deterministic) outcome of
its `execute()` / `undo()` operations; the manager owns the two stacks, the
configured bound and the reentrancy flag.  Each operation returns the new
state together with whether it emitted a `change` event. -/

/-- A `Command` object. -/
structure Command : Type where
  name : String
  isUndoable : Bool
  execThrows : Bool
  undoThrows : Bool
deriving Repr, DecidableEq

/-- `CommandManager` state. -/
structure CMState : Type where
  undoStack : List Command
  redoStack : List Command
  maxStackSize : Nat
  isExecuting : Bool
deriving Repr, DecidableEq

/-- `new CommandManager()`. -/
def mkCommandManager : CMState := ⟨[], [], 100, false⟩

/-- `execute(command)`: reentrancy guard, run the command, on success push
undoable commands (evicting the oldest above the bound) and clear the redo
stack, emit `change`; on an exception only log — the `change` emission in
the source sits inside the `try` block, after the push logic, so a throwing
command emits nothing; the `finally` always clears the busy flag. -/
def cmExecute (s : CMState) (c : Command) : CMState × Bool :=
  if s.isExecuting then (s, false)
  else if c.execThrows then
    ({ s with isExecuting := false }, false)
  else
    let s₁ :=
      if c.isUndoable then
        let u := s.undoStack ++ [c]
        let u := if u.length > s.maxStackSize then u.tail else u
        { s with undoStack := u, redoStack := [] }
      else if s.redoStack.length > 0 then { s with redoStack := [] }
      else s
    ({ s₁ with isExecuting := false }, true)

/-- `undo()`. -/
def cmUndo (s : CMState) : CMState × Bool :=
  if s.isExecuting then (s, false)
  else
    match s.undoStack.getLast? with
    | none => (s, false)
    | some c =>
      let rest := s.undoStack.dropLast
      if c.isUndoable = false then
        ({ s with undoStack := rest }, true)
      else if c.undoThrows then
        ({ s with undoStack := rest ++ [c], isExecuting := false }, true)
      else
        ({ s with
            undoStack := rest
            redoStack := s.redoStack ++ [c]
            isExecuting := false }, true)

/-- `redo()`: replays `execute()` and pushes back onto the undo stack
(with no bound check in the source). -/
def cmRedo (s : CMState) : CMState × Bool :=
  if s.isExecuting then (s, false)
  else
    match s.redoStack.getLast? with
    | none => (s, false)
    | some c =>
      let rest := s.redoStack.dropLast
      if c.isUndoable = false then
        ({ s with redoStack := rest }, true)
      else if c.execThrows then
        ({ s with redoStack := rest ++ [c], isExecuting := false }, true)
      else
        ({ s with
            redoStack := rest
            undoStack := s.undoStack ++ [c]
            isExecuting := false }, true)

/-- `clear()`. -/
def cmClear (s : CMState) : CMState × Bool :=
  ({ s with undoStack := [], redoStack := [] }, true)

/-- The stack-usage invariant of reachable command-manager states. -/
abbrev CMInv (s : CMState) : Prop :=
  s.undoStack.length + s.redoStack.length ≤ s.maxStackSize

/-- A successful undoable command used in concrete scenarios. -/
def cmdOk (nm : String) : Command := ⟨nm, true, false, false⟩

/-- An undoable command whose `execute()` throws. -/
def cmdBad : Command := ⟨"bad", true, true, false⟩

theorem cmExecute_inv (s : CMState) (c : Command) (h : CMInv s) :
    CMInv (cmExecute s c).1 := by
  unfold cmExecute
  by_cases hb : s.isExecuting
  · rw [if_pos hb]; exact h
  · rw [if_neg hb]
    by_cases ht : c.execThrows
    · rw [if_pos ht]; exact h
    · rw [if_neg ht]
      by_cases hu : c.isUndoable
      · simp only [hu, if_true]
        by_cases hlen : (s.undoStack ++ [c]).length > s.maxStackSize
        · simp only [hlen, if_pos, if_true]
          show (s.undoStack ++ [c]).tail.length + ([] : List Command).length ≤
            s.maxStackSize
          have h1 : (s.undoStack ++ [c]).length = s.undoStack.length + 1 := by
            simp
          have h2 := List.length_tail (s.undoStack ++ [c])
          simp only [List.length_nil]
          omega
        · simp only [hlen, if_neg, if_false]
          show (s.undoStack ++ [c]).length + ([] : List Command).length ≤
            s.maxStackSize
          have h1 : (s.undoStack ++ [c]).length = s.undoStack.length + 1 := by
            simp
          simp only [List.length_nil]
          omega
      · simp only [hu, if_false]
        by_cases hr : s.redoStack.length > 0
        · simp only [hr, if_true]
          show s.undoStack.length + ([] : List Command).length ≤ s.maxStackSize
          simp only [List.length_nil]
          omega
        · simp only [hr, if_false]
          exact h

theorem cmUndo_inv (s : CMState) (h : CMInv s) : CMInv (cmUndo s).1 := by
  unfold cmUndo
  by_cases hb : s.isExecuting
  · rw [if_pos hb]; exact h
  · rw [if_neg hb]
    cases hl : s.undoStack.getLast? with
    | none => exact h
    | some c =>
      have hne : s.undoStack ≠ [] := by
        intro he; rw [he] at hl; simp at hl
      have hlen : s.undoStack.dropLast.length = s.undoStack.length - 1 := by
        simp [List.length_dropLast]
      have hpos : 0 < s.undoStack.length := List.length_pos.mpr hne
      dsimp only
      by_cases hu : c.isUndoable = false
      · simp only [hu, if_true]
        show s.undoStack.dropLast.length + s.redoStack.length ≤ s.maxStackSize
        omega
      · simp only [hu, if_false]
        by_cases hut : c.undoThrows
        · simp only [hut, if_true]
          show (s.undoStack.dropLast ++ [c]).length + s.redoStack.length ≤
            s.maxStackSize
          have : (s.undoStack.dropLast ++ [c]).length =
              s.undoStack.dropLast.length + 1 := by simp
          omega
        · simp only [hut, if_false]
          show s.undoStack.dropLast.length + (s.redoStack ++ [c]).length ≤
            s.maxStackSize
          have : (s.redoStack ++ [c]).length = s.redoStack.length + 1 := by simp
          omega

theorem cmRedo_inv (s : CMState) (h : CMInv s) : CMInv (cmRedo s).1 := by
  unfold cmRedo
  by_cases hb : s.isExecuting
  · rw [if_pos hb]; exact h
  · rw [if_neg hb]
    cases hl : s.redoStack.getLast? with
    | none => exact h
    | some c =>
      have hne : s.redoStack ≠ [] := by
        intro he; rw [he] at hl; simp at hl
      have hlen : s.redoStack.dropLast.length = s.redoStack.length - 1 := by
        simp [List.length_dropLast]
      have hpos : 0 < s.redoStack.length := List.length_pos.mpr hne
      dsimp only
      by_cases hu : c.isUndoable = false
      · simp only [hu, if_true]
        show s.undoStack.length + s.redoStack.dropLast.length ≤ s.maxStackSize
        omega
      · simp only [hu, if_false]
        by_cases het : c.execThrows
        · simp only [het, if_true]
          show s.undoStack.length + (s.redoStack.dropLast ++ [c]).length ≤
            s.maxStackSize
          have : (s.redoStack.dropLast ++ [c]).length =
              s.redoStack.dropLast.length + 1 := by simp
          omega
        · simp only [het, if_false]
          show (s.undoStack ++ [c]).length + s.redoStack.dropLast.length ≤
            s.maxStackSize
          have : (s.undoStack ++ [c]).length = s.undoStack.length + 1 := by simp
          omega

/-- Claim C6, as stated, is false on the code: with a non-empty redo stack,
an `execute` call whose command throws leaves the redo stack intact —
`redoStack` is only cleared on the success path. -/
theorem C6_counterexample :
    ((cmUndo (cmExecute mkCommandManager (cmdOk "a")).1).1).redoStack =
        [cmdOk "a"] ∧
    ((cmExecute (cmUndo (cmExecute mkCommandManager (cmdOk "a")).1).1
        cmdBad).1).redoStack = [cmdOk "a"] := by
  constructor <;> decide

/-- C6 (amended): after every CommandManager operation the combined stack
usage stays within the configured `maxStackSize` (so the undo stack never
exceeds it, the oldest entry being evicted on a successful undoable
execute), and every *successful* non-undo execute call clears the redo
stack (a rejected or throwing execute leaves it untouched); concretely,
with `maxStackSize = 2` executing three undoable commands leaves exactly
the last two on the undo stack. -/
theorem C6_amended_bounded_undo_stack :
    (∀ (s : CMState) (c : Command), CMInv s →
      CMInv (cmExecute s c).1 ∧ CMInv (cmUndo s).1 ∧ CMInv (cmRedo s).1 ∧
        CMInv (cmClear s).1) ∧
    (∀ (s : CMState) (c : Command),
      s.isExecuting = false → c.execThrows = false →
      (cmExecute s c).1.redoStack = []) ∧
    ((cmExecute (cmExecute (cmExecute
        { mkCommandManager with maxStackSize := 2 }
        (cmdOk "a")).1 (cmdOk "b")).1 (cmdOk "c")).1.undoStack
      = [cmdOk "b", cmdOk "c"]) := by
  refine ⟨?_, ?_, by rfl⟩
  · intro s c h
    exact ⟨cmExecute_inv s c h, cmUndo_inv s h, cmRedo_inv s h,
      by simp [cmClear]⟩
  · intro s c hb ht
    unfold cmExecute
    rw [if_neg (by simp [hb]), if_neg (by simp [ht])]
    by_cases hu : c.isUndoable
    · simp [hu]
    · simp only [hu, if_false]
      by_cases hr : s.redoStack.length > 0
      · simp [hr]
      · simp only [hr, if_false]
        have : s.redoStack = [] := by
          cases hrs : s.redoStack with
          | nil => rfl
          | cons x xs => rw [hrs] at hr; simp at hr
        simp [this]

/-- Witness for C6 (amended) at a concrete reachable state. -/
theorem C6_amended_bounded_undo_stack_witness :
    CMInv mkCommandManager ∧
    CMInv (cmExecute mkCommandManager (cmdOk "a")).1 ∧
    mkCommandManager.isExecuting = false ∧
    (cmdOk "a").execThrows = false ∧
    (cmExecute mkCommandManager (cmdOk "a")).1.redoStack = [] := by
  refine ⟨by decide, ?_, rfl, rfl, ?_⟩
  · exact (C6_amended_bounded_undo_stack.1 mkCommandManager (cmdOk "a")
      (by decide)).1
  · exact C6_amended_bounded_undo_stack.2.1 mkCommandManager (cmdOk "a") rfl rfl

/-- Claim C7, as stated, is false on the code: a command whose `execute()`
throws emits no `change` event (the emission sits inside the `try`, after
the stack bookkeeping), even on a perfectly valid non-reentrant call. -/
theorem C7_counterexample :
    mkCommandManager.isExecuting = false ∧
    (cmExecute mkCommandManager cmdBad).2 = false := by
  constructor <;> rfl

/-- C7 (amended): a non-reentrant `execute` always clears the busy flag
before returning, even when the command throws; it emits `change` exactly
when the command's `execute()` did not throw; and a throwing command is
never pushed — both stacks are left exactly as they were. -/
theorem C7_amended_execute_failure_isolation :
    ∀ (s : CMState) (c : Command), s.isExecuting = false →
      (cmExecute s c).1.isExecuting = false ∧
      (c.execThrows = false → (cmExecute s c).2 = true) ∧
      (c.execThrows = true →
        (cmExecute s c).1.undoStack = s.undoStack ∧
        (cmExecute s c).1.redoStack = s.redoStack ∧
        (cmExecute s c).2 = false) := by
  intro s c hb
  unfold cmExecute
  rw [if_neg (by simp [hb])]
  by_cases ht : c.execThrows
  · rw [if_pos ht]
    refine ⟨rfl, ?_, ?_⟩
    · intro h; simp [h] at ht
    · intro _; exact ⟨rfl, rfl, rfl⟩
  · rw [if_neg ht]
    refine ⟨rfl, fun _ => rfl, ?_⟩
    intro h; exact absurd h ht

/-- Witness for C7 (amended) at a concrete throwing command. -/
theorem C7_amended_execute_failure_isolation_witness :
    (cmExecute mkCommandManager cmdBad).1.isExecuting = false ∧
    (cmExecute mkCommandManager cmdBad).1.undoStack = [] ∧
    (cmExecute mkCommandManager cmdBad).2 = false := by
  have h := C7_amended_execute_failure_isolation mkCommandManager cmdBad rfl
  exact ⟨h.1, (h.2.2 rfl).1, (h.2.2 rfl).2.2⟩

/-! # SystemManager (`src/ecs/system-manager.js`)

The `update(time)` loop is modelled for one tick: each registered system's
`preUpdate`/`update`/`postUpdate` callbacks are either absent (`none`),
run successfully (`some true`), or throw (`some false`); the loop produces
the trace of callback invocations and, when a callback throws, the
re-thrown error identifying the failing system and phase. -/

/-- The three per-tick lifecycle callbacks of a registered system. -/
structure SysDef : Type where
  pre : Option Bool
  upd : Option Bool
  post : Option Bool
deriving Repr, DecidableEq

/-- The scheduler's per-system bookkeeping (`SystemState`). -/
structure SysState : Type where
  isInitialized : Bool
  isActive : Bool
deriving Repr, DecidableEq

/-- The scheduler state used by `update`: the cached execution order and
the two maps. -/
structure SMState : Type where
  executionOrder : List String
  systems : List (String × SysDef)
  states : List (String × SysState)

/-- A lifecycle phase. -/
inductive Phase : Type where
  | pre
  | upd
  | post
deriving Repr, DecidableEq

/-- `system.preUpdate?.(time); system.update?.(time);
system.postUpdate?.(time)` inside the try block: the trace of phases
actually invoked (including a throwing one) and the phase that threw,
if any. -/
def runPhases (sys : SysDef) : List Phase × Option Phase :=
  match sys.pre with
  | some false => ([.pre], some .pre)
  | _ =>
    let t0 : List Phase := match sys.pre with | some true => [.pre] | _ => []
    match sys.upd with
    | some false => (t0 ++ [.upd], some .upd)
    | _ =>
      let t1 := t0 ++ (match sys.upd with | some true => [.upd] | _ => [])
      match sys.post with
      | some false => (t1 ++ [.post], some .post)
      | _ =>
        (t1 ++ (match sys.post with | some true => [.post] | _ => []), none)

/-- The skip test of the update loop:
`!system || !state || !state.isInitialized || !state.isActive`. -/
def eligible (s : SMState) (n : String) : Bool :=
  match mapGet s.systems n, mapGet s.states n with
  | some _, some st => st.isInitialized && st.isActive
  | _, _ => false

/-- The system instance consulted once a name passed the skip test. -/
def sysOf (s : SMState) (n : String) : SysDef :=
  (mapGet s.systems n).getD ⟨none, none, none⟩

/-- The body of `update(time)` over a tail of the execution order: skip
ineligible systems, run the three callbacks of eligible ones, and stop —
re-throwing — at the first callback that throws. -/
def smUpdateGo (s : SMState) : List String →
    List (String × Phase) × Option (String × Phase)
  | [] => ([], none)
  | n :: rest =>
    if eligible s n then
      let r := runPhases (sysOf s n)
      let tagged := r.1.map (fun ph => (n, ph))
      match r.2 with
      | some ph => (tagged, some (n, ph))
      | none =>
        let tl := smUpdateGo s rest
        (tagged ++ tl.1, tl.2)
    else smUpdateGo s rest

/-- `SystemManager.update(time)` for one tick with a valid time object. -/
def smUpdate (s : SMState) : List (String × Phase) × Option (String × Phase) :=
  smUpdateGo s s.executionOrder

/-- The trace of a tick in which no callback throws. -/
def fullTrace (s : SMState) (order : List String) : List (String × Phase) :=
  order.foldr
    (fun n acc =>
      (if eligible s n then (runPhases (sysOf s n)).1.map (fun ph => (n, ph))
       else []) ++ acc) []

/-- A clean prefix of the execution order contributes its full trace and
passes control to the rest of the order. -/
theorem smUpdateGo_append_clean (s : SMState) (l : List String) :
    ∀ pre : List String,
      (∀ m ∈ pre, eligible s m → (runPhases (sysOf s m)).2 = none) →
      smUpdateGo s (pre ++ l) =
        (fullTrace s pre ++ (smUpdateGo s l).1, (smUpdateGo s l).2) := by
  intro pre
  induction pre with
  | nil => intro _; simp [fullTrace]
  | cons m ms ih =>
    intro hclean
    have htl := ih (fun x hx he => hclean x (by simp [hx]) he)
    simp only [List.cons_append, smUpdateGo]
    by_cases hm : eligible s m
    · simp only [hm, if_true]
      rw [hclean m (by simp) hm]
      rw [List.append_eq, htl]
      simp [fullTrace, hm]
    · simp only [hm, Bool.false_eq_true, if_false]
      rw [List.append_eq, htl]
      simp [fullTrace, hm]

/-- Claim C8: if the first throwing callback in execution order belongs to
system `n` (every eligible system before it runs clean), the tick runs
every earlier eligible system in full, runs `n` up to and including the
throwing phase, re-throws — and executes nothing after `n`, while
ineligible (missing/uninitialized/inactive) systems are simply skipped
rather than aborting the tick; a tick with no throwing callback runs the
full trace and returns normally. -/
theorem C8_fail_fast_and_skips :
    (∀ (s : SMState) (pre suf : List String) (n : String) (ph : Phase),
      (∀ m ∈ pre, eligible s m → (runPhases (sysOf s m)).2 = none) →
      eligible s n →
      (runPhases (sysOf s n)).2 = some ph →
      smUpdateGo s (pre ++ n :: suf) =
        (fullTrace s pre ++ (runPhases (sysOf s n)).1.map (fun p => (n, p)),
         some (n, ph))) ∧
    (∀ (s : SMState) (n : String) (rest : List String),
      eligible s n = false →
      smUpdateGo s (n :: rest) = smUpdateGo s rest) ∧
    (∀ (s : SMState) (order : List String),
      (∀ m ∈ order, eligible s m → (runPhases (sysOf s m)).2 = none) →
      smUpdateGo s order = (fullTrace s order, none)) := by
  refine ⟨?_, ?_, ?_⟩
  · intro s pre suf n ph hclean hel hthrow
    rw [smUpdateGo_append_clean s (n :: suf) pre hclean]
    simp only [smUpdateGo, hel, if_true, hthrow]
  · intro s n rest hel
    simp [smUpdateGo, hel]
  · intro s order
    induction order with
    | nil => intro _; simp [smUpdateGo, fullTrace]
    | cons m ms ih =>
      intro hclean
      have htl := ih (fun x hx he => hclean x (by simp [hx]) he)
      simp only [smUpdateGo]
      by_cases hm : eligible s m
      · simp only [hm, if_true]
        rw [hclean m (by simp) hm]
        rw [htl]
        simp [fullTrace, hm]
      · simp only [hm, Bool.false_eq_true, if_false]
        rw [htl]
        simp [fullTrace, hm]

/-- A concrete scheduler for the C8 witness: `physics` is registered but
inactive, `render`'s `update` callback throws, `late` runs cleanly. -/
def demoSM : SMState :=
  { executionOrder := ["physics", "render", "late"]
    systems :=
      [("physics", ⟨none, some true, none⟩),
       ("render", ⟨some true, some false, none⟩),
       ("late", ⟨none, some true, none⟩)]
    states :=
      [("physics", ⟨true, false⟩),
       ("render", ⟨true, true⟩),
       ("late", ⟨true, true⟩)] }

/-- Witness for C8: on `demoSM` the inactive `physics` is skipped, `render`
runs `preUpdate` then throws in `update`, the error is re-thrown and `late`
never runs. -/
theorem C8_fail_fast_and_skips_witness :
    smUpdate demoSM =
      ([("render", Phase.pre), ("render", Phase.upd)],
       some ("render", Phase.upd)) := by
  show smUpdateGo _ (["physics"] ++ "render" :: ["late"]) = _
  rw [C8_fail_fast_and_skips.1 _ ["physics"] ["late"] "render" Phase.upd
    (by decide) (by decide) (by decide)]
  decide

/-! # Association-list and ordered-set lemmas -/

section MapLemmas

variable {α β : Type} [DecidableEq α]

theorem mapGet_set_self (l : List (α × β)) (k : α) (v : β) :
    mapGet (mapSet l k v) k = some v := by
  induction l with
  | nil => simp [mapGet, mapSet]
  | cons kv rest ih =>
    obtain ⟨k', v'⟩ := kv
    by_cases h : k' = k
    · simp [mapSet, mapGet, h]
    · simp [mapSet, mapGet, h, ih]

theorem mapGet_set_ne (l : List (α × β)) (k j : α) (v : β) (h : j ≠ k) :
    mapGet (mapSet l k v) j = mapGet l j := by
  induction l with
  | nil =>
    simp only [mapSet, mapGet]
    rw [if_neg (fun he : k = j => h he.symm)]
  | cons kv rest ih =>
    obtain ⟨k', v'⟩ := kv
    simp only [mapSet]
    by_cases hk : k' = k
    · rw [if_pos hk]
      simp only [mapGet]
      subst hk
      rw [if_neg (fun he : k' = j => h he.symm),
        if_neg (fun he : k' = j => h he.symm)]
    · rw [if_neg hk]
      simp only [mapGet]
      by_cases hj : k' = j
      · rw [if_pos hj, if_pos hj]
      · rw [if_neg hj, if_neg hj, ih]

theorem mapGet_del_self (l : List (α × β)) (k : α) :
    mapGet (mapDel l k) k = none := by
  induction l with
  | nil => rfl
  | cons kv rest ih =>
    obtain ⟨k', v'⟩ := kv
    unfold mapDel at ih ⊢
    rw [List.filter_cons]
    by_cases h : k' = k
    · have : (decide ((k', v').1 ≠ k)) = false := by simp [h]
      rw [this]
      simp only [Bool.false_eq_true, if_false]
      exact ih
    · have : (decide ((k', v').1 ≠ k)) = true := by simp [h]
      rw [this]
      simp only [if_true]
      show mapGet ((k', v') :: rest.filter _) k = none
      simp only [mapGet]
      rw [if_neg h]
      exact ih

theorem mapGet_del_ne (l : List (α × β)) (k j : α) (h : j ≠ k) :
    mapGet (mapDel l k) j = mapGet l j := by
  induction l with
  | nil => rfl
  | cons kv rest ih =>
    obtain ⟨k', v'⟩ := kv
    unfold mapDel at ih ⊢
    rw [List.filter_cons]
    by_cases hk : k' = k
    · have : (decide ((k', v').1 ≠ k)) = false := by simp [hk]
      rw [this]
      simp only [Bool.false_eq_true, if_false]
      rw [ih]
      simp only [mapGet]
      rw [if_neg (by rw [hk]; exact fun he => h he.symm)]
    · have : (decide ((k', v').1 ≠ k)) = true := by simp [hk]
      rw [this]
      simp only [if_true]
      show mapGet ((k', v') :: rest.filter _) j = _
      simp only [mapGet]
      by_cases hj : k' = j
      · rw [if_pos hj, if_pos hj]
      · rw [if_neg hj, if_neg hj]
        exact ih

theorem mapGet_set_isSome (l : List (α × β)) (k j : α) (v : β) :
    (mapGet (mapSet l k v) j).isSome =
      ((mapGet l j).isSome || decide (j = k)) := by
  by_cases h : j = k
  · subst h; simp [mapGet_set_self]
  · simp [mapGet_set_ne l k j v h, h]

theorem mem_jsSetAdd {l : List α} {x y : α} :
    y ∈ jsSetAdd l x ↔ y = x ∨ y ∈ l := by
  unfold jsSetAdd
  by_cases h : x ∈ l
  · simp only [h, if_true]
    constructor
    · intro hy; exact Or.inr hy
    · intro hy; cases hy with
      | inl he => exact he ▸ h
      | inr hy => exact hy
  · simp only [h, if_false]
    rw [List.mem_append]
    simp [or_comm]

theorem mem_jsSetDel {l : List α} {x y : α} :
    y ∈ jsSetDel l x ↔ y ∈ l ∧ y ≠ x := by
  unfold jsSetDel
  simp [List.mem_filter]

theorem jsSetDel_nodup {l : List α} (h : l.Nodup) (x : α) :
    (jsSetDel l x).Nodup := h.filter _

end MapLemmas

/-! # Getter characterization under the primitive mutators -/

theorem getComp_setComp_self (s : EMState) (i : Int) (ty : String) (c : Comp)
    (hl : hasEntity s i = true) (hm : (mapGet s.comps i).isSome = true) :
    getComp (setComp s i ty c) i ty = some c := by
  obtain ⟨m, hmeq⟩ := Option.isSome_iff_exists.mp hm
  unfold setComp
  rw [hmeq]
  unfold getComp
  have : hasEntity { s with comps := mapSet s.comps i (mapSet m ty c) } i =
      hasEntity s i := rfl
  rw [this, hl, if_pos rfl, mapGet_set_self]
  simp [mapGet_set_self]

theorem getComp_setComp_other (s : EMState) (i : Int) (ty : String) (c : Comp)
    (j : Int) (ty' : String) (h : j ≠ i ∨ ty' ≠ ty) :
    getComp (setComp s i ty c) j ty' = getComp s j ty' := by
  unfold setComp
  cases hmeq : mapGet s.comps i with
  | none => rfl
  | some m =>
    unfold getComp
    have hent : hasEntity { s with comps := mapSet s.comps i (mapSet m ty c) } j
        = hasEntity s j := rfl
    rw [hent]
    by_cases hj : j = i
    · subst hj
      rcases h with h | h
      · exact absurd rfl h
      · rw [mapGet_set_self, hmeq]
        simp [mapGet_set_ne _ _ _ _ h]
    · rw [mapGet_set_ne _ _ _ _ hj]

theorem getComp_delComp_self (s : EMState) (i : Int) (ty : String) :
    getComp (delComp s i ty) i ty = none := by
  unfold delComp
  cases hmeq : mapGet s.comps i with
  | none =>
    unfold getComp
    cases h : hasEntity s i <;> simp [h, hmeq]
  | some m =>
    unfold getComp
    have : hasEntity { s with comps := mapSet s.comps i (mapDel m ty) } i =
        hasEntity s i := rfl
    rw [this]
    cases h : hasEntity s i
    · simp
    · simp [mapGet_set_self, mapGet_del_self]

theorem getComp_delComp_other (s : EMState) (i : Int) (ty : String)
    (j : Int) (ty' : String) (h : j ≠ i ∨ ty' ≠ ty) :
    getComp (delComp s i ty) j ty' = getComp s j ty' := by
  unfold delComp
  cases hmeq : mapGet s.comps i with
  | none => rfl
  | some m =>
    unfold getComp
    have hent : hasEntity { s with comps := mapSet s.comps i (mapDel m ty) } j
        = hasEntity s j := rfl
    rw [hent]
    by_cases hj : j = i
    · subst hj
      rcases h with h | h
      · exact absurd rfl h
      · rw [mapGet_set_self, hmeq]
        simp [mapGet_del_ne _ _ _ h]
    · rw [mapGet_set_ne _ _ _ _ hj]

/-- A present transform means the component value is the transform. -/
theorem getTransform_eq_comp (s : EMState) (i : Int) (t₀ : Transform)
    (h : getTransform s i = some t₀) :
    getComp s i "transform" = some (Comp.transform t₀) := by
  unfold getTransform at h
  cases hg : getComp s i "transform" with
  | none => rw [hg] at h; cases h
  | some c =>
    cases c with
    | transform t => rw [hg] at h; simp at h; rw [h]
    | data ser f => rw [hg] at h; cases h

/-- A present component means the entity is live. -/
theorem getComp_some_live (s : EMState) (i : Int) (ty : String) (c : Comp)
    (h : getComp s i ty = some c) : hasEntity s i = true := by
  unfold getComp at h
  by_cases hb : hasEntity s i
  · exact hb
  · rw [if_neg hb] at h; cases h

/-- A present component means the entity's component map exists. -/
theorem getComp_some_entry (s : EMState) (i : Int) (ty : String) (c : Comp)
    (h : getComp s i ty = some c) : (mapGet s.comps i).isSome = true := by
  have hl := getComp_some_live s i ty c h
  unfold getComp at h
  rw [if_pos hl] at h
  cases hc : mapGet s.comps i with
  | none => rw [hc] at h; cases h
  | some m => rfl

/-- `getTransform` through `putTransform` at the written entity. -/
theorem getTransform_put_self (s : EMState) (i : Int) (t₀ t : Transform)
    (h : getTransform s i = some t₀) :
    getTransform (putTransform s i t) i = some t := by
  have hg := getTransform_eq_comp s i t₀ h
  have hl := getComp_some_live s i "transform" _ hg
  have hm := getComp_some_entry s i "transform" _ hg
  unfold putTransform
  unfold getTransform
  rw [getComp_setComp_self s i "transform" (Comp.transform t) hl hm]

/-- `getTransform` through `putTransform` at any other entity. -/
theorem getTransform_put_other (s : EMState) (i : Int) (t : Transform)
    (j : Int) (h : j ≠ i) :
    getTransform (putTransform s i t) j = getTransform s j := by
  unfold putTransform getTransform
  rw [getComp_setComp_other s i "transform" (Comp.transform t) j "transform"
    (Or.inl h)]

/-- `putTransform` keeps every component slot other than the written
transform slot. -/
theorem getComp_put_other (s : EMState) (i : Int) (t : Transform)
    (j : Int) (ty : String) (h : j ≠ i ∨ ty ≠ "transform") :
    getComp (putTransform s i t) j ty = getComp s j ty :=
  getComp_setComp_other s i "transform" (Comp.transform t) j ty h

/-- `putTransform` at an entity that already holds a transform keeps
`hasComp` everywhere. -/
theorem hasComp_put (s : EMState) (i : Int) (t₀ t : Transform)
    (hi : getTransform s i = some t₀) (j : Int) (ty : String) :
    hasComp (putTransform s i t) j ty = hasComp s j ty := by
  by_cases h : j = i ∧ ty = "transform"
  · obtain ⟨hj, hty⟩ := h
    subst hj; subst hty
    unfold hasComp
    have hg := getTransform_eq_comp s j t₀ hi
    have hl := getComp_some_live s j "transform" _ hg
    have hm := getComp_some_entry s j "transform" _ hg
    unfold putTransform
    rw [getComp_setComp_self s j "transform" (Comp.transform t) hl hm, hg]
    rfl
  · unfold hasComp
    rw [getComp_put_other s i t j ty (by tauto)]

/-! # The store invariant

`pstep` follows one parent link; `psteps` iterates it.  The hierarchy is
acyclic precisely when every parent chain terminates. -/

/-- One step up the hierarchy: the parent of `a`, when `a` is live with a
transform and a non-null parent. -/
def pstep (s : EMState) : Option Int → Option Int
  | none => none
  | some a => (getTransform s a).bind Transform.parent

/-- Iterated parent steps. -/
def psteps (s : EMState) : Nat → Option Int → Option Int
  | 0, x => x
  | n + 1, x => psteps s n (pstep s x)

/-- Structural well-formedness of a store (holds in every reachable
state): live entities are exactly the keys of the component-map table and
are duplicate-free, and whatever sits in a `'transform'` slot is a
transform instance. -/
structure WFInv (s : EMState) : Prop where
  entsNodup : s.entities.Nodup
  keysLive : ∀ e : Int, (mapGet s.comps e).isSome = true ↔ e ∈ s.entities
  slotTransform : ∀ e c, getComp s e "transform" = some c →
    ∃ t, c = Comp.transform t

/-- The hierarchy invariant of claim C1 (with the child-to-parent converse
that the store maintains as well): non-null parents are live, carry a
transform, and list the child; children sets list only genuine children;
every parent chain terminates (acyclicity). -/
structure HierInv (s : EMState) : Prop where
  parentOk : ∀ e t p, getTransform s e = some t → t.parent = some p →
    hasEntity s p = true ∧ ∃ pt, getTransform s p = some pt ∧ e ∈ pt.children
  childOk : ∀ p pt c, getTransform s p = some pt → c ∈ pt.children →
    ∃ ct, getTransform s c = some ct ∧ ct.parent = some p
  terminating : ∀ e : Int, ∃ n : Nat, psteps s n (some e) = none

/-- The type-index invariant of claim C4. -/
structure IdxInv (s : EMState) : Prop where
  mem : ∀ (ty : String) (e : Int),
    e ∈ (mapGet s.index ty).getD [] ↔ hasComp s e ty = true
  nodupSets : ∀ ty l, mapGet s.index ty = some l → l.Nodup
  tyValid : ∀ e ty, hasComp s e ty = true → ty.trim ≠ ""

/-- The full store invariant. -/
def INV (s : EMState) : Prop := WFInv s ∧ HierInv s ∧ IdxInv s

theorem INV_init : INV initEM := by
  refine ⟨⟨List.nodup_nil, ?_, ?_⟩, ⟨?_, ?_, ?_⟩, ⟨?_, ?_, ?_⟩⟩
  · intro e; simp [initEM, mapGet]
  · intro e c h
    simp [initEM, getComp, hasEntity, mapGet] at h
  · intro e t p h
    simp [initEM, getTransform, getComp, hasEntity, mapGet] at h
  · intro p pt c h
    simp [initEM, getTransform, getComp, hasEntity, mapGet] at h
  · intro e
    exact ⟨1, by simp [psteps, pstep, getTransform, getComp, hasEntity,
      initEM, mapGet]⟩
  · intro ty e
    simp [initEM, mapGet, hasComp, getComp, hasEntity]
  · intro ty l h; simp [initEM, mapGet] at h
  · intro e ty h; simp [hasComp, getComp, hasEntity, initEM] at h

/-! ## Chain arithmetic -/

theorem psteps_none (s : EMState) : ∀ n : Nat, psteps s n none = none := by
  intro n
  induction n with
  | zero => rfl
  | succ m ih => simpa [psteps, pstep] using ih

theorem psteps_add (s : EMState) (m n : Nat) (x : Option Int) :
    psteps s (m + n) x = psteps s n (psteps s m x) := by
  induction m generalizing x with
  | zero => simp [psteps]
  | succ k ih =>
    have : k + 1 + n = (k + n) + 1 := by omega
    rw [this]
    show psteps s (k + n) (pstep s x) = _
    rw [ih (pstep s x)]
    rfl

theorem psteps_absorb (s : EMState) (n k : Nat) (x : Option Int)
    (h : psteps s n x = none) : psteps s (n + k) x = none := by
  rw [psteps_add, h, psteps_none]

/-- A progressing step means the node is live with a transform whose
parent is the next node. -/
theorem pstep_some (s : EMState) (a p : Int)
    (h : pstep s (some a) = some p) :
    ∃ t, getTransform s a = some t ∧ t.parent = some p := by
  have h' : (getTransform s a).bind Transform.parent = some p := h
  cases hg : getTransform s a with
  | none => rw [hg] at h'; cases h'
  | some t =>
    rw [hg] at h'
    exact ⟨t, rfl, h'⟩

/-- Under the hierarchy invariant every chain from a live entity dies
within `|entities|` steps. -/
theorem chain_bound_live (s : EMState) (hh : HierInv s) (e : Int)
    (hl : e ∈ s.entities) :
    psteps s s.entities.length (some e) = none := by
  · -- minimal death time of the chain from e
    have hterm := hh.terminating e
    have hdec : DecidablePred (fun n => psteps s n (some e) = none) :=
      fun n => inferInstance
    let n₀ := Nat.find hterm
    have hdie : psteps s n₀ (some e) = none := Nat.find_spec hterm
    have hmin : ∀ m, m < n₀ → psteps s m (some e) ≠ none :=
      fun m hm => Nat.find_min hterm hm
    -- every pre-death chain node is live
    have hlive : ∀ i, i < n₀ → ∃ a, psteps s i (some e) = some a ∧
        a ∈ s.entities := by
      intro i
      induction i with
      | zero =>
        intro _
        exact ⟨e, rfl, hl⟩
      | succ j ihj =>
        intro hj
        obtain ⟨a, ha, halive⟩ := ihj (by omega)
        cases hx : psteps s (j + 1) (some e) with
        | none => exact absurd hx (hmin _ hj)
        | some b =>
          refine ⟨b, rfl, ?_⟩
          have hstep : pstep s (some a) = some b := by
            have h1 : psteps s (j + 1) (some e) =
                psteps s 1 (psteps s j (some e)) := by
              rw [← psteps_add]
            rw [hx, ha] at h1
            simpa [psteps] using h1.symm
          obtain ⟨t, hgt, hpar⟩ := pstep_some s a b hstep
          have := hh.parentOk a t b hgt hpar
          simpa [hasEntity] using this.1
    -- distinct chain nodes: equal nodes would have equal death times
    have hinj : ∀ i j, i < n₀ → j < n₀ →
        psteps s i (some e) = psteps s j (some e) → i = j := by
      intro i j hi hj hij
      by_contra hne
      -- wlog i < j
      rcases Nat.lt_or_ge i j with hlt | hge
      · have h1 : psteps s n₀ (some e) =
            psteps s (n₀ - i) (psteps s i (some e)) := by
          rw [← psteps_add]
          congr 1
          omega
        rw [hij] at h1
        have h2 : psteps s (j + (n₀ - i)) (some e) = none := by
          rw [psteps_add, ← h1, hdie]
        have h3 : j + (n₀ - i) < n₀ + (j - i) + 1 := by omega
        -- j + (n₀ - i) > n₀ would be fine; but also j + (n₀ - i) ≥ n₀ means
        -- some m < n₀ dies: use minimality downward instead
        -- from h2 and minimality: j + (n₀ - i) ≥ n₀, always true; we need
        -- the reverse chain: death from step j takes n₀ - j steps minimum
        have h4 : psteps s (n₀ - j) (psteps s j (some e)) = none := by
          rw [← psteps_add]
          have : j + (n₀ - j) = n₀ := by omega
          rw [this, hdie]
        rw [← hij] at h4
        have h5 : psteps s (i + (n₀ - j)) (some e) = none := by
          rw [psteps_add, h4]
        have h6 : i + (n₀ - j) < n₀ := by omega
        exact hmin _ h6 h5
      · have hlt : j < i := by omega
        have h4 : psteps s (n₀ - i) (psteps s i (some e)) = none := by
          rw [← psteps_add]
          have : i + (n₀ - i) = n₀ := by omega
          rw [this, hdie]
        rw [hij] at h4
        have h5 : psteps s (j + (n₀ - i)) (some e) = none := by
          rw [psteps_add, h4]
        have h6 : j + (n₀ - i) < n₀ := by omega
        exact hmin _ h6 h5
    -- pigeonhole: n₀ ≤ |entities|
    have hcard : n₀ ≤ s.entities.length := by
      by_contra hgt
      push_neg at hgt
      -- map each i < n₀ to its chain node
      have hf : ∀ i : Fin n₀, ∃ a, psteps s (i : Nat) (some e) = some a ∧
          a ∈ s.entities := fun i => hlive i i.2
      classical
      choose f hf1 hf2 using hf
      have hfinj : Function.Injective f := by
        intro i j hfij
        have : psteps s (i : Nat) (some e) = psteps s (j : Nat) (some e) := by
          rw [hf1 i, hf1 j, hfij]
        exact Fin.ext (hinj i j i.2 j.2 this)
      have h1 : (Finset.univ.image f).card = n₀ := by
        rw [Finset.card_image_of_injective _ hfinj, Finset.card_univ,
          Fintype.card_fin]
      have h2 : (Finset.univ.image f) ⊆ s.entities.toFinset := by
        intro a ha
        obtain ⟨i, _, hia⟩ := Finset.mem_image.mp ha
        rw [← hia]
        exact List.mem_toFinset.mpr (hf2 i)
      have h3 := Finset.card_le_card h2
      have h4 : s.entities.toFinset.card ≤ s.entities.length :=
        s.entities.toFinset_card_le
      omega
    have hfin : psteps s n₀ (some e) = none := hdie
    have habs := psteps_absorb s n₀ (s.entities.length - n₀) (some e) hfin
    have heq : n₀ + (s.entities.length - n₀) = s.entities.length := by
      omega
    rw [heq] at habs
    exact habs

/-- Under the hierarchy invariant every chain from any id dies within
`|entities| + 1` steps. -/
theorem chain_bound (s : EMState) (hh : HierInv s) :
    ∀ e : Int, psteps s (s.entities.length + 1) (some e) = none := by
  intro e
  by_cases hl : e ∈ s.entities
  · exact psteps_absorb s s.entities.length 1 (some e)
      (chain_bound_live s hh e hl)
  · -- non-live: the very first step dies
    have h1 : psteps s 1 (some e) = none := by
      have : getTransform s e = none := by
        unfold getTransform getComp
        rw [if_neg (by simp [hasEntity, hl])]
      simp [psteps, pstep, this]
    have := psteps_absorb s 1 s.entities.length (some e) h1
    simpa [Nat.add_comm] using this

/-- A transform can never record its own entity as parent on a store whose
chains terminate. -/
theorem no_self_parent (s : EMState) (hh : HierInv s) (e : Int)
    (t : Transform) (ht : getTransform s e = some t) : t.parent ≠ some e := by
  intro hp
  obtain ⟨n, hn⟩ := hh.terminating e
  have hfix : ∀ m : Nat, psteps s m (some e) = some e := by
    intro m
    induction m with
    | zero => rfl
    | succ k ih =>
      have hstep : pstep s (some e) = some e := by
        show (getTransform s e).bind Transform.parent = some e
        rw [ht]; exact hp
      calc psteps s (k + 1) (some e) = psteps s k (pstep s (some e)) := rfl
        _ = psteps s k (some e) := by rw [hstep]
        _ = some e := ih
  rw [hfix n] at hn
  cases hn

/-- A walk that answers `.ok` certifies that the target never occurs on
the parent chain. -/
theorem walk_ok_no_hit (s : EMState) (target : Int) :
    ∀ (fuel : Nat) (x : Option Int),
      walkAnc s target fuel x = WalkRes.ok →
      ∀ k : Nat, psteps s k x ≠ some target := by
  intro fuel
  induction fuel with
  | zero =>
    intro x hw k
    cases x with
    | none => rw [psteps_none]; simp
    | some a => simp [walkAnc] at hw
  | succ m ih =>
    intro x hw k
    cases x with
    | none => rw [psteps_none]; simp
    | some a =>
      rw [walkAnc] at hw
      by_cases hat : a = target
      · rw [if_pos hat] at hw; cases hw
      · rw [if_neg hat] at hw
        cases hg : getTransform s a with
        | none =>
          rw [hg] at hw; cases hw
        | some t =>
          rw [hg] at hw
          cases k with
          | zero =>
            intro hk
            exact hat (by simpa [psteps] using hk)
          | succ j =>
            have hst : pstep s (some a) = t.parent := by
              show (getTransform s a).bind Transform.parent = t.parent
              rw [hg]; rfl
            show psteps s j (pstep s (some a)) ≠ some target
            rw [hst]
            exact ih t.parent hw j

/-- If the target does occur on the chain within the fuel bound, the walk
answers `.cycle`. -/
theorem walk_hit_cycle (s : EMState) (target : Int) :
    ∀ (k fuel : Nat) (x : Option Int),
      psteps s k x = some target → k < fuel →
      walkAnc s target fuel x = WalkRes.cycle := by
  intro k
  induction k with
  | zero =>
    intro fuel x hx hk
    cases fuel with
    | zero => omega
    | succ m =>
      cases x with
      | none => cases hx
      | some a =>
        have : a = target := by simpa [psteps] using hx
        rw [walkAnc, if_pos this]
  | succ j ih =>
    intro fuel x hx hk
    cases x with
    | none => rw [psteps_none] at hx; cases hx
    | some a =>
      cases fuel with
      | zero => omega
      | succ m =>
        rw [walkAnc]
        by_cases hat : a = target
        · rw [if_pos hat]
        · rw [if_neg hat]
          have hx' : psteps s j (pstep s (some a)) = some target := hx
          cases hg : getTransform s a with
          | none =>
            have : pstep s (some a) = none := by
              show (getTransform s a).bind Transform.parent = none
              rw [hg]; rfl
            rw [this, psteps_none] at hx'
            cases hx'
          | some t =>
            have hst : pstep s (some a) = t.parent := by
              show (getTransform s a).bind Transform.parent = t.parent
              rw [hg]; rfl
            rw [hst] at hx'
            exact ih m t.parent hx' (by omega)

/-- A walk given at least as much fuel as the chain's death time cannot
run out of fuel. -/
theorem walk_no_fuelOut (s : EMState) (target : Int) :
    ∀ (fuel : Nat) (x : Option Int),
      psteps s fuel x = none →
      walkAnc s target fuel x ≠ WalkRes.fuelOut := by
  intro fuel
  induction fuel with
  | zero =>
    intro x hx
    cases x with
    | none => rw [walkAnc]; simp
    | some a => cases hx
  | succ m ih =>
    intro x hx
    cases x with
    | none => rw [walkAnc]; simp
    | some a =>
      rw [walkAnc]
      by_cases hat : a = target
      · rw [if_pos hat]; simp
      · rw [if_neg hat]
        cases hg : getTransform s a with
        | none => simp
        | some t =>
          have hst : pstep s (some a) = t.parent := by
            show (getTransform s a).bind Transform.parent = t.parent
            rw [hg]; rfl
          have hx' : psteps s m t.parent = none := by
            rw [← hst]
            exact hx
          exact ih t.parent hx'

/-- On a store satisfying the invariant, a walk whose start has a
transform never reports a broken chain. -/
theorem walk_no_broken (s : EMState) (hh : HierInv s) (target : Int) :
    ∀ (fuel : Nat) (x : Option Int),
      (x = none ∨ ∃ a, x = some a ∧ (getTransform s a).isSome = true) →
      walkAnc s target fuel x ≠ WalkRes.broken := by
  intro fuel
  induction fuel with
  | zero =>
    intro x hx
    cases x with
    | none => rw [walkAnc]; simp
    | some a => rw [walkAnc]; simp
  | succ m ih =>
    intro x hx
    cases x with
    | none => rw [walkAnc]; simp
    | some a =>
      rcases hx with hx | ⟨b, hb, hbt⟩
      · cases hx
      · have hab : a = b := Option.some.inj hb
        subst hab
        rw [walkAnc]
        by_cases hat : a = target
        · rw [if_pos hat]; simp
        · rw [if_neg hat]
          cases hg : getTransform s a with
          | none => rw [hg] at hbt; cases hbt
          | some t =>
            apply ih
            cases hp : t.parent with
            | none => exact Or.inl rfl
            | some p =>
              refine Or.inr ⟨p, rfl, ?_⟩
              obtain ⟨_, pt, hpt, _⟩ := hh.parentOk a t p hg hp
              rw [hpt]; rfl

/-! ## Characterizing the `setParent` mutation -/

theorem detachOld_char (s : EMState) (e : Int) (oldP newP : Option Int)
    (hop : oldP ≠ newP)
    (hold : ∀ o, oldP = some o → ∃ ot, getTransform s o = some ot) :
    (∀ o, oldP = some o → ∃ ot, getTransform s o = some ot ∧
      getTransform (detachOld s e oldP newP) o =
        some { ot with children := jsSetDel ot.children e }) ∧
    (∀ j, oldP ≠ some j →
      getTransform (detachOld s e oldP newP) j = getTransform s j) ∧
    (∀ j ty, hasComp (detachOld s e oldP newP) j ty = hasComp s j ty) := by
  cases oldP with
  | none =>
    refine ⟨?_, ?_, ?_⟩
    · intro o h; cases h
    · intro j _; unfold detachOld; rfl
    · intro j ty; unfold detachOld; rfl
  | some o =>
    obtain ⟨ot, hot⟩ := hold o rfl
    have hred : detachOld s e (some o) newP =
        putTransform s o { ot with children := jsSetDel ot.children e } := by
      unfold detachOld
      dsimp only
      rw [if_pos hop, hot]
    rw [hred]
    refine ⟨?_, ?_, ?_⟩
    · intro o' h
      have ho' : o' = o := (Option.some.inj h).symm
      subst ho'
      exact ⟨ot, hot, getTransform_put_self s o' ot _ hot⟩
    · intro j hj
      have : j ≠ o := fun he => hj (by rw [he])
      exact getTransform_put_other s o _ j this
    · intro j ty
      exact hasComp_put s o ot _ hot j ty

theorem attachNew_char (s : EMState) (e : Int) (newP : Option Int)
    (hnew : ∀ q, newP = some q → ∃ qt, getTransform s q = some qt) :
    (∀ q, newP = some q → ∃ qt, getTransform s q = some qt ∧
      getTransform (attachNew s e newP) q =
        some { qt with children := jsSetAdd qt.children e }) ∧
    (∀ j, newP ≠ some j →
      getTransform (attachNew s e newP) j = getTransform s j) ∧
    (∀ j ty, hasComp (attachNew s e newP) j ty = hasComp s j ty) := by
  cases newP with
  | none =>
    refine ⟨?_, ?_, ?_⟩
    · intro q h; cases h
    · intro j _; unfold attachNew; rfl
    · intro j ty; unfold attachNew; rfl
  | some q =>
    obtain ⟨qt, hqt⟩ := hnew q rfl
    have hred : attachNew s e (some q) =
        putTransform s q { qt with children := jsSetAdd qt.children e } := by
      unfold attachNew
      dsimp only
      rw [hqt]
    rw [hred]
    refine ⟨?_, ?_, ?_⟩
    · intro q' h
      have hq' : q' = q := (Option.some.inj h).symm
      subst hq'
      exact ⟨qt, hqt, getTransform_put_self s q' qt _ hqt⟩
    · intro j hj
      have : j ≠ q := fun he => hj (by rw [he])
      exact getTransform_put_other s q _ j this
    · intro j ty
      exact hasComp_put s q qt _ hqt j ty

theorem writeParent_char (s : EMState) (e : Int) (newP : Option Int)
    (ct : Transform) (hct : getTransform s e = some ct) :
    getTransform (writeParent s e newP) e = some { ct with parent := newP } ∧
    (∀ j, j ≠ e →
      getTransform (writeParent s e newP) j = getTransform s j) ∧
    (∀ j ty, hasComp (writeParent s e newP) j ty = hasComp s j ty) := by
  have hred : writeParent s e newP =
      putTransform s e { ct with parent := newP } := by
    unfold writeParent
    rw [hct]
  rw [hred]
  exact ⟨getTransform_put_self s e ct _ hct,
    fun j hj => getTransform_put_other s e _ j hj,
    fun j ty => hasComp_put s e ct _ hct j ty⟩

/-- What `spApply` does to each entity's transform, with component
presence held fixed, under the distinctness facts the invariant
supplies. -/
theorem spApply_char (s : EMState) (e : Int) (p : Option Int)
    (ct : Transform)
    (hct : getTransform s e = some ct)
    (hoe : ct.parent ≠ some e)
    (hpe : p ≠ some e)
    (hop : ct.parent ≠ p)
    (hold : ∀ o, ct.parent = some o → ∃ ot, getTransform s o = some ot)
    (hnew : ∀ q, p = some q → ∃ qt, getTransform s q = some qt) :
    getTransform (spApply s e ct.parent p) e = some { ct with parent := p } ∧
    (∀ o, ct.parent = some o → ∃ ot, getTransform s o = some ot ∧
      getTransform (spApply s e ct.parent p) o =
        some { ot with children := jsSetDel ot.children e }) ∧
    (∀ q, p = some q → ∃ qt, getTransform s q = some qt ∧
      getTransform (spApply s e ct.parent p) q =
        some { qt with children := jsSetAdd qt.children e }) ∧
    (∀ j, j ≠ e → ct.parent ≠ some j → p ≠ some j →
      getTransform (spApply s e ct.parent p) j = getTransform s j) ∧
    (∀ j ty, hasComp (spApply s e ct.parent p) j ty = hasComp s j ty) := by
  unfold spApply
  obtain ⟨d_old, d_other, d_has⟩ := detachOld_char s e ct.parent p hop hold
  set s₁ := detachOld s e ct.parent p with hs₁
  have hnew₁ : ∀ q, p = some q → ∃ qt, getTransform s₁ q = some qt := by
    intro q hq
    obtain ⟨qt, hqt⟩ := hnew q hq
    refine ⟨qt, ?_⟩
    rw [d_other q (fun h => hop (h.trans hq.symm))]
    exact hqt
  obtain ⟨a_new, a_other, a_has⟩ := attachNew_char s₁ e p hnew₁
  set s₂ := attachNew s₁ e p with hs₂
  have he₂ : getTransform s₂ e = some ct := by
    rw [a_other e hpe]
    rw [d_other e hoe]
    exact hct
  obtain ⟨w_self, w_other, w_has⟩ := writeParent_char s₂ e p ct he₂
  refine ⟨w_self, ?_, ?_, ?_, ?_⟩
  · intro o h
    obtain ⟨ot, hot, h1⟩ := d_old o h
    refine ⟨ot, hot, ?_⟩
    have hoe' : o ≠ e := fun heq => hoe (heq ▸ h)
    rw [w_other o hoe']
    rw [a_other o (fun hpo => hop (h.trans hpo.symm))]
    exact h1
  · intro q h
    obtain ⟨qt, hqt1⟩ := hnew₁ q h
    obtain ⟨qt', hq1, hq2⟩ := a_new q h
    refine ⟨?_, ?_, ?_⟩
    · exact qt'
    · rw [d_other q (fun hoq => hop (hoq.trans h.symm))] at hq1
      exact hq1
    · have hqe : q ≠ e := fun heq => hpe (heq ▸ h)
      rw [w_other q hqe]
      exact hq2
  · intro j hje hjo hjp
    rw [w_other j hje]
    rw [a_other j (fun h => hjp h)]
    exact d_other j hjo
  · intro j ty
    rw [w_has j ty, a_has j ty, d_has j ty]

/-- `putTransform` at an existing component map keeps the key set. -/
theorem putTransform_keys (s : EMState) (i : Int) (t : Transform)
    (h : (mapGet s.comps i).isSome = true) :
    ∀ x, (mapGet (putTransform s i t).comps x).isSome =
      (mapGet s.comps x).isSome := by
  intro x
  unfold putTransform setComp
  obtain ⟨m, hm⟩ := Option.isSome_iff_exists.mp h
  rw [hm]
  by_cases hx : x = i
  · subst hx
    show (mapGet (mapSet s.comps x _) x).isSome = _
    rw [mapGet_set_self, hm]
    rfl
  · show (mapGet (mapSet s.comps i _) x).isSome = _
    rw [mapGet_set_ne _ _ _ _ hx]

/-- `detachOld` keeps component-map keys and all non-transform slots. -/
theorem detachOld_keys (s : EMState) (e : Int) (oldP newP : Option Int)
    (hop : oldP ≠ newP)
    (hold : ∀ o, oldP = some o → ∃ ot, getTransform s o = some ot) :
    (∀ x, (mapGet (detachOld s e oldP newP).comps x).isSome =
      (mapGet s.comps x).isSome) ∧
    (∀ j ty, (oldP ≠ some j ∨ ty ≠ "transform") →
      getComp (detachOld s e oldP newP) j ty = getComp s j ty) := by
  cases oldP with
  | none => exact ⟨fun x => rfl, fun j ty _ => rfl⟩
  | some o =>
    obtain ⟨ot, hot⟩ := hold o rfl
    have hred : detachOld s e (some o) newP =
        putTransform s o { ot with children := jsSetDel ot.children e } := by
      unfold detachOld
      dsimp only
      rw [if_pos hop, hot]
    rw [hred]
    have hkey := getComp_some_entry s o "transform" _
      (getTransform_eq_comp s o ot hot)
    refine ⟨putTransform_keys s o _ hkey, ?_⟩
    intro j ty hj
    apply getComp_put_other
    rcases hj with hj | hj
    · exact Or.inl (fun he => hj (by rw [he]))
    · exact Or.inr hj

/-- `attachNew` keeps component-map keys and all non-transform slots. -/
theorem attachNew_keys (s : EMState) (e : Int) (newP : Option Int)
    (hnew : ∀ q, newP = some q → ∃ qt, getTransform s q = some qt) :
    (∀ x, (mapGet (attachNew s e newP).comps x).isSome =
      (mapGet s.comps x).isSome) ∧
    (∀ j ty, (newP ≠ some j ∨ ty ≠ "transform") →
      getComp (attachNew s e newP) j ty = getComp s j ty) := by
  cases newP with
  | none => exact ⟨fun x => rfl, fun j ty _ => rfl⟩
  | some q =>
    obtain ⟨qt, hqt⟩ := hnew q rfl
    have hred : attachNew s e (some q) =
        putTransform s q { qt with children := jsSetAdd qt.children e } := by
      unfold attachNew
      dsimp only
      rw [hqt]
    rw [hred]
    have hkey := getComp_some_entry s q "transform" _
      (getTransform_eq_comp s q qt hqt)
    refine ⟨putTransform_keys s q _ hkey, ?_⟩
    intro j ty hj
    apply getComp_put_other
    rcases hj with hj | hj
    · exact Or.inl (fun he => hj (by rw [he]))
    · exact Or.inr hj

/-- `writeParent` keeps component-map keys and all non-transform slots. -/
theorem writeParent_keys (s : EMState) (e : Int) (newP : Option Int)
    (ct : Transform) (hct : getTransform s e = some ct) :
    (∀ x, (mapGet (writeParent s e newP).comps x).isSome =
      (mapGet s.comps x).isSome) ∧
    (∀ j ty, (j ≠ e ∨ ty ≠ "transform") →
      getComp (writeParent s e newP) j ty = getComp s j ty) := by
  have hred : writeParent s e newP =
      putTransform s e { ct with parent := newP } := by
    unfold writeParent
    rw [hct]
  rw [hred]
  have hkey := getComp_some_entry s e "transform" _
    (getTransform_eq_comp s e ct hct)
  exact ⟨putTransform_keys s e _ hkey, fun j ty hj => getComp_put_other _ _ _ _ _ hj⟩

/-- `spApply` keeps component-map keys and all slots other than the three
rewritten transforms. -/
theorem spApply_keys (s : EMState) (e : Int) (p : Option Int)
    (ct : Transform)
    (hct : getTransform s e = some ct)
    (hoe : ct.parent ≠ some e)
    (hpe : p ≠ some e)
    (hop : ct.parent ≠ p)
    (hold : ∀ o, ct.parent = some o → ∃ ot, getTransform s o = some ot)
    (hnew : ∀ q, p = some q → ∃ qt, getTransform s q = some qt) :
    (∀ x, (mapGet (spApply s e ct.parent p).comps x).isSome =
      (mapGet s.comps x).isSome) ∧
    (∀ j ty, ((j ≠ e ∧ ct.parent ≠ some j ∧ p ≠ some j) ∨ ty ≠ "transform") →
      getComp (spApply s e ct.parent p) j ty = getComp s j ty) := by
  unfold spApply
  obtain ⟨d_old, d_other, _⟩ := detachOld_char s e ct.parent p hop hold
  obtain ⟨dk, dg⟩ := detachOld_keys s e ct.parent p hop hold
  set s₁ := detachOld s e ct.parent p with hs₁
  have hnew₁ : ∀ q, p = some q → ∃ qt, getTransform s₁ q = some qt := by
    intro q hq
    obtain ⟨qt, hqt⟩ := hnew q hq
    exact ⟨qt, by rw [d_other q (fun h => hop (h.trans hq.symm))]; exact hqt⟩
  obtain ⟨a_new, a_other, _⟩ := attachNew_char s₁ e p hnew₁
  obtain ⟨ak, ag⟩ := attachNew_keys s₁ e p hnew₁
  set s₂ := attachNew s₁ e p with hs₂
  have he₂ : getTransform s₂ e = some ct := by
    rw [a_other e hpe, d_other e hoe]
    exact hct
  obtain ⟨wk, wg⟩ := writeParent_keys s₂ e p ct he₂
  refine ⟨?_, ?_⟩
  · intro x
    rw [wk x, ak x, dk x]
  · intro j ty hj
    rcases hj with ⟨hje, hjo, hjp⟩ | hty
    · rw [wg j ty (Or.inl hje), ag j ty (Or.inl hjp), dg j ty (Or.inl hjo)]
    · rw [wg j ty (Or.inr hty), ag j ty (Or.inr hty), dg j ty (Or.inr hty)]

/-- Complete case analysis of `setParent`: every rejection returns the
store unchanged; a no-op success returns it unchanged; a mutating success
returns `spApply` under the guards the code checked. -/
theorem setParent_spec (s : EMState) (e : Int) (p : Option Int) :
    ((setParent s e p).1 = false ∧ (setParent s e p).2 = s) ∨
    ((setParent s e p).1 = true ∧ (setParent s e p).2 = s ∧
      ∃ ct, getTransform s e = some ct ∧ ct.parent = p) ∨
    ((setParent s e p).1 = true ∧
      ∃ ct, getTransform s e = some ct ∧
        hasEntity s e = true ∧
        (∀ q, p = some q → hasEntity s q = true ∧
          ∃ qt, getTransform s q = some qt) ∧
        p ≠ some e ∧
        ct.parent ≠ p ∧
        walkAnc s e (s.entities.length + 1) p = WalkRes.ok ∧
        (setParent s e p).2 = spApply s e ct.parent p) := by
  unfold setParent
  by_cases h1 : hasEntity s e = false
  · rw [if_pos h1]; exact Or.inl ⟨rfl, rfl⟩
  · rw [if_neg h1]
    have he : hasEntity s e = true := by
      cases hb : hasEntity s e
      · exact absurd hb h1
      · rfl
    cases p with
    | none =>
      rw [if_neg (by simp)]
      rw [if_neg (by simp)]
      cases hct : getTransform s e with
      | none => exact Or.inl ⟨rfl, rfl⟩
      | some ct =>
        dsimp only
        rw [if_neg (by simp)]
        by_cases h5 : ct.parent = none
        · rw [if_pos h5]
          exact Or.inr (Or.inl ⟨rfl, rfl, ct, rfl, h5⟩)
        · rw [if_neg h5]
          have hwalk : walkAnc s e (s.entities.length + 1) none =
              WalkRes.ok := by simp [walkAnc]
          rw [hwalk]
          refine Or.inr (Or.inr ⟨rfl, ct, rfl, he, ?_, ?_, h5, ?_, rfl⟩)
          · intro q hq; cases hq
          · simp
          · exact hwalk
    | some q =>
      by_cases hq : hasEntity s q = true
      · rw [if_neg (by simp [hq])]
        by_cases h3 : (some q : Option Int) = some e
        · rw [if_pos h3]; exact Or.inl ⟨rfl, rfl⟩
        · rw [if_neg h3]
          cases hct : getTransform s e with
          | none => exact Or.inl ⟨rfl, rfl⟩
          | some ct =>
            dsimp only
            cases hgq : getTransform s q with
            | none =>
              rw [if_pos (by simp [hgq])]
              exact Or.inl ⟨rfl, rfl⟩
            | some qt =>
              rw [if_neg (by simp [hgq])]
              by_cases h5 : ct.parent = some q
              · rw [if_pos h5]
                exact Or.inr (Or.inl ⟨rfl, rfl, ct, rfl, h5⟩)
              · rw [if_neg h5]
                cases hwalk : walkAnc s e (s.entities.length + 1) (some q) with
                | ok =>
                  refine Or.inr (Or.inr ⟨rfl, ct, rfl, he, ?_, h3, h5, rfl,
                    rfl⟩)
                  intro q' hq'
                  have : q' = q := (Option.some.inj hq').symm
                  subst this
                  exact ⟨hq, qt, hgq⟩
                | cycle => exact Or.inl ⟨rfl, rfl⟩
                | broken => exact Or.inl ⟨rfl, rfl⟩
                | fuelOut => exact Or.inl ⟨rfl, rfl⟩
      · rw [if_pos (by simp [hq])]
        exact Or.inl ⟨rfl, rfl⟩

/-- The `setParent` mutation preserves the store invariant. -/
theorem spApply_INV (s : EMState) (e : Int) (p : Option Int) (ct : Transform)
    (hw : WFInv s) (hh : HierInv s) (hx : IdxInv s)
    (hct : getTransform s e = some ct)
    (hpe : p ≠ some e)
    (hop : ct.parent ≠ p)
    (hnewfact : ∀ q, p = some q → hasEntity s q = true ∧
      ∃ qt, getTransform s q = some qt)
    (hwalk : walkAnc s e (s.entities.length + 1) p = WalkRes.ok) :
    INV (spApply s e ct.parent p) := by
  have hoe : ct.parent ≠ some e := no_self_parent s hh e ct hct
  have hold : ∀ o, ct.parent = some o → ∃ ot, getTransform s o = some ot := by
    intro o ho
    obtain ⟨_, ot, hot, _⟩ := hh.parentOk e ct o hct ho
    exact ⟨ot, hot⟩
  have hnew : ∀ q, p = some q → ∃ qt, getTransform s q = some qt :=
    fun q hq => (hnewfact q hq).2
  obtain ⟨hZe, hZold, hZnew, hZoth, hZhas⟩ :=
    spApply_char s e p ct hct hoe hpe hop hold hnew
  obtain ⟨hZkeys, hZcomp⟩ := spApply_keys s e p ct hct hoe hpe hop hold hnew
  obtain ⟨hZents, hZnext, hZidx⟩ := spMut_shell s e ct.parent p
  set Z := spApply s e ct.parent p with hZ
  -- children sets of Z never lose a member other than e
  have hchildren : ∀ pp pt, getTransform s pp = some pt →
      ∀ c, c ∈ pt.children → c ≠ e →
      ∃ pt', getTransform Z pp = some pt' ∧ c ∈ pt'.children := by
    intro pp pt hpt c hc hce
    by_cases hppe : pp = e
    · subst hppe
      have : pt = ct := by
        rw [hct] at hpt; exact (Option.some.inj hpt).symm
      subst this
      exact ⟨{ pt with parent := p }, hZe, hc⟩
    · by_cases hppo : ct.parent = some pp
      · obtain ⟨ot, hot, hZo⟩ := hZold pp hppo
        have : pt = ot := by
          rw [hot] at hpt; exact (Option.some.inj hpt).symm
        subst this
        exact ⟨_, hZo, mem_jsSetDel.mpr ⟨hc, hce⟩⟩
      · by_cases hppq : p = some pp
        · obtain ⟨qt, hqt, hZq⟩ := hZnew pp hppq
          have : pt = qt := by
            rw [hqt] at hpt; exact (Option.some.inj hpt).symm
          subst this
          exact ⟨_, hZq, mem_jsSetAdd.mpr (Or.inr hc)⟩
        · refine ⟨pt, ?_, hc⟩
          rw [hZoth pp hppe hppo hppq]
          exact hpt
  -- parent fields of Z agree with s away from e
  have hparent : ∀ c cs, getTransform s c = some cs → c ≠ e →
      ∃ cs', getTransform Z c = some cs' ∧ cs'.parent = cs.parent := by
    intro c cs hcs hce
    by_cases hco : ct.parent = some c
    · obtain ⟨ot, hot, hZo⟩ := hZold c hco
      have : cs = ot := by rw [hot] at hcs; exact (Option.some.inj hcs).symm
      subst this
      exact ⟨_, hZo, rfl⟩
    · by_cases hcq : p = some c
      · obtain ⟨qt, hqt, hZq⟩ := hZnew c hcq
        have : cs = qt := by rw [hqt] at hcs; exact (Option.some.inj hcs).symm
        subst this
        exact ⟨_, hZq, rfl⟩
      · refine ⟨cs, ?_, rfl⟩
        rw [hZoth c hce hco hcq]
        exact hcs
  refine ⟨⟨?_, ?_, ?_⟩, ⟨?_, ?_, ?_⟩, ⟨?_, ?_, ?_⟩⟩
  · rw [hZents]; exact hw.entsNodup
  · intro x
    rw [hZkeys x, hZents]
    exact hw.keysLive x
  · -- transform slots hold transforms
    intro j c hc
    by_cases hje : j = e
    · subst hje
      have := getTransform_eq_comp Z j _ hZe
      rw [this] at hc
      exact ⟨_, (Option.some.inj hc).symm⟩
    · by_cases hjo : ct.parent = some j
      · obtain ⟨ot, hot, hZo⟩ := hZold j hjo
        have := getTransform_eq_comp Z j _ hZo
        rw [this] at hc
        exact ⟨_, (Option.some.inj hc).symm⟩
      · by_cases hjq : p = some j
        · obtain ⟨qt, hqt, hZq⟩ := hZnew j hjq
          have := getTransform_eq_comp Z j _ hZq
          rw [this] at hc
          exact ⟨_, (Option.some.inj hc).symm⟩
        · rw [hZcomp j "transform" (Or.inl ⟨hje, hjo, hjq⟩)] at hc
          exact hw.slotTransform j c hc
  · -- parentOk
    intro a t' pp hat hpp
    by_cases hae : a = e
    · subst hae
      have ht' : t' = { ct with parent := p } := by
        rw [hZe] at hat; exact (Option.some.inj hat).symm
      have hppp : p = some pp := by rw [← hpp, ht']
      obtain ⟨qt, hqt, hZq⟩ := hZnew pp hppp
      refine ⟨?_, _, hZq, mem_jsSetAdd.mpr (Or.inl rfl)⟩
      show hasEntity Z pp = true
      show decide (pp ∈ Z.entities) = true
      rw [hZents]
      exact (hnewfact pp hppp).1
    · -- a keeps its s-parent
      have hsa : ∃ sa, getTransform s a = some sa ∧ sa.parent = t'.parent := by
        by_cases hao : ct.parent = some a
        · obtain ⟨ot, hot, hZo⟩ := hZold a hao
          have : t' = { ot with children := jsSetDel ot.children e } := by
            rw [hZo] at hat; exact (Option.some.inj hat).symm
          exact ⟨ot, hot, by rw [this]⟩
        · by_cases haq : p = some a
          · obtain ⟨qt, hqt, hZq⟩ := hZnew a haq
            have : t' = { qt with children := jsSetAdd qt.children e } := by
              rw [hZq] at hat; exact (Option.some.inj hat).symm
            exact ⟨qt, hqt, by rw [this]⟩
          · refine ⟨t', ?_, rfl⟩
            rw [← hZoth a hae hao haq]
            exact hat
      obtain ⟨sa, hsa1, hsa2⟩ := hsa
      have hspar : sa.parent = some pp := by rw [hsa2, hpp]
      obtain ⟨hlive, pt, hpt, hmem⟩ := hh.parentOk a sa pp hsa1 hspar
      obtain ⟨pt', hpt', hmem'⟩ := hchildren pp pt hpt a hmem hae
      refine ⟨?_, pt', hpt', hmem'⟩
      show decide (pp ∈ Z.entities) = true
      rw [hZents]
      exact hlive
  · -- childOk
    intro pp pt' c hpt' hc
    by_cases hppe : pp = e
    · have hpt'e : getTransform Z e = some pt' := hppe ▸ hpt'
      have ht' : pt' = { ct with parent := p } := by
        rw [hZe] at hpt'e; exact (Option.some.inj hpt'e).symm
      have hcct : c ∈ ct.children := by
        have : pt'.children = ct.children := by rw [ht']
        rw [← this]; exact hc
      obtain ⟨cs, hcs, hcsp⟩ := hh.childOk e ct c hct hcct
      have hce : c ≠ e := by
        intro hceq
        rw [hceq] at hcs
        have : cs = ct := by rw [hct] at hcs; exact (Option.some.inj hcs).symm
        rw [this] at hcsp
        exact hoe hcsp
      obtain ⟨cs', hcs', hcs'p⟩ := hparent c cs hcs hce
      exact ⟨cs', hcs', by rw [hcs'p, hcsp, hppe]⟩
    · by_cases hppo : ct.parent = some pp
      · obtain ⟨ot, hot, hZo⟩ := hZold pp hppo
        have ht' : pt' = { ot with children := jsSetDel ot.children e } := by
          rw [hZo] at hpt'; exact (Option.some.inj hpt').symm
        have hcm : c ∈ ot.children ∧ c ≠ e := by
          apply mem_jsSetDel.mp
          have : pt'.children = jsSetDel ot.children e := by rw [ht']
          rw [← this]; exact hc
        obtain ⟨cs, hcs, hcsp⟩ := hh.childOk pp ot c hot hcm.1
        obtain ⟨cs', hcs', hcs'p⟩ := hparent c cs hcs hcm.2
        exact ⟨cs', hcs', by rw [hcs'p, hcsp]⟩
      · by_cases hppq : p = some pp
        · obtain ⟨qt, hqt, hZq⟩ := hZnew pp hppq
          have ht' : pt' = { qt with children := jsSetAdd qt.children e } := by
            rw [hZq] at hpt'; exact (Option.some.inj hpt').symm
          have hcm : c = e ∨ c ∈ qt.children := by
            apply mem_jsSetAdd.mp
            have : pt'.children = jsSetAdd qt.children e := by rw [ht']
            rw [← this]; exact hc
          rcases hcm with hcm | hcm
          · subst hcm
            exact ⟨{ ct with parent := p }, hZe, by rw [hppq]⟩
          · obtain ⟨cs, hcs, hcsp⟩ := hh.childOk pp qt c hqt hcm
            have hce : c ≠ e := by
              intro hceq
              rw [hceq] at hcs
              have : cs = ct := by
                rw [hct] at hcs; exact (Option.some.inj hcs).symm
              rw [this] at hcsp
              exact hop (hcsp.trans hppq.symm)
            obtain ⟨cs', hcs', hcs'p⟩ := hparent c cs hcs hce
            exact ⟨cs', hcs', by rw [hcs'p, hcsp]⟩
        · have hpt'' : getTransform s pp = some pt' := by
            rw [← hZoth pp hppe hppo hppq]
            exact hpt'
          obtain ⟨cs, hcs, hcsp⟩ := hh.childOk pp pt' c hpt'' hc
          have hce : c ≠ e := by
            intro hceq
            rw [hceq] at hcs
            have : cs = ct := by
              rw [hct] at hcs; exact (Option.some.inj hcs).symm
            rw [this] at hcsp
            exact hppo hcsp
          obtain ⟨cs', hcs', hcs'p⟩ := hparent c cs hcs hce
          exact ⟨cs', hcs', by rw [hcs'p, hcsp]⟩
  · -- termination
    have hpstep_ne : ∀ a : Int, a ≠ e → pstep Z (some a) = pstep s (some a) := by
      intro a hae
      by_cases hao : ct.parent = some a
      · obtain ⟨ot, hot, hZo⟩ := hZold a hao
        show (getTransform Z a).bind Transform.parent =
          (getTransform s a).bind Transform.parent
        rw [hZo, hot]
        rfl
      · by_cases haq : p = some a
        · obtain ⟨qt, hqt, hZq⟩ := hZnew a haq
          show (getTransform Z a).bind Transform.parent =
            (getTransform s a).bind Transform.parent
          rw [hZq, hqt]
          rfl
        · show (getTransform Z a).bind Transform.parent =
            (getTransform s a).bind Transform.parent
          rw [hZoth a hae hao haq]
    have hpstep_e : pstep Z (some e) = p := by
      show (getTransform Z e).bind Transform.parent = p
      rw [hZe]
      rfl
    have havoid : ∀ (k : Nat) (x : Option Int),
        (∀ m : Nat, psteps s m x ≠ some e) →
        psteps Z k x = psteps s k x := by
      intro k
      induction k with
      | zero => intro x _; rfl
      | succ j ih =>
        intro x hx
        cases x with
        | none =>
          rw [psteps_none, psteps_none]
        | some a =>
          have hae : a ≠ e := by
            intro heq
            exact hx 0 (by rw [heq]; rfl)
          show psteps Z j (pstep Z (some a)) = psteps s j (pstep s (some a))
          rw [hpstep_ne a hae]
          apply ih
          intro m
          exact hx (m + 1)
    have hterm : ∀ (n : Nat) (x : Option Int), psteps s n x = none →
        ∃ m, psteps Z m x = none := by
      intro n
      induction n with
      | zero =>
        intro x hx
        exact ⟨0, hx⟩
      | succ j ih =>
        intro x hx
        cases x with
        | none => exact ⟨0, rfl⟩
        | some a =>
          by_cases hae : a = e
          · subst hae
            have hpavoid : ∀ m : Nat, psteps s m p ≠ some a :=
              walk_ok_no_hit s a _ p hwalk
            have hpdead : psteps s (s.entities.length + 1) p = none := by
              cases p with
              | none => rw [psteps_none]
              | some q => exact chain_bound s hh q
            have hZp : psteps Z (s.entities.length + 1) p = none := by
              rw [havoid _ p hpavoid]
              exact hpdead
            refine ⟨s.entities.length + 2, ?_⟩
            show psteps Z (s.entities.length + 1) (pstep Z (some a)) = none
            rw [hpstep_e]
            exact hZp
          · have hx' : psteps s j (pstep s (some a)) = none := hx
            obtain ⟨m, hm⟩ := ih (pstep s (some a)) hx'
            refine ⟨m + 1, ?_⟩
            show psteps Z m (pstep Z (some a)) = none
            rw [hpstep_ne a hae]
            exact hm
    intro a
    exact hterm (s.entities.length + 1) (some a) (chain_bound s hh a)
  · intro ty x
    rw [hZidx, hZhas x ty]
    exact hx.mem ty x
  · intro ty l hl
    rw [hZidx] at hl
    exact hx.nodupSets ty l hl
  · intro x ty hcomp
    rw [hZhas x ty] at hcomp
    exact hx.tyValid x ty hcomp

/-- `setParent` preserves the store invariant. -/
theorem setParent_INV (s : EMState) (e : Int) (p : Option Int) (h : INV s) :
    INV (setParent s e p).2 := by
  obtain ⟨hw, hh, hx⟩ := h
  rcases setParent_spec s e p with ⟨_, heq⟩ | ⟨_, heq, _⟩ |
    ⟨_, ct, hct, _, hnewfact, hpe, hop, hwalk, heq⟩
  · rw [heq]; exact ⟨hw, hh, hx⟩
  · rw [heq]; exact ⟨hw, hh, hx⟩
  · rw [heq]
    exact spApply_INV s e p ct hw hh hx hct hpe hop hnewfact hwalk

/-! ## Transferring the invariant across hierarchy-preserving rewrites -/

/-- The hierarchy-relevant projection of an entity: presence of a
transform, its parent and its child set. -/
def hierProj (s : EMState) (j : Int) : Option (Option Int × List Int) :=
  (getTransform s j).map (fun t => (t.parent, t.children))

theorem pstep_of_hierProj (s s' : EMState)
    (hproj : ∀ j, hierProj s' j = hierProj s j) :
    ∀ x, pstep s' x = pstep s x := by
  intro x
  cases x with
  | none => rfl
  | some a =>
    show (getTransform s' a).bind Transform.parent =
      (getTransform s a).bind Transform.parent
    have := hproj a
    unfold hierProj at this
    cases h1 : getTransform s' a with
    | none =>
      rw [h1] at this
      cases h2 : getTransform s a with
      | none => rfl
      | some t => rw [h2] at this; cases this
    | some t' =>
      rw [h1] at this
      cases h2 : getTransform s a with
      | none => rw [h2] at this; cases this
      | some t =>
        rw [h2] at this
        have : t'.parent = t.parent := by
          have h3 := Option.some.inj this
          exact congrArg Prod.fst h3
        simpa using this

/-- A state with the same entities, index, component presence and
hierarchy projection satisfies the invariant whenever the original
does. -/
theorem INV_transfer (s s' : EMState)
    (hents : s'.entities = s.entities)
    (hidx : s'.index = s.index)
    (hkeys : ∀ x, (mapGet s'.comps x).isSome = (mapGet s.comps x).isSome)
    (hhas : ∀ j ty, hasComp s' j ty = hasComp s j ty)
    (hslot : ∀ j c, getComp s' j "transform" = some c →
      ∃ t, c = Comp.transform t)
    (hproj : ∀ j, hierProj s' j = hierProj s j)
    (h : INV s) : INV s' := by
  obtain ⟨hw, hh, hx⟩ := h
  have hget : ∀ j t', getTransform s' j = some t' →
      ∃ t, getTransform s j = some t ∧ t.parent = t'.parent ∧
        t.children = t'.children := by
    intro j t' hj
    have := hproj j
    unfold hierProj at this
    rw [hj] at this
    cases h2 : getTransform s j with
    | none => rw [h2] at this; cases this
    | some t =>
      rw [h2] at this
      have h3 := Option.some.inj this
      exact ⟨t, rfl, (congrArg Prod.fst h3).symm, (congrArg Prod.snd h3).symm⟩
  have hget' : ∀ j t, getTransform s j = some t →
      ∃ t', getTransform s' j = some t' ∧ t'.parent = t.parent ∧
        t'.children = t.children := by
    intro j t hj
    have := (hproj j).symm
    unfold hierProj at this
    rw [hj] at this
    cases h2 : getTransform s' j with
    | none => rw [h2] at this; cases this
    | some t' =>
      rw [h2] at this
      have h3 := Option.some.inj this
      exact ⟨t', rfl, (congrArg Prod.fst h3).symm, (congrArg Prod.snd h3).symm⟩
  refine ⟨⟨?_, ?_, hslot⟩, ⟨?_, ?_, ?_⟩, ⟨?_, ?_, ?_⟩⟩
  · rw [hents]; exact hw.entsNodup
  · intro x; rw [hkeys x, hents]; exact hw.keysLive x
  · intro e t' p he hp
    obtain ⟨t, ht, htp, htc⟩ := hget e t' he
    obtain ⟨hlive, pt, hpt, hmem⟩ := hh.parentOk e t p ht (by rw [htp, hp])
    obtain ⟨pt', hpt', hp1, hp2⟩ := hget' p pt hpt
    refine ⟨?_, pt', hpt', by rw [hp2]; exact hmem⟩
    show decide (p ∈ s'.entities) = true
    rw [hents]
    exact hlive
  · intro p pt' c hp hc
    obtain ⟨pt, hpt, _, hptc⟩ := hget p pt' hp
    obtain ⟨ct, hct, hcp⟩ := hh.childOk p pt c hpt (by rw [hptc]; exact hc)
    obtain ⟨ct', hct', hcp', _⟩ := hget' c ct hct
    exact ⟨ct', hct', by rw [hcp']; exact hcp⟩
  · intro e
    obtain ⟨n, hn⟩ := hh.terminating e
    refine ⟨n, ?_⟩
    have hps : ∀ (k : Nat) (x : Option Int), psteps s' k x = psteps s k x := by
      intro k
      induction k with
      | zero => intro x; rfl
      | succ m ih =>
        intro x
        show psteps s' m (pstep s' x) = psteps s m (pstep s x)
        rw [pstep_of_hierProj s s' hproj x, ih]
    rw [hps n (some e)]
    exact hn
  · intro ty x; rw [hidx, hhas x ty]; exact hx.mem ty x
  · intro ty l hl; rw [hidx] at hl; exact hx.nodupSets ty l hl
  · intro x ty hc; rw [hhas x ty] at hc; exact hx.tyValid x ty hc

/-! ## Claim C3: rejected `setParent` calls have zero effect -/

/-- A strictly positive-period cycle contradicts chain termination. -/
theorem no_cycle (s : EMState) (hh : HierInv s) (e : Int) (d : Nat)
    (hd : 0 < d) (hp : psteps s d (some e) = some e) : False := by
  have hcycle : ∀ m : Nat, psteps s (d * m) (some e) = some e := by
    intro m
    induction m with
    | zero => rfl
    | succ k ih =>
      have : d * (k + 1) = d * k + d := by ring
      rw [this, psteps_add, ih, hp]
  obtain ⟨n, hn⟩ := hh.terminating e
  have hge : n ≤ d * (n + 1) := by
    calc n ≤ n + 1 := by omega
      _ ≤ d * (n + 1) := Nat.le_mul_of_pos_left _ hd
  have : psteps s (d * (n + 1)) (some e) = none := by
    have heq : d * (n + 1) = n + (d * (n + 1) - n) := by omega
    rw [heq, psteps_add, hn, psteps_none]
  rw [hcycle (n + 1)] at this
  cases this

theorem setParent_false_unchanged (s : EMState) (e : Int) (p : Option Int)
    (h : (setParent s e p).1 = false) : (setParent s e p).2 = s := by
  rcases setParent_spec s e p with ⟨_, heq⟩ | ⟨htrue, _, _⟩ | ⟨htrue, _⟩
  · exact heq
  · rw [htrue] at h; cases h
  · rw [htrue] at h; cases h

/-- Claim C3: a `setParent` call that would create a cycle — the child is
an ancestor of the prospective parent — returns false and leaves the store
untouched; and, entirely generally, every rejected `setParent` call
(missing entity, missing transform, self-parenting, cycle) has zero
partial effect on the store. -/
theorem C3_setParent_cycle_rejected_no_partial_effect :
    (∀ (s : EMState) (e : Int) (p : Option Int),
      (setParent s e p).1 = false → (setParent s e p).2 = s) ∧
    (∀ (s : EMState) (e np : Int) (k : Nat), INV s →
      psteps s k (some np) = some e →
      (setParent s e (some np)).1 = false ∧
        (setParent s e (some np)).2 = s) := by
  refine ⟨setParent_false_unchanged, ?_⟩
  intro s e np k hinv hanc
  obtain ⟨hw, hh, hx⟩ := hinv
  have hfalse : (setParent s e (some np)).1 = false := by
    rcases setParent_spec s e (some np) with ⟨hf, _⟩ |
      ⟨htrue, _, ct, hct, hpar⟩ | ⟨htrue, ct, hct, _, _, _, _, hwalk, _⟩
    · exact hf
    · -- no-op success: the parent link already exists, so the ancestor
      -- path closes a cycle, contradicting termination
      exfalso
      have hstep : pstep s (some e) = some np := by
        show (getTransform s e).bind Transform.parent = some np
        rw [hct]
        exact hpar
      have hcyc : psteps s (1 + k) (some e) = some e := by
        rw [psteps_add]
        show psteps s k (psteps s 1 (some e)) = some e
        have : psteps s 1 (some e) = pstep s (some e) := rfl
        rw [this, hstep]
        exact hanc
      exact no_cycle s hh e (1 + k) (by omega) hcyc
    · exfalso
      exact walk_ok_no_hit s e _ (some np) hwalk k hanc
  exact ⟨hfalse, setParent_false_unchanged s e (some np) hfalse⟩

/-! ## Auxiliary map facts for the operation preservation proofs -/

theorem mapGet_isSome_iff {α β : Type} [DecidableEq α]
    (l : List (α × β)) (k : α) :
    (mapGet l k).isSome = true ↔ k ∈ l.map Prod.fst := by
  induction l with
  | nil => simp [mapGet]
  | cons kv rest ih =>
    obtain ⟨a, b⟩ := kv
    by_cases h : a = k
    · subst h
      simp [mapGet]
    · simp only [mapGet, if_neg h, List.map_cons, List.mem_cons]
      rw [ih]
      constructor
      · exact Or.inr
      · rintro (hk | hk)
        · exact absurd hk.symm h
        · exact hk

theorem mapGet_none_of_not_mem {α β : Type} [DecidableEq α]
    {l : List (α × β)} {k : α} (h : k ∉ l.map Prod.fst) :
    mapGet l k = none := by
  cases hg : mapGet l k with
  | none => rfl
  | some v =>
    exact absurd ((mapGet_isSome_iff l k).mp (by rw [hg]; rfl)) h

theorem mapGet_filter_none {α β : Type} [DecidableEq α]
    (l : List (α × β)) (p : α × β → Bool) (k : α)
    (h : mapGet l k = none) : mapGet (l.filter p) k = none := by
  cases hg : mapGet (l.filter p) k with
  | none => rfl
  | some v =>
    exfalso
    have h1 : k ∈ (l.filter p).map Prod.fst :=
      (mapGet_isSome_iff _ k).mp (by rw [hg]; rfl)
    obtain ⟨kv, hkv, hfst⟩ := List.mem_map.mp h1
    have h2 : k ∈ l.map Prod.fst :=
      List.mem_map.mpr ⟨kv, List.mem_of_mem_filter hkv, hfst⟩
    have h3 := (mapGet_isSome_iff l k).mpr h2
    rw [h] at h3
    cases h3

/-- A transform built from data without `parent`/`children` fields is a
childless root. -/
theorem mkTransform_root (data : Fields) (t : Transform)
    (hp : mapGet data "parent" = none)
    (hc : mapGet data "children" = none)
    (h : mkTransform data = some t) : t.parent = none ∧ t.children = [] := by
  unfold mkTransform at h
  rw [hp, hc] at h
  simp only [Option.bind_eq_bind, Option.bind_eq_some, Option.pure_def,
    Option.some.injEq, childrenOfVal] at h
  obtain ⟨pos, _, rot, _, scl, _, ch, hch, ht⟩ := h
  rw [← ht]
  exact ⟨rfl, hch.symm⟩

/-- A present transform means the entity is live. -/
theorem getTransform_some_live (s : EMState) (i : Int) (t : Transform)
    (h : getTransform s i = some t) : hasEntity s i = true :=
  getComp_some_live s i "transform" _ (getTransform_eq_comp s i t h)

theorem psteps_congr {s s' : EMState}
    (h : ∀ x : Int, pstep s' (some x) = pstep s (some x)) :
    ∀ (k : Nat) (x : Option Int), psteps s' k x = psteps s k x := by
  intro k
  induction k with
  | zero => intro x; rfl
  | succ m ih =>
    intro x
    cases x with
    | none =>
      show psteps s' m (pstep s' none) = psteps s m (pstep s none)
      exact ih none
    | some a =>
      show psteps s' m (pstep s' (some a)) = psteps s m (pstep s (some a))
      rw [h a, ih]

/-! ## Edge shrinkage

Removal operations only ever cut parent links, never create them; a
state whose parent steps are a sub-function of another's inherits chain
termination and chain bounds. -/

/-- Every parent step of `s'` agrees with the step of `s` or is cut. -/
def Shrinks (s s' : EMState) : Prop :=
  ∀ x : Int, pstep s' (some x) = pstep s (some x) ∨ pstep s' (some x) = none

theorem shrinks_self (s : EMState) : Shrinks s s :=
  fun _ => Or.inl (Eq.refl _)

theorem Shrinks.trans {s₁ s₂ s₃ : EMState} (h12 : Shrinks s₁ s₂)
    (h23 : Shrinks s₂ s₃) : Shrinks s₁ s₃ := by
  intro x
  rcases h23 x with h | h
  · rw [h]; exact h12 x
  · exact Or.inr h

/-- A surviving chain of a shrunk state is a chain of the original. -/
theorem psteps_shrink_some {s s' : EMState} (h : Shrinks s s') :
    ∀ (n : Nat) (c a : Int), psteps s' n (some c) = some a →
      psteps s n (some c) = some a := by
  intro n
  induction n with
  | zero => intro c a h0; exact h0
  | succ m ih =>
    intro c a hm
    have h1 : psteps s' m (pstep s' (some c)) = some a := hm
    show psteps s m (pstep s (some c)) = some a
    rcases h c with hc | hc
    · cases hp : pstep s (some c) with
      | none => rw [hc, hp, psteps_none] at h1; cases h1
      | some b =>
        rw [hc, hp] at h1
        exact ih b a h1
    · rw [hc, psteps_none] at h1; cases h1

/-- Chain death survives shrinking (within the same step count). -/
theorem psteps_shrink_none {s s' : EMState} (h : Shrinks s s') :
    ∀ (n : Nat) (x : Option Int), psteps s n x = none →
      psteps s' n x = none := by
  intro n
  induction n with
  | zero => intro x h0; exact h0
  | succ m ih =>
    intro x hx
    cases x with
    | none => rw [psteps_none]
    | some c =>
      have h1 : psteps s m (pstep s (some c)) = none := hx
      show psteps s' m (pstep s' (some c)) = none
      rcases h c with hc | hc
      · rw [hc]; exact ih _ h1
      · rw [hc, psteps_none]

theorem terminating_of_shrinks {s s' : EMState} (h : Shrinks s s')
    (ht : ∀ e : Int, ∃ n, psteps s n (some e) = none) :
    ∀ e : Int, ∃ n, psteps s' n (some e) = none := by
  intro e
  obtain ⟨n, hn⟩ := ht e
  exact ⟨n, psteps_shrink_none h n (some e) hn⟩

/-- Re-rooting an entity (`setParent(id, null)`) only cuts parent links. -/
theorem setParent_none_shrinks (s : EMState) (e : Int) (hh : HierInv s) :
    Shrinks s (setParent s e none).2 := by
  rcases setParent_spec s e none with ⟨_, heq⟩ | ⟨_, heq, _⟩ |
    ⟨_, ct, hct, _, _, hpe, hop, _, heq⟩
  · rw [heq]; exact shrinks_self s
  · rw [heq]; exact shrinks_self s
  · rw [heq]
    have hoe := no_self_parent s hh e ct hct
    have hold : ∀ o, ct.parent = some o → ∃ ot, getTransform s o = some ot := by
      intro o ho
      obtain ⟨_, ot, hot, _⟩ := hh.parentOk e ct o hct ho
      exact ⟨ot, hot⟩
    have hnew : ∀ q, (none : Option Int) = some q →
        ∃ qt, getTransform s q = some qt := by
      intro q hq; cases hq
    obtain ⟨hZe, hZold, _, hZoth, _⟩ :=
      spApply_char s e none ct hct hoe hpe hop hold hnew
    intro x
    by_cases hxe : x = e
    · subst hxe
      right
      show (getTransform _ x).bind Transform.parent = none
      rw [hZe]
      rfl
    · by_cases hxo : ct.parent = some x
      · obtain ⟨ot, hot, hZo⟩ := hZold x hxo
        left
        show (getTransform _ x).bind _ = (getTransform s x).bind _
        rw [hZo, hot]
        rfl
      · left
        show (getTransform _ x).bind _ = (getTransform s x).bind _
        rw [hZoth x hxe hxo (by intro hc; cases hc)]

/-! ## `createEntity` preserves the invariant -/

theorem addEntity_INV (s : EMState) (i : Int) (hfresh : i ∉ s.entities)
    (h : INV s) :
    INV { s with
      nextEntityId := i + 1
      entities := jsSetAdd s.entities i
      comps := mapSet s.comps i [] } := by
  obtain ⟨hw, hh, hx⟩ := h
  set s' : EMState := { s with
    nextEntityId := i + 1
    entities := jsSetAdd s.entities i
    comps := mapSet s.comps i [] } with hs'
  have hents : s'.entities = s.entities ++ [i] := by
    show jsSetAdd s.entities i = _
    simp [jsSetAdd, hfresh]
  have hmem : ∀ x : Int, x ∈ s'.entities ↔ x ∈ s.entities ∨ x = i := by
    intro x; rw [hents]; simp
  have hcomps : ∀ x : Int, mapGet s'.comps x =
      if x = i then some [] else mapGet s.comps x := by
    intro x
    by_cases hxi : x = i
    · subst hxi
      show mapGet (mapSet s.comps x []) x = _
      rw [mapGet_set_self, if_pos rfl]
    · show mapGet (mapSet s.comps i []) x = _
      rw [mapGet_set_ne s.comps i x [] hxi, if_neg hxi]
  have hlive' : ∀ x : Int, x ≠ i → hasEntity s' x = hasEntity s x := by
    intro x hxi
    show decide (x ∈ s'.entities) = decide (x ∈ s.entities)
    rw [hents]
    simp [hxi]
  have hgc : ∀ (x : Int) (ty : String),
      getComp s' x ty = if x = i then none else getComp s x ty := by
    intro x ty
    by_cases hxi : x = i
    · subst hxi
      rw [if_pos rfl]
      unfold getComp
      have : hasEntity s' x = true := by
        show decide (x ∈ s'.entities) = true
        rw [hents]; simp
      rw [if_pos this, hcomps x, if_pos rfl]
      rfl
    · rw [if_neg hxi]
      unfold getComp
      rw [hlive' x hxi, hcomps x, if_neg hxi]
  have hgt : ∀ x : Int,
      getTransform s' x = if x = i then none else getTransform s x := by
    intro x
    unfold getTransform
    rw [hgc x "transform"]
    by_cases hxi : x = i
    · rw [if_pos hxi, if_pos hxi]
    · rw [if_neg hxi, if_neg hxi]
  have hti : getTransform s i = none := by
    unfold getTransform getComp
    rw [if_neg (by simp [hasEntity, hfresh])]
  have hpsteps : ∀ x : Int, pstep s' (some x) = pstep s (some x) := by
    intro x
    show (getTransform s' x).bind _ = (getTransform s x).bind _
    rw [hgt x]
    by_cases hxi : x = i
    · rw [if_pos hxi, hxi, hti]
    · rw [if_neg hxi]
  refine ⟨⟨?_, ?_, ?_⟩, ⟨?_, ?_, ?_⟩, ⟨?_, ?_, ?_⟩⟩
  · rw [hents]
    refine List.Nodup.append hw.entsNodup (List.nodup_singleton i) ?_
    intro a ha hb
    rw [List.mem_singleton] at hb
    subst hb
    exact hfresh ha
  · intro x
    rw [hcomps x, hmem x]
    by_cases hxi : x = i
    · subst hxi; simp
    · rw [if_neg hxi]
      rw [hw.keysLive x]
      simp [hxi]
  · intro e c hc
    rw [hgc e "transform"] at hc
    by_cases hei : e = i
    · rw [if_pos hei] at hc; cases hc
    · rw [if_neg hei] at hc
      exact hw.slotTransform e c hc
  · intro e t p he hp
    rw [hgt e] at he
    by_cases hei : e = i
    · rw [if_pos hei] at he; cases he
    · rw [if_neg hei] at he
      obtain ⟨hpl, pt, hpt, hmm⟩ := hh.parentOk e t p he hp
      have hpi : p ≠ i := by
        intro hpi
        subst hpi
        exact hfresh (by simpa [hasEntity] using hpl)
      refine ⟨?_, pt, ?_, hmm⟩
      · show decide (p ∈ s'.entities) = true
        rw [hents]
        simp [hasEntity] at hpl
        simp [hpl]
      · rw [hgt p, if_neg hpi]
        exact hpt
  · intro p pt c hp hc
    rw [hgt p] at hp
    by_cases hpi : p = i
    · rw [if_pos hpi] at hp; cases hp
    · rw [if_neg hpi] at hp
      obtain ⟨ct, hct, hcp⟩ := hh.childOk p pt c hp hc
      have hci : c ≠ i := by
        intro hci
        subst hci
        rw [hti] at hct
        cases hct
      refine ⟨ct, ?_, hcp⟩
      rw [hgt c, if_neg hci]
      exact hct
  · intro e
    obtain ⟨n, hn⟩ := hh.terminating e
    refine ⟨n, ?_⟩
    rw [psteps_congr hpsteps n (some e)]
    exact hn
  · intro ty x
    show x ∈ (mapGet s.index ty).getD [] ↔ _
    unfold hasComp
    rw [hgc x ty]
    by_cases hxi : x = i
    · rw [if_pos hxi]
      subst hxi
      have : hasComp s x ty = false := by
        unfold hasComp getComp
        rw [if_neg (by simp [hasEntity, hfresh])]
        rfl
      have h2 := hx.mem ty x
      rw [this] at h2
      simp only [Option.isSome_none]
      constructor
      · intro hin
        exact absurd (h2.mp hin) (by simp)
      · intro hfalse
        cases hfalse
    · rw [if_neg hxi]
      exact hx.mem ty x
  · intro ty l hl
    exact hx.nodupSets ty l hl
  · intro x ty hc
    unfold hasComp at hc
    rw [hgc x ty] at hc
    by_cases hxi : x = i
    · rw [if_pos hxi] at hc; cases hc
    · rw [if_neg hxi] at hc
      exact hx.tyValid x ty hc

theorem createEntity_INV (s : EMState) (h : INV s) :
    INV (createEntity s).2 :=
  addEntity_INV s _ (createEntity_fresh s) h

/-! ## `addComponent` preserves the invariant -/

/-- A single merge step on a transform never touches parent or children
unless the key is `parent`. -/
theorem updateCompField_transform_hier (t : Transform) (key : String)
    (v : Value) (hk : key ≠ "parent") :
    ∃ t', updateCompField (Comp.transform t) key v = Comp.transform t' ∧
      t'.parent = t.parent ∧ t'.children = t.children := by
  unfold updateCompField
  dsimp only
  by_cases h1 : key = "position"
  · rw [if_pos h1]
    cases v <;> exact ⟨_, rfl, rfl, rfl⟩
  · rw [if_neg h1]
    by_cases h2 : key = "rotation"
    · rw [if_pos h2]
      cases v <;> exact ⟨_, rfl, rfl, rfl⟩
    · rw [if_neg h2]
      by_cases h3 : key = "scale"
      · rw [if_pos h3]
        cases v <;> exact ⟨_, rfl, rfl, rfl⟩
      · rw [if_neg h3, if_neg hk]
        exact ⟨t, rfl, rfl, rfl⟩

/-- On the hierarchy type, the update-merge fold of `addComponent` keeps
the stored transform's parent and children untouched: both keys are
intercepted before reaching the field assignment. -/
theorem mergeFold_hier (cd : Fields) :
    ∀ (c₀ : Comp) (pv : Option Value) (t₀ : Transform),
      c₀ = Comp.transform t₀ →
      ∃ t₁, (cd.foldl
          (fun (acc : Comp × Option Value) kv =>
            if ("transform" : String) = "transform" ∧ kv.1 = "parent" then
              (acc.1, some kv.2)
            else if ("transform" : String) = "transform" ∧
                kv.1 = "children" then acc
            else (updateCompField acc.1 kv.1 kv.2, acc.2))
          (c₀, pv)).1 = Comp.transform t₁ ∧
        t₁.parent = t₀.parent ∧ t₁.children = t₀.children := by
  induction cd with
  | nil =>
    intro c₀ pv t₀ h
    exact ⟨t₀, h, rfl, rfl⟩
  | cons kv rest ih =>
    intro c₀ pv t₀ h
    rw [List.foldl_cons]
    dsimp only
    by_cases h1 : kv.1 = "parent"
    · rw [if_pos ⟨rfl, h1⟩]
      exact ih c₀ (some kv.2) t₀ h
    · rw [if_neg (fun hc => h1 hc.2)]
      by_cases h2 : kv.1 = "children"
      · rw [if_pos ⟨rfl, h2⟩]
        exact ih c₀ pv t₀ h
      · rw [if_neg (fun hc => h2 hc.2)]
        obtain ⟨t', ht', hp', hc'⟩ :=
          updateCompField_transform_hier t₀ kv.1 kv.2 h1
        have heq : updateCompField c₀ kv.1 kv.2 = Comp.transform t' := by
          rw [h]; exact ht'
        obtain ⟨t₁, h₁, hp₁, hc₁⟩ :=
          ih (updateCompField c₀ kv.1 kv.2) pv t' heq
        exact ⟨t₁, h₁, hp₁.trans hp', hc₁.trans hc'⟩

/-- Off the hierarchy type, the fold records no pending parent value. -/
theorem mergeFold_snd (ty : String) (hty : ty ≠ "transform") (cd : Fields) :
    ∀ acc : Comp × Option Value,
      (cd.foldl
        (fun (acc : Comp × Option Value) kv =>
          if ty = "transform" ∧ kv.1 = "parent" then (acc.1, some kv.2)
          else if ty = "transform" ∧ kv.1 = "children" then acc
          else (updateCompField acc.1 kv.1 kv.2, acc.2))
        acc).2 = acc.2 := by
  induction cd with
  | nil => intro acc; rfl
  | cons kv rest ih =>
    intro acc
    rw [List.foldl_cons]
    rw [if_neg (fun hc => hty hc.1), if_neg (fun hc => hty hc.1)]
    exact ih _

/-- The registry binds the reserved `'transform'` name to the transform
class, if it binds it at all. -/
def RegOk (reg : Registry) : Prop :=
  reg "transform" = some CompSpec.transformSpec ∨ reg "transform" = none

/-- The call does not seed a brand-new hierarchy component with `parent`
or `children` data.  Parent updates on an existing transform are safe
without this: the merge intercepts them and delegates to `setParent`. -/
def SafeAdd (s : EMState) (id : Int) (ty : String) (data : Fields) : Prop :=
  ty = "transform" → getComp s id "transform" = none →
    mapGet data "parent" = none ∧ mapGet data "children" = none

/-- Installing a brand-new component on a live entity preserves the
invariant, provided a new hierarchy component is a childless root. -/
theorem setNewComp_INV (s : EMState) (id : Int) (ty : String) (c : Comp)
    (h : INV s) (hlive : hasEntity s id = true)
    (hnone : getComp s id ty = none) (htrim : ty.trim ≠ "")
    (hroot : ty = "transform" → ∃ t, c = Comp.transform t ∧
      t.parent = none ∧ t.children = []) :
    INV (indexAdd (setComp s id ty c) ty id) := by
  obtain ⟨hw, hh, hx⟩ := h
  set s₂ := indexAdd (setComp s id ty c) ty id with hs₂
  have hshell₁ := setComp_shell s id ty c
  have hkeep := indexAdd_keeps (setComp s id ty c) ty id
  have hents : s₂.entities = s.entities := by
    rw [hs₂, hkeep.1, hshell₁.1]
  have hcomps₂ : s₂.comps = (setComp s id ty c).comps := hkeep.2.2
  have hm0 : (mapGet s.comps id).isSome = true :=
    (hw.keysLive id).mpr (by simpa [hasEntity] using hlive)
  obtain ⟨m, hm⟩ := Option.isSome_iff_exists.mp hm0
  have hsc : (setComp s id ty c).comps = mapSet s.comps id (mapSet m ty c) := by
    unfold setComp; rw [hm]
  have hgc : ∀ (x : Int) (tyx : String), getComp s₂ x tyx =
      if x = id ∧ tyx = ty then some c else getComp s x tyx := by
    intro x tyx
    have hstep : getComp s₂ x tyx = getComp (setComp s id ty c) x tyx := by
      unfold getComp hasEntity
      rw [hents, hcomps₂, hshell₁.1]
    by_cases hxx : x = id ∧ tyx = ty
    · rw [if_pos hxx, hstep, hxx.1, hxx.2]
      exact getComp_setComp_self s id ty c hlive hm0
    · rw [if_neg hxx, hstep]
      apply getComp_setComp_other
      by_cases hxi : x = id
      · exact Or.inr (fun hty2 => hxx ⟨hxi, hty2⟩)
      · exact Or.inl hxi
  have hidxc : ∀ tyx : String, mapGet s₂.index tyx =
      if tyx = ty then some (jsSetAdd ((mapGet s.index ty).getD []) id)
      else mapGet s.index tyx := by
    intro tyx
    have h4 : s₂.index =
        match mapGet s.index ty with
        | none => mapSet s.index ty [id]
        | some st => mapSet s.index ty (jsSetAdd st id) := by
      rw [hs₂]
      unfold indexAdd
      rw [hshell₁.2.2]
      cases mapGet s.index ty <;> rfl
    rw [h4]
    cases hmi : mapGet s.index ty with
    | none =>
      by_cases htx : tyx = ty
      · subst htx
        rw [mapGet_set_self, if_pos rfl]
        show some [id] = some (jsSetAdd [] id)
        simp [jsSetAdd]
      · rw [mapGet_set_ne s.index ty tyx [id] htx, if_neg htx]
    | some st =>
      by_cases htx : tyx = ty
      · subst htx
        rw [mapGet_set_self, if_pos rfl]
        rfl
      · rw [mapGet_set_ne s.index ty tyx _ htx, if_neg htx]
  refine ⟨⟨?_, ?_, ?_⟩, ?_, ⟨?_, ?_, ?_⟩⟩
  · rw [hents]; exact hw.entsNodup
  · intro x
    rw [hents, hcomps₂, hsc, mapGet_set_isSome]
    by_cases hxi : x = id
    · subst hxi
      simp only [decide_eq_true_eq]
      constructor
      · intro _; simpa [hasEntity] using hlive
      · intro _; simp
    · have hdx : (decide (x = id)) = false := by simp [hxi]
      rw [hdx, Bool.or_false]
      exact hw.keysLive x
  · intro x cc hcc
    rw [hgc x "transform"] at hcc
    by_cases hxx : x = id ∧ ("transform" : String) = ty
    · rw [if_pos hxx] at hcc
      obtain ⟨t, hct, _, _⟩ := hroot hxx.2.symm
      exact ⟨t, by rw [← Option.some.inj hcc, hct]⟩
    · rw [if_neg hxx] at hcc
      exact hw.slotTransform x cc hcc
  · -- hierarchy component of the invariant
    by_cases hty : ty = "transform"
    · subst hty
      obtain ⟨t, hct, hpar, hchl⟩ := hroot rfl
      subst hct
      have hti : getTransform s id = none := by
        unfold getTransform
        rw [hnone]
      have hgt₂ : ∀ x : Int, getTransform s₂ x =
          if x = id then some t else getTransform s x := by
        intro x
        by_cases hxi : x = id
        · rw [if_pos hxi]
          unfold getTransform
          rw [hgc x "transform", if_pos ⟨hxi, rfl⟩]
        · rw [if_neg hxi]
          unfold getTransform
          rw [hgc x "transform", if_neg (fun hc => hxi hc.1)]
      have hps : ∀ x : Int, pstep s₂ (some x) = pstep s (some x) := by
        intro x
        show (getTransform s₂ x).bind _ = (getTransform s x).bind _
        rw [hgt₂ x]
        by_cases hxi : x = id
        · rw [if_pos hxi, hxi, hti]
          show t.parent = none
          exact hpar
        · rw [if_neg hxi]
      refine ⟨?_, ?_, ?_⟩
      · intro e t' p he hp
        rw [hgt₂ e] at he
        by_cases hei : e = id
        · rw [if_pos hei] at he
          have : t' = t := (Option.some.inj he).symm
          rw [this, hpar] at hp
          cases hp
        · rw [if_neg hei] at he
          obtain ⟨hpl, pt, hpt, hmm⟩ := hh.parentOk e t' p he hp
          have hpi : p ≠ id := by
            intro hpi
            rw [hpi, hti] at hpt
            cases hpt
          refine ⟨?_, pt, ?_, hmm⟩
          · show decide (p ∈ s₂.entities) = true
            rw [hents]
            exact hpl
          · rw [hgt₂ p, if_neg hpi]
            exact hpt
      · intro p pt c' hp hc
        rw [hgt₂ p] at hp
        by_cases hpi : p = id
        · rw [if_pos hpi] at hp
          have : pt = t := (Option.some.inj hp).symm
          rw [this, hchl] at hc
          cases hc
        · rw [if_neg hpi] at hp
          obtain ⟨ct, hct2, hcp⟩ := hh.childOk p pt c' hp hc
          have hci : c' ≠ id := by
            intro hci
            rw [hci, hti] at hct2
            cases hct2
          refine ⟨ct, ?_, hcp⟩
          rw [hgt₂ c', if_neg hci]
          exact hct2
      · intro e
        obtain ⟨n, hn⟩ := hh.terminating e
        exact ⟨n, by rw [psteps_congr hps n (some e)]; exact hn⟩
    · have hgt₃ : ∀ x : Int, getTransform s₂ x = getTransform s x := by
        intro x
        unfold getTransform
        rw [hgc x "transform", if_neg (fun hc => hty hc.2.symm)]
      have hps : ∀ x : Int, pstep s₂ (some x) = pstep s (some x) := by
        intro x
        show (getTransform s₂ x).bind _ = (getTransform s x).bind _
        rw [hgt₃ x]
      refine ⟨?_, ?_, ?_⟩
      · intro e t' p he hp
        rw [hgt₃ e] at he
        obtain ⟨hpl, pt, hpt, hmm⟩ := hh.parentOk e t' p he hp
        refine ⟨?_, pt, ?_, hmm⟩
        · show decide (p ∈ s₂.entities) = true
          rw [hents]
          exact hpl
        · rw [hgt₃ p]
          exact hpt
      · intro p pt c' hp hc
        rw [hgt₃ p] at hp
        obtain ⟨ct, hct2, hcp⟩ := hh.childOk p pt c' hp hc
        exact ⟨ct, by rw [hgt₃ c']; exact hct2, hcp⟩
      · intro e
        obtain ⟨n, hn⟩ := hh.terminating e
        exact ⟨n, by rw [psteps_congr hps n (some e)]; exact hn⟩
  · intro tyx x'
    show x' ∈ (mapGet s₂.index tyx).getD [] ↔ _
    unfold hasComp
    rw [hgc x' tyx, hidxc tyx]
    by_cases htx : tyx = ty
    · subst htx
      rw [if_pos rfl]
      simp only [Option.getD_some]
      rw [mem_jsSetAdd]
      by_cases hxi : x' = id
      · rw [if_pos (⟨hxi, by simp⟩ : _ ∧ _)]
        simp [hxi]
      · rw [if_neg (fun hc => hxi hc.1)]
        constructor
        · rintro (hc | hc)
          · exact absurd hc hxi
          · exact (hx.mem tyx x').mp hc
        · intro hc
          exact Or.inr ((hx.mem tyx x').mpr hc)
    · rw [if_neg htx, if_neg (fun hc => htx hc.2)]
      exact hx.mem tyx x'
  · intro tyx l hl
    rw [hidxc tyx] at hl
    by_cases htx : tyx = ty
    · rw [if_pos htx] at hl
      have hl2 := Option.some.inj hl
      rw [← hl2]
      cases hmi : mapGet s.index ty with
      | none =>
        simp [jsSetAdd]
      | some st =>
        show (jsSetAdd st id).Nodup
        exact jsSetAdd_nodup (hx.nodupSets ty st hmi)
    · rw [if_neg htx] at hl
      exact hx.nodupSets tyx l hl
  · intro x' tyx hc
    unfold hasComp at hc
    rw [hgc x' tyx] at hc
    by_cases hxx : x' = id ∧ tyx = ty
    · rw [hxx.2]
      exact htrim
    · rw [if_neg hxx] at hc
      exact hx.tyValid x' tyx hc

/-- Overwriting an existing component slot with a hierarchy-equivalent
component preserves the invariant. -/
theorem setExistingComp_INV (s : EMState) (id : Int) (ty : String)
    (c₀ c₁ : Comp) (h : INV s) (hgc0 : getComp s id ty = some c₀)
    (hcompat : ty = "transform" →
      ∃ t₀ t₁, c₀ = Comp.transform t₀ ∧ c₁ = Comp.transform t₁ ∧
        t₁.parent = t₀.parent ∧ t₁.children = t₀.children) :
    INV (setComp s id ty c₁) := by
  obtain ⟨hw, hh, hx⟩ := h
  have hlive : hasEntity s id = true := getComp_some_live s id ty c₀ hgc0
  have hm0 : (mapGet s.comps id).isSome = true :=
    getComp_some_entry s id ty c₀ hgc0
  obtain ⟨m, hm⟩ := Option.isSome_iff_exists.mp hm0
  have hsc : (setComp s id ty c₁).comps =
      mapSet s.comps id (mapSet m ty c₁) := by
    unfold setComp; rw [hm]
  have hgc : ∀ (x : Int) (tyx : String), getComp (setComp s id ty c₁) x tyx =
      if x = id ∧ tyx = ty then some c₁ else getComp s x tyx := by
    intro x tyx
    by_cases hxx : x = id ∧ tyx = ty
    · rw [if_pos hxx, hxx.1, hxx.2]
      exact getComp_setComp_self s id ty c₁ hlive hm0
    · rw [if_neg hxx]
      apply getComp_setComp_other
      by_cases hxi : x = id
      · exact Or.inr fun h2 => hxx ⟨hxi, h2⟩
      · exact Or.inl hxi
  refine INV_transfer s (setComp s id ty c₁) (setComp_shell s id ty c₁).1
    (setComp_shell s id ty c₁).2.2 ?_ ?_ ?_ ?_ ⟨hw, hh, hx⟩
  · intro x
    rw [hsc, mapGet_set_isSome]
    by_cases hxi : x = id
    · subst hxi
      rw [hm0]
      simp
    · simp [hxi]
  · intro j tyx
    unfold hasComp
    rw [hgc j tyx]
    by_cases hxx : j = id ∧ tyx = ty
    · rw [if_pos hxx, hxx.1, hxx.2, hgc0]
      rfl
    · rw [if_neg hxx]
  · intro j cc hcc
    rw [hgc j "transform"] at hcc
    by_cases hxx : j = id ∧ ("transform" : String) = ty
    · rw [if_pos hxx] at hcc
      obtain ⟨t₀, t₁, _, hc₁, _, _⟩ := hcompat hxx.2.symm
      exact ⟨t₁, by rw [← Option.some.inj hcc, hc₁]⟩
    · rw [if_neg hxx] at hcc
      exact hw.slotTransform j cc hcc
  · intro j
    unfold hierProj getTransform
    rw [hgc j "transform"]
    by_cases hxx : j = id ∧ ("transform" : String) = ty
    · rw [if_pos hxx]
      obtain ⟨t₀, t₁, hc₀, hc₁, hp, hch⟩ := hcompat hxx.2.symm
      have hrhs : getComp s j "transform" = some c₀ := by
        rw [hxx.2, hxx.1]
        exact hgc0
      rw [hrhs, hc₀, hc₁]
      simp [hp, hch]
    · rw [if_neg hxx]

/-- `addComponent` preserves the invariant: validation failures leave the
store unchanged, a new component is installed as a childless root (under
the usage discipline), and an update merges fields with `parent` and
`children` intercepted, delegating any parent change to `setParent`. -/
theorem addComponent_INV (reg : Registry) (s : EMState) (id : Int)
    (ty : String) (data : Fields) (hreg : RegOk reg) (h : INV s)
    (hsafe : SafeAdd s id ty data) :
    INV (addComponent reg s id ty data).2 := by
  unfold addComponent
  by_cases h1 : ty.trim = ""
  · rw [if_pos h1]; exact h
  · rw [if_neg h1]
    by_cases h2 : hasEntity s id = false
    · rw [if_pos h2]; exact h
    · rw [if_neg h2]
      have hlive : hasEntity s id = true := by
        cases hb : hasEntity s id
        · exact absurd hb h2
        · rfl
      cases hrty : reg ty with
      | none => exact h
      | some spec =>
        dsimp only
        cases hgc0 : getComp s id ty with
        | none =>
          cases spec with
          | transformSpec =>
            dsimp only
            cases hmk : mkTransform (data.filter (fun kv => kv.1 ≠ "source"))
              with
            | none => exact h
            | some t =>
              dsimp only
              apply setNewComp_INV s id ty (Comp.transform t) ⟨h.1, h.2⟩ hlive
                hgc0 h1
              intro hty
              refine ⟨t, rfl, ?_⟩
              obtain ⟨hp, hc⟩ := hsafe hty (hty ▸ hgc0)
              have hp' := mapGet_filter_none data
                (fun kv => kv.1 ≠ "source") "parent" hp
              have hc' := mapGet_filter_none data
                (fun kv => kv.1 ≠ "source") "children" hc
              exact mkTransform_root _ t hp' hc' hmk
          | dataSpec build ser =>
            dsimp only
            apply setNewComp_INV s id ty
              (Comp.data ser (build (data.filter (fun kv => kv.1 ≠ "source"))))
              ⟨h.1, h.2⟩ hlive hgc0 h1
            intro hty
            exfalso
            rw [hty] at hrty
            rcases hreg with hr | hr
            · rw [hr] at hrty
              simp at hrty
            · rw [hr] at hrty
              simp at hrty
        | some c₀ =>
          dsimp only
          by_cases hty : ty = "transform"
          · subst hty
            obtain ⟨t₀, hct₀⟩ := h.1.slotTransform id c₀ hgc0
            obtain ⟨t₁, hfold1, hp₁, hch₁⟩ := mergeFold_hier
              (data.filter (fun kv => kv.1 ≠ "source")) c₀ none t₀ hct₀
            have hS₁ : INV (setComp s id "transform"
                (((data.filter (fun kv => kv.1 ≠ "source")).foldl
                  (fun (acc : Comp × Option Value) kv =>
                    if ("transform" : String) = "transform" ∧
                        kv.1 = "parent" then (acc.1, some kv.2)
                    else if ("transform" : String) = "transform" ∧
                        kv.1 = "children" then acc
                    else (updateCompField acc.1 kv.1 kv.2, acc.2))
                  (c₀, none)).1)) := by
              rw [hfold1]
              exact setExistingComp_INV s id "transform" c₀
                (Comp.transform t₁) h hgc0
                (fun _ => ⟨t₀, t₁, hct₀, rfl, hp₁, hch₁⟩)
            split
            · exact hS₁
            · rename_i v hv
              split
              · rename_i t ht
                rw [ht] at hfold1
                have htt : t = t₁ := by
                  have := Comp.transform.injEq t t₁
                  exact (this.mp hfold1 : t = t₁)
                subst htt
                split
                · exact hS₁
                · split
                  · exact setParent_INV _ _ _ hS₁
                  · exact setParent_INV _ _ _ hS₁
                  · exact hS₁
              · rename_i ser f hdata
                rw [hdata] at hfold1
                simp at hfold1
          · have hsnd := mergeFold_snd ty hty
              (data.filter (fun kv => kv.1 ≠ "source")) (c₀, none)
            split
            · exact setExistingComp_INV s id ty c₀ _ h hgc0
                (fun hc => absurd hc hty)
            · rename_i v hv
              rw [hv] at hsnd
              simp at hsnd

/-! ## `removeComponent` preserves the invariant -/

theorem indexDel_char (s : EMState) (ty : String) (id : Int) :
    ∀ tyx, mapGet (indexDel s ty id).index tyx =
      if tyx = ty then (mapGet s.index ty).map (fun st => jsSetDel st id)
      else mapGet s.index tyx := by
  intro tyx
  unfold indexDel
  cases hmi : mapGet s.index ty with
  | none =>
    by_cases htx : tyx = ty
    · subst htx
      rw [if_pos rfl, hmi]
      rfl
    · rw [if_neg htx]
  | some st =>
    show mapGet (mapSet s.index ty (jsSetDel st id)) tyx = _
    by_cases htx : tyx = ty
    · subst htx
      rw [mapGet_set_self, if_pos rfl]
      rfl
    · rw [mapGet_set_ne s.index ty tyx _ htx, if_neg htx]

theorem delComp_keys (s : EMState) (id : Int) (ty : String) :
    ∀ x, (mapGet (delComp s id ty).comps x).isSome =
      (mapGet s.comps x).isSome := by
  intro x
  unfold delComp
  cases hm : mapGet s.comps id with
  | none => rfl
  | some m =>
    show (mapGet (mapSet s.comps id (mapDel m ty)) x).isSome = _
    rw [mapGet_set_isSome]
    by_cases hxi : x = id
    · subst hxi; rw [hm]; simp
    · simp [hxi]

theorem getComp_indexDel (s : EMState) (ty : String) (id : Int) :
    ∀ (j : Int) (tyx : String),
      getComp (indexDel s ty id) j tyx = getComp s j tyx := by
  intro j tyx
  unfold getComp hasEntity
  rw [(indexDel_keeps s ty id).1, (indexDel_keeps s ty id).2.2]

/-- The combined hypotheses shared by the two slot-drop lemmas: delete the
slot from the entity's map, drop the id from the type's index entry. -/
theorem dropSlot_chars (s₁ : EMState) (id : Int) (ty : String) :
    (∀ x : Int, hasEntity (indexDel (delComp s₁ id ty) ty id) x =
      hasEntity s₁ x) ∧
    (∀ (j : Int) (tyx : String),
      getComp (indexDel (delComp s₁ id ty) ty id) j tyx =
        if j = id ∧ tyx = ty then none else getComp s₁ j tyx) ∧
    (∀ x : Int,
      (mapGet (indexDel (delComp s₁ id ty) ty id).comps x).isSome =
        (mapGet s₁.comps x).isSome) ∧
    (∀ tyx : String,
      mapGet (indexDel (delComp s₁ id ty) ty id).index tyx =
        if tyx = ty then
          (mapGet (delComp s₁ id ty).index ty).map (fun st => jsSetDel st id)
        else mapGet (delComp s₁ id ty).index tyx) := by
  refine ⟨?_, ?_, ?_, ?_⟩
  · intro x
    show decide (x ∈ _) = decide (x ∈ _)
    rw [(indexDel_keeps (delComp s₁ id ty) ty id).1,
      (delComp_shell s₁ id ty).1]
  · intro j tyx
    rw [getComp_indexDel (delComp s₁ id ty) ty id j tyx]
    by_cases hxx : j = id ∧ tyx = ty
    · rw [if_pos hxx, hxx.1, hxx.2]
      exact getComp_delComp_self s₁ id ty
    · rw [if_neg hxx]
      apply getComp_delComp_other
      by_cases hxi : j = id
      · exact Or.inr fun h2 => hxx ⟨hxi, h2⟩
      · exact Or.inl hxi
  · intro x
    rw [(indexDel_keeps (delComp s₁ id ty) ty id).2.2]
    exact delComp_keys s₁ id ty x
  · exact indexDel_char (delComp s₁ id ty) ty id

/-- Dropping a slot of the index: the common `IdxInv` argument. -/
theorem dropSlot_IdxInv (s₁ : EMState) (id : Int) (ty : String)
    (hx : IdxInv s₁) : IdxInv (indexDel (delComp s₁ id ty) ty id) := by
  obtain ⟨hhe, hgc, _, hidx⟩ := dropSlot_chars s₁ id ty
  have hdidx : (delComp s₁ id ty).index = s₁.index :=
    (delComp_shell s₁ id ty).2.2
  refine ⟨?_, ?_, ?_⟩
  · intro tyx x
    show x ∈ (mapGet _ tyx).getD [] ↔ _
    unfold hasComp
    rw [hgc x tyx, hidx tyx, hdidx]
    by_cases htx : tyx = ty
    · subst htx
      rw [if_pos rfl]
      cases hmi : mapGet s₁.index tyx with
      | none =>
        have h5 := hx.mem tyx x
        rw [hmi] at h5
        have h6 : hasComp s₁ x tyx = false := by
          cases hb : hasComp s₁ x tyx
          · rfl
          · exact absurd (h5.mpr hb) (by simp)
        by_cases hxi : x = id
        · rw [if_pos (⟨hxi, by simp⟩ : _ ∧ _)]
          simp
        · rw [if_neg (fun hc => hxi hc.1)]
          constructor
          · intro hin
            exact absurd hin (by simp)
          · intro hcon
            exfalso
            unfold hasComp at h6
            rw [hcon] at h6
            cases h6
      | some st =>
        have h5 := hx.mem tyx x
        rw [hmi] at h5
        simp only [Option.map_some, Option.getD_some, mem_jsSetDel]
        by_cases hxi : x = id
        · rw [if_pos (⟨hxi, by simp⟩ : _ ∧ _)]
          simp [hxi, mem_jsSetDel]
        · rw [if_neg (fun hc => hxi hc.1)]
          simp only [Option.getD_some] at h5
          unfold hasComp at h5
          rw [← h5]
          simp [mem_jsSetDel, hxi]
    · rw [if_neg htx, if_neg (fun hc : x = id ∧ tyx = ty => htx hc.2)]
      exact hx.mem tyx x
  · intro tyx l hl
    rw [hidx tyx, hdidx] at hl
    by_cases htx : tyx = ty
    · rw [if_pos htx] at hl
      cases hmi : mapGet s₁.index ty with
      | none => rw [hmi] at hl; cases hl
      | some st =>
        rw [hmi] at hl
        have hdel : jsSetDel st id = l := Option.some.inj hl
        rw [← hdel]
        exact jsSetDel_nodup (hx.nodupSets ty st hmi) id
    · rw [if_neg htx] at hl
      exact hx.nodupSets tyx l hl
  · intro x tyx hc
    unfold hasComp at hc
    rw [hgc x tyx] at hc
    by_cases hxx : x = id ∧ tyx = ty
    · rw [if_pos hxx] at hc
      cases hc
    · rw [if_neg hxx] at hc
      exact hx.tyValid x tyx hc

/-- Re-rooting a live entity that has a transform always succeeds. -/
theorem setParent_none_true (s : EMState) (e : Int)
    (hl : hasEntity s e = true) (ct : Transform)
    (hct : getTransform s e = some ct) :
    (setParent s e none).1 = true := by
  unfold setParent
  rw [if_neg (by simp [hl])]
  rw [if_neg (by simp)]
  rw [if_neg (by simp)]
  rw [hct]
  dsimp only
  rw [if_neg (by simp)]
  by_cases hp : ct.parent = none
  · rw [if_pos hp]
  · rw [if_neg hp]
    have hwalk : walkAnc s e (s.entities.length + 1) none = WalkRes.ok := by
      simp [walkAnc]
    rw [hwalk]

/-- Deleting a non-hierarchy slot (plus its index entry) preserves the
invariant. -/
theorem dropSlot_INV (s : EMState) (id : Int) (ty : String) (h : INV s)
    (hty : ty ≠ "transform") :
    INV (indexDel (delComp s id ty) ty id) := by
  obtain ⟨hw, hh, hx⟩ := h
  obtain ⟨hhe, hgc, hkeys, _⟩ := dropSlot_chars s id ty
  set F := indexDel (delComp s id ty) ty id with hF
  have hents : F.entities = s.entities := by
    rw [hF, (indexDel_keeps (delComp s id ty) ty id).1,
      (delComp_shell s id ty).1]
  have hgt : ∀ j, getTransform F j = getTransform s j := by
    intro j
    unfold getTransform
    rw [hgc j "transform", if_neg (fun hc => hty hc.2.symm)]
  have hps : ∀ x : Int, pstep F (some x) = pstep s (some x) := by
    intro x
    show (getTransform F x).bind _ = (getTransform s x).bind _
    rw [hgt x]
  refine ⟨⟨?_, ?_, ?_⟩, ⟨?_, ?_, ?_⟩, dropSlot_IdxInv s id ty hx⟩
  · rw [hents]; exact hw.entsNodup
  · intro x; rw [hkeys x, hents]; exact hw.keysLive x
  · intro e c hc
    rw [hgc e "transform", if_neg (fun hcc => hty hcc.2.symm)] at hc
    exact hw.slotTransform e c hc
  · intro e t p he hp
    rw [hgt e] at he
    obtain ⟨hpl, pt, hpt, hmm⟩ := hh.parentOk e t p he hp
    refine ⟨?_, pt, ?_, hmm⟩
    · show decide (p ∈ F.entities) = true
      rw [hents]; exact hpl
    · rw [hgt p]; exact hpt
  · intro p pt c hp hc
    rw [hgt p] at hp
    obtain ⟨ct, hct, hcp⟩ := hh.childOk p pt c hp hc
    exact ⟨ct, by rw [hgt c]; exact hct, hcp⟩
  · intro e
    obtain ⟨n, hn⟩ := hh.terminating e
    exact ⟨n, by rw [psteps_congr hps n (some e)]; exact hn⟩

/-- Deleting the transform slot of a fully detached entity (no transform
points to it as parent, no child set lists it) preserves the invariant:
the entity own parent obligation is discharged by the deletion itself. -/
theorem dropTransformSlot_INV (s₁ : EMState) (id : Int)
    (hwf : WFInv s₁) (hx : IdxInv s₁)
    (hpOk : ∀ e t p, e ≠ id → getTransform s₁ e = some t →
      t.parent = some p → hasEntity s₁ p = true ∧
        ∃ pt, getTransform s₁ p = some pt ∧ e ∈ pt.children)
    (hcOk : ∀ p pt c, getTransform s₁ p = some pt → c ∈ pt.children →
      ∃ ct, getTransform s₁ c = some ct ∧ ct.parent = some p)
    (hterm : ∀ e : Int, ∃ n, psteps s₁ n (some e) = none)
    (hnopar : ∀ e t, getTransform s₁ e = some t → t.parent ≠ some id)
    (hnochild : ∀ p pt, getTransform s₁ p = some pt → id ∉ pt.children) :
    INV (indexDel (delComp s₁ id "transform") "transform" id) := by
  obtain ⟨hhe, hgc, hkeys, _⟩ := dropSlot_chars s₁ id "transform"
  set F := indexDel (delComp s₁ id "transform") "transform" id with hF
  have hents : F.entities = s₁.entities := by
    rw [hF, (indexDel_keeps (delComp s₁ id "transform") "transform" id).1,
      (delComp_shell s₁ id "transform").1]
  have hgt : ∀ j, getTransform F j =
      if j = id then none else getTransform s₁ j := by
    intro j
    unfold getTransform
    rw [hgc j "transform"]
    by_cases hj : j = id
    · rw [if_pos ⟨hj, rfl⟩, if_pos hj]
    · rw [if_neg (fun hc => hj hc.1), if_neg hj]
  have hsh : Shrinks s₁ F := by
    intro x
    by_cases hxi : x = id
    · right
      show (getTransform F x).bind _ = none
      rw [hgt x, if_pos hxi]
      rfl
    · left
      show (getTransform F x).bind _ = (getTransform s₁ x).bind _
      rw [hgt x, if_neg hxi]
  refine ⟨⟨?_, ?_, ?_⟩, ⟨?_, ?_, ?_⟩, dropSlot_IdxInv s₁ id "transform" hx⟩
  · rw [hents]; exact hwf.entsNodup
  · intro x; rw [hkeys x, hents]; exact hwf.keysLive x
  · intro e c hc
    rw [hgc e "transform"] at hc
    by_cases he : e = id
    · rw [if_pos ⟨he, rfl⟩] at hc; cases hc
    · rw [if_neg (fun hcc => he hcc.1)] at hc
      exact hwf.slotTransform e c hc
  · intro e t p he hp
    rw [hgt e] at he
    by_cases hei : e = id
    · rw [if_pos hei] at he; cases he
    · rw [if_neg hei] at he
      obtain ⟨hpl, pt, hpt, hmm⟩ := hpOk e t p hei he hp
      have hpi : p ≠ id := by
        intro hpi
        exact hnopar e t he (by rw [hp, hpi])
      refine ⟨?_, pt, ?_, hmm⟩
      · show decide (p ∈ F.entities) = true
        rw [hents]; exact hpl
      · rw [hgt p, if_neg hpi]; exact hpt
  · intro p pt c hp hc
    rw [hgt p] at hp
    by_cases hpi : p = id
    · rw [if_pos hpi] at hp; cases hp
    · rw [if_neg hpi] at hp
      obtain ⟨ct, hct, hcp⟩ := hcOk p pt c hp hc
      have hci : c ≠ id := fun hci => hnochild p pt hp (hci ▸ hc)
      exact ⟨ct, by rw [hgt c, if_neg hci]; exact hct, hcp⟩
  · exact terminating_of_shrinks hsh hterm

/-- The child-detachment loop of `removeComponent` on the hierarchy type
preserves the invariant and leaves the target transform with an empty
child set and its parent untouched, provided every remaining child lies
in the unprocessed part of the list. -/
theorem detachLoop_spec (id : Int) :
    ∀ (kids : List Int) (st : EMState), INV st →
      (∀ c', c' ∈ kids → c' ≠ id) →
      ∀ tSt, getTransform st id = some tSt →
      (∀ c', c' ∈ tSt.children → c' ∈ kids) →
      INV (kids.foldl (fun st cid =>
          if hasEntity st cid then (setParent st cid none).2 else st) st) ∧
      ∃ tA, getTransform (kids.foldl (fun st cid =>
          if hasEntity st cid then (setParent st cid none).2 else st) st) id
          = some tA ∧ tA.parent = tSt.parent ∧ tA.children = [] := by
  intro kids
  induction kids with
  | nil =>
    intro st hinv hne tSt htSt hsub
    refine ⟨hinv, tSt, htSt, rfl, ?_⟩
    cases hch : tSt.children with
    | nil => rfl
    | cons a l =>
      exact absurd (hsub a (by rw [hch]; simp)) (by simp)
  | cons cid rest ih =>
    intro st hinv hne tSt htSt hsub
    rw [List.foldl_cons]
    have hcidne : cid ≠ id := hne cid (by simp)
    have hne' : ∀ c', c' ∈ rest → c' ≠ id :=
      fun c' hc' => hne c' (by simp [hc'])
    by_cases hcl : hasEntity st cid = true
    · rw [if_pos hcl]
      rcases setParent_spec st cid none with ⟨hfalse, heq⟩ |
        ⟨_, heq, ct, hct, hpar⟩ |
        ⟨_, ct, hct, _, hnf, hpe, hop, hwalk, heq⟩
      · -- rejection is only possible here because cid has no transform,
        -- in which case it cannot sit in the child set
        rw [heq]
        have hsub' : ∀ c', c' ∈ tSt.children → c' ∈ rest := by
          intro c' hc'
          rcases List.mem_cons.mp (hsub c' hc') with h3 | h3
          · exfalso
            obtain ⟨ct', hct', _⟩ := hinv.2.1.childOk id tSt c' htSt hc'
            rw [h3] at hct'
            exact absurd (setParent_none_true st cid hcl ct' hct')
              (by rw [hfalse]; simp)
          · exact h3
        exact ih st hinv hne' tSt htSt hsub'
      · rw [heq]
        have hsub' : ∀ c', c' ∈ tSt.children → c' ∈ rest := by
          intro c' hc'
          rcases List.mem_cons.mp (hsub c' hc') with h3 | h3
          · exfalso
            obtain ⟨ct', hct', hcp'⟩ := hinv.2.1.childOk id tSt c' htSt hc'
            rw [h3] at hct'
            have hee : ct' = ct := by
              rw [hct] at hct'
              exact (Option.some.inj hct').symm
            rw [hee, hpar] at hcp'
            cases hcp'
          · exact h3
        exact ih st hinv hne' tSt htSt hsub'
      · rw [heq]
        obtain ⟨hw, hh, hx⟩ := hinv
        have hZinv : INV (spApply st cid ct.parent none) :=
          spApply_INV st cid none ct hw hh hx hct hpe hop hnf hwalk
        have hoe := no_self_parent st hh cid ct hct
        have hold : ∀ o, ct.parent = some o →
            ∃ ot, getTransform st o = some ot := by
          intro o ho
          obtain ⟨_, ot, hot, _⟩ := hh.parentOk cid ct o hct ho
          exact ⟨ot, hot⟩
        have hnew : ∀ q, (none : Option Int) = some q →
            ∃ qt, getTransform st q = some qt := fun q hq => by cases hq
        obtain ⟨hZe, hZold, _, hZoth, _⟩ :=
          spApply_char st cid none ct hct hoe hpe hop hold hnew
        by_cases hpid : ct.parent = some id
        · obtain ⟨ot, hot, hZo⟩ := hZold id hpid
          have hotA : ot = tSt := by
            rw [htSt] at hot
            exact (Option.some.inj hot).symm
          subst hotA
          have hsub' : ∀ c',
              c' ∈ ({ ot with children := jsSetDel ot.children cid } :
                Transform).children → c' ∈ rest := by
            intro c' hc'
            have hc2 : c' ∈ jsSetDel ot.children cid := hc'
            rw [mem_jsSetDel] at hc2
            rcases List.mem_cons.mp (hsub c' hc2.1) with h3 | h3
            · exact absurd h3 hc2.2
            · exact h3
          obtain ⟨hinv2, tA, htA, hpA, hchA⟩ :=
            ih (spApply st cid ct.parent none) hZinv hne' _ hZo hsub'
          refine ⟨hinv2, tA, htA, ?_, hchA⟩
          rw [hpA]
        · have hZid : getTransform (spApply st cid ct.parent none) id =
              getTransform st id := by
            refine hZoth id (fun hcc => hcidne hcc.symm) hpid ?_
            intro hcc; cases hcc
          have hsub' : ∀ c', c' ∈ tSt.children → c' ∈ rest := by
            intro c' hc'
            rcases List.mem_cons.mp (hsub c' hc') with h3 | h3
            · exfalso
              obtain ⟨ct', hct', hcp'⟩ := hh.childOk id tSt c' htSt hc'
              rw [h3] at hct'
              have hee : ct' = ct := by
                rw [hct] at hct'
                exact (Option.some.inj hct').symm
              rw [hee] at hcp'
              exact hpid hcp'
            · exact h3
          exact ih (spApply st cid ct.parent none) hZinv hne' tSt
            (by rw [hZid]; exact htSt) hsub'
    · rw [if_neg hcl]
      have hsub' : ∀ c', c' ∈ tSt.children → c' ∈ rest := by
        intro c' hc'
        rcases List.mem_cons.mp (hsub c' hc') with h3 | h3
        · exfalso
          obtain ⟨ct', hct', _⟩ := hinv.2.1.childOk id tSt c' htSt hc'
          rw [h3] at hct'
          exact hcl (getTransform_some_live st cid ct' hct')
        · exact h3
      exact ih st hinv hne' tSt htSt hsub'

/-- `removeComponent` preserves the invariant. -/
theorem removeComponent_INV (s : EMState) (id : Int) (ty : String)
    (h : INV s) : INV (removeComponent s id ty).2 := by
  unfold removeComponent
  by_cases h1 : ty.trim = ""
  · rw [if_pos h1]; exact h
  · rw [if_neg h1]
    by_cases h2 : hasEntity s id = false
    · rw [if_pos h2]; exact h
    · rw [if_neg h2]
      cases hgc0 : getComp s id ty with
      | none => exact h
      | some c =>
        dsimp only
        by_cases hty : ty = "transform"
        · subst hty
          rw [if_pos rfl]
          obtain ⟨t, hct⟩ := h.1.slotTransform id c hgc0
          subst hct
          dsimp only
          have hgt0 : getTransform s id = some t := by
            unfold getTransform
            rw [hgc0]
          have hne0 : ∀ c', c' ∈ t.children → c' ≠ id := by
            intro c' hc' hcc
            obtain ⟨ct', hct', hcp'⟩ := h.2.1.childOk id t c' hgt0 hc'
            rw [hcc] at hct'
            have he2 : ct' = t := by
              rw [hgt0] at hct'
              exact (Option.some.inj hct').symm
            rw [he2] at hcp'
            exact no_self_parent s h.2.1 id t hgt0 hcp'
          obtain ⟨hinvA, tA, htA, hpA, hchA⟩ :=
            detachLoop_spec id t.children s h hne0 t hgt0 (fun c' hc' => hc')
          obtain ⟨hwA, hhA, hxA⟩ := hinvA
          set SA := t.children.foldl (fun st cid =>
            if hasEntity st cid then (setParent st cid none).2 else st) s
            with hSA
          rw [htA]
          dsimp only
          cases hpar : tA.parent with
          | none =>
            dsimp only
            refine dropTransformSlot_INV SA id hwA hxA
              (fun e t' p _ he hp => hhA.parentOk e t' p he hp)
              hhA.childOk hhA.terminating ?_ ?_
            · intro e t' he hcon
              obtain ⟨_, pt', hpt', hmem⟩ := hhA.parentOk e t' id he hcon
              have he2 : pt' = tA := by
                rw [htA] at hpt'
                exact (Option.some.inj hpt').symm
              rw [he2, hchA] at hmem
              cases hmem
            · intro p pt hp hcon
              obtain ⟨ct', hct', hcp'⟩ := hhA.childOk p pt id hp hcon
              have he2 : ct' = tA := by
                rw [htA] at hct'
                exact (Option.some.inj hct').symm
              rw [he2, hpar] at hcp'
              cases hcp'
          | some pid =>
            dsimp only
            cases hgp : getTransform SA pid with
            | none =>
              exfalso
              obtain ⟨_, pt', hpt', _⟩ := hhA.parentOk id tA pid htA hpar
              rw [hgp] at hpt'
              cases hpt'
            | some pT =>
              dsimp only
              have hpidne : pid ≠ id := by
                intro he
                exact no_self_parent SA hhA id tA htA (by rw [hpar, he])
              have hppT := no_self_parent SA hhA pid pT hgp
              set pT' : Transform :=
                { pT with children := jsSetDel pT.children id } with hpTd
              set s₁ := putTransform SA pid pT' with hs₁
              have hgt₁ : ∀ j, getTransform s₁ j =
                  if j = pid then some pT' else getTransform SA j := by
                intro j
                by_cases hj : j = pid
                · rw [if_pos hj, hj]
                  exact getTransform_put_self SA pid pT pT' hgp
                · rw [if_neg hj]
                  exact getTransform_put_other SA pid pT' j hj
              have hshell := putTransform_shell SA pid pT'
              have hentry : (mapGet SA.comps pid).isSome = true :=
                getComp_some_entry SA pid "transform" _
                  (getTransform_eq_comp SA pid pT hgp)
              have hkeys₁ := putTransform_keys SA pid pT' hentry
              refine dropTransformSlot_INV s₁ id ⟨?_, ?_, ?_⟩ ⟨?_, ?_, ?_⟩
                ?_ ?_ ?_ ?_ ?_
              · rw [hs₁, hshell.1]
                exact hwA.entsNodup
              · intro x
                rw [hs₁, hkeys₁ x]
                show _ ↔ x ∈ (putTransform SA pid pT').entities
                rw [hshell.1]
                exact hwA.keysLive x
              · intro j cc hcc
                by_cases hj : j = pid
                · subst hj
                  have hj2 := getTransform_eq_comp s₁ j pT'
                    (by rw [hgt₁ j, if_pos rfl])
                  rw [hj2] at hcc
                  exact ⟨pT', (Option.some.inj hcc).symm⟩
                · rw [hs₁, getComp_put_other SA pid pT' j "transform"
                    (Or.inl hj)] at hcc
                  exact hwA.slotTransform j cc hcc
              · intro tyx x
                show x ∈ (mapGet s₁.index tyx).getD [] ↔ _
                rw [hs₁, hshell.2.2]
                unfold hasComp
                rw [show getComp (putTransform SA pid pT') x tyx =
                    getComp s₁ x tyx from rfl]
                rw [show (getComp s₁ x tyx).isSome =
                    hasComp s₁ x tyx from rfl, hs₁,
                  hasComp_put SA pid pT pT' hgp x tyx]
                exact hxA.mem tyx x
              · intro tyx l hl
                rw [hs₁, hshell.2.2] at hl
                exact hxA.nodupSets tyx l hl
              · intro x tyx hc
                rw [hs₁, hasComp_put SA pid pT pT' hgp x tyx] at hc
                exact hxA.tyValid x tyx hc
              · intro e t' p hei he hp
                rw [hgt₁ e] at he
                by_cases hep : e = pid
                · rw [if_pos hep] at he
                  have ht' : t' = pT' := (Option.some.inj he).symm
                  have hp2 : pT.parent = some p := by
                    rw [ht', hpTd] at hp
                    exact hp
                  obtain ⟨hpl, pt', hpt', hmem⟩ :=
                    hhA.parentOk pid pT p hgp hp2
                  have hppid : p ≠ pid := by
                    intro hcc
                    exact hppT (by rw [hp2, hcc])
                  refine ⟨?_, pt', ?_, ?_⟩
                  · show decide (p ∈ s₁.entities) = true
                    rw [hs₁, hshell.1]
                    exact hpl
                  · rw [hgt₁ p, if_neg hppid]
                    exact hpt'
                  · rw [hep]
                    exact hmem
                · rw [if_neg hep] at he
                  obtain ⟨hpl, pt', hpt', hmem⟩ := hhA.parentOk e t' p he hp
                  refine ⟨?_, ?_⟩
                  · show decide (p ∈ s₁.entities) = true
                    rw [hs₁, hshell.1]
                    exact hpl
                  · by_cases hppid : p = pid
                    · have hptT : pt' = pT := by
                        rw [hppid, hgp] at hpt'
                        exact (Option.some.inj hpt').symm
                      refine ⟨pT', ?_, ?_⟩
                      · rw [hgt₁ p, if_pos hppid]
                      · show e ∈ jsSetDel pT.children id
                        rw [mem_jsSetDel]
                        exact ⟨hptT ▸ hmem, hei⟩
                    · exact ⟨pt', by rw [hgt₁ p, if_neg hppid]; exact hpt',
                        hmem⟩
              · intro p pt c2 hp hc2
                rw [hgt₁ p] at hp
                by_cases hppid : p = pid
                · rw [if_pos hppid] at hp
                  have hptd2 : pt = pT' := (Option.some.inj hp).symm
                  have hc3 : c2 ∈ jsSetDel pT.children id := by
                    rw [← show pT'.children = jsSetDel pT.children id
                      from rfl, ← hptd2]
                    exact hc2
                  rw [mem_jsSetDel] at hc3
                  obtain ⟨ct', hct', hcp'⟩ :=
                    hhA.childOk pid pT c2 hgp hc3.1
                  have hcpid : c2 ≠ pid := by
                    intro hcc
                    rw [hcc] at hct'
                    have he3 : ct' = pT := by
                      rw [hgp] at hct'
                      exact (Option.some.inj hct').symm
                    rw [he3] at hcp'
                    exact hppT hcp'
                  refine ⟨ct', ?_, ?_⟩
                  · rw [hgt₁ c2, if_neg hcpid]
                    exact hct'
                  · rw [hppid]
                    exact hcp'
                · rw [if_neg hppid] at hp
                  obtain ⟨ct', hct', hcp'⟩ := hhA.childOk p pt c2 hp hc2
                  by_cases hcpid : c2 = pid
                  · have he3 : ct' = pT := by
                      rw [hcpid, hgp] at hct'
                      exact (Option.some.inj hct').symm
                    refine ⟨pT', ?_, ?_⟩
                    · rw [hgt₁ c2, if_pos hcpid]
                    · show pT.parent = some p
                      rw [← he3]
                      exact hcp'
                  · exact ⟨ct', by rw [hgt₁ c2, if_neg hcpid]; exact hct',
                      hcp'⟩
              · have hps : ∀ x : Int, pstep s₁ (some x) =
                    pstep SA (some x) := by
                  intro x
                  show (getTransform s₁ x).bind _ =
                    (getTransform SA x).bind _
                  rw [hgt₁ x]
                  by_cases hx2 : x = pid
                  · rw [if_pos hx2, hx2, hgp]
                    rfl
                  · rw [if_neg hx2]
                intro e
                obtain ⟨n, hn⟩ := hhA.terminating e
                exact ⟨n, by rw [psteps_congr hps n (some e)]; exact hn⟩
              · intro e t' he hcon
                rw [hgt₁ e] at he
                by_cases hep : e = pid
                · rw [if_pos hep] at he
                  have ht' : t' = pT' := (Option.some.inj he).symm
                  have hp2 : pT.parent = some id := by
                    rw [ht', hpTd] at hcon
                    exact hcon
                  obtain ⟨_, pt', hpt', hmem⟩ := hhA.parentOk pid pT id hgp hp2
                  have he2 : pt' = tA := by
                    rw [htA] at hpt'
                    exact (Option.some.inj hpt').symm
                  rw [he2, hchA] at hmem
                  cases hmem
                · rw [if_neg hep] at he
                  obtain ⟨_, pt', hpt', hmem⟩ := hhA.parentOk e t' id he hcon
                  have he2 : pt' = tA := by
                    rw [htA] at hpt'
                    exact (Option.some.inj hpt').symm
                  rw [he2, hchA] at hmem
                  cases hmem
              · intro p pt hp hcon
                rw [hgt₁ p] at hp
                by_cases hppid : p = pid
                · rw [if_pos hppid] at hp
                  have hptd2 : pt = pT' := (Option.some.inj hp).symm
                  have hc3 : id ∈ jsSetDel pT.children id := by
                    rw [← show pT'.children = jsSetDel pT.children id
                      from rfl, ← hptd2]
                    exact hcon
                  rw [mem_jsSetDel] at hc3
                  exact hc3.2 rfl
                · rw [if_neg hppid] at hp
                  obtain ⟨ct', hct', hcp'⟩ := hhA.childOk p pt id hp hcon
                  have he2 : ct' = tA := by
                    rw [htA] at hct'
                    exact (Option.some.inj hct').symm
                  rw [he2, hpar] at hcp'
                  exact hppid (Option.some.inj hcp').symm
        · rw [if_neg hty]
          exact dropSlot_INV s id ty h hty

/-! ## `removeEntity` preserves the invariant -/

theorem jsSetDel_idem {α : Type} [DecidableEq α] (l : List α) (x : α) :
    jsSetDel (jsSetDel l x) x = jsSetDel l x := by
  show (jsSetDel l x).filter (· ≠ x) = jsSetDel l x
  apply List.filter_eq_self.mpr
  intro a ha
  have h2 := mem_jsSetDel.mp ha
  simpa using h2.2

/-- The index-cleanup fold of `removeEntity`: every listed type loses the
id from its index entry and nothing else changes. -/
theorem indexDelFold (id : Int) : ∀ (tys : List String) (st : EMState),
    ((tys.foldl (fun st ty => indexDel st ty id) st).entities = st.entities ∧
     (tys.foldl (fun st ty => indexDel st ty id) st).nextEntityId =
       st.nextEntityId ∧
     (tys.foldl (fun st ty => indexDel st ty id) st).comps = st.comps) ∧
    ∀ tyx, mapGet (tys.foldl (fun st ty => indexDel st ty id) st).index tyx =
      if tyx ∈ tys then
        (mapGet st.index tyx).map (fun l => jsSetDel l id)
      else mapGet st.index tyx := by
  intro tys
  induction tys with
  | nil =>
    intro st
    refine ⟨⟨rfl, rfl, rfl⟩, ?_⟩
    intro tyx
    rw [if_neg (by simp)]
    rfl
  | cons ty rest ihs =>
    intro st
    rw [List.foldl_cons]
    obtain ⟨⟨he, hn, hc⟩, hidx⟩ := ihs (indexDel st ty id)
    obtain ⟨ke, kn, kc⟩ := indexDel_keeps st ty id
    refine ⟨⟨by rw [he, ke], by rw [hn, kn], by rw [hc, kc]⟩, ?_⟩
    intro tyx
    rw [hidx tyx, indexDel_char st ty id tyx]
    by_cases h1 : tyx ∈ rest
    · rw [if_pos h1, if_pos (List.mem_cons_of_mem ty h1)]
      by_cases h2 : tyx = ty
      · rw [if_pos h2, h2]
        cases hmi : mapGet st.index ty with
        | none => rfl
        | some l =>
          show some (jsSetDel (jsSetDel l id) id) = some (jsSetDel l id)
          rw [jsSetDel_idem]
      · rw [if_neg h2]
    · by_cases h2 : tyx = ty
      · have hmem2 : tyx ∈ ty :: rest := by
          rw [h2]
          exact List.mem_cons_self ty rest
        rw [if_neg h1, if_pos h2, if_pos hmem2, h2]
      · rw [if_neg h1, if_neg h2,
          if_neg (by simp [List.mem_cons, h1, h2])]

/-- A successful re-rooting of an entity that had a parent cuts its
parent step. -/
theorem setParent_none_cut (s : EMState) (e : Int) (ct : Transform)
    (h : INV s) (hl : hasEntity s e = true)
    (hct : getTransform s e = some ct) (hp : ct.parent ≠ none) :
    pstep (setParent s e none).2 (some e) = none := by
  rcases setParent_spec s e none with ⟨hf, _⟩ | ⟨_, heq, ct', hct', hpar'⟩ |
    ⟨_, ct', hct', _, _, hpe, hop, hwalk, heq⟩
  · rw [setParent_none_true s e hl ct hct] at hf
    cases hf
  · exfalso
    have hcc : ct' = ct := by
      rw [hct] at hct'
      exact (Option.some.inj hct').symm
    rw [hcc] at hpar'
    exact hp hpar'
  · rw [heq]
    obtain ⟨hw, hh, hx⟩ := h
    have hoe := no_self_parent s hh e ct' hct'
    have hold : ∀ o, ct'.parent = some o →
        ∃ ot, getTransform s o = some ot := by
      intro o ho
      obtain ⟨_, ot, hot, _⟩ := hh.parentOk e ct' o hct' ho
      exact ⟨ot, hot⟩
    have hnew : ∀ q, (none : Option Int) = some q →
        ∃ qt, getTransform s q = some qt := fun q hq => by cases hq
    obtain ⟨hZe, _, _, _, _⟩ :=
      spApply_char s e none ct' hct' hoe hpe hop hold hnew
    show (getTransform (spApply s e ct'.parent none) e).bind _ = none
    rw [hZe]
    rfl

/-- Final stage of `removeEntity`: with the id fully detached (no parent
step reaches it, no child set lists it), scrubbing the index, deleting the
component map, and dropping the id from the live set preserves the
invariant, only cuts parent links, and leaves the id dead. -/
theorem removeEntityFinal_INV (sC s₂ : EMState) (id : Int) (h : INV sC)
    (hnoToId : ∀ x : Int, pstep sC (some x) ≠ some id)
    (hnochild : ∀ p pt, getTransform sC p = some pt → id ∉ pt.children)
    (h2ents : s₂.entities = sC.entities)
    (h2comps : s₂.comps = sC.comps)
    (h2idx : ∀ tyx : String,
      mapGet s₂.index tyx =
        (mapGet sC.index tyx).map (fun l => jsSetDel l id) ∨
      (mapGet s₂.index tyx = mapGet sC.index tyx ∧
        getComp sC id tyx = none)) :
    INV { s₂ with
      comps := mapDel s₂.comps id
      entities := jsSetDel s₂.entities id } ∧
    Shrinks sC { s₂ with
      comps := mapDel s₂.comps id
      entities := jsSetDel s₂.entities id } ∧
    hasEntity { s₂ with
      comps := mapDel s₂.comps id
      entities := jsSetDel s₂.entities id } id = false := by
  obtain ⟨hw, hh, hx⟩ := h
  set s₃ : EMState := { s₂ with
    comps := mapDel s₂.comps id
    entities := jsSetDel s₂.entities id } with hs₃
  have hents₃ : s₃.entities = jsSetDel sC.entities id := by
    show jsSetDel s₂.entities id = _
    rw [h2ents]
  have hidx₃ : s₃.index = s₂.index := rfl
  have hheid : hasEntity s₃ id = false := by
    show decide (id ∈ s₃.entities) = false
    rw [hents₃]
    simp [mem_jsSetDel]
  have hhene : ∀ x : Int, x ≠ id → hasEntity s₃ x = hasEntity sC x := by
    intro x hxi
    show decide (x ∈ s₃.entities) = decide (x ∈ sC.entities)
    rw [hents₃]
    simp [mem_jsSetDel, hxi]
  have hcomps₃ : ∀ x : Int, mapGet s₃.comps x =
      if x = id then none else mapGet sC.comps x := by
    intro x
    show mapGet (mapDel s₂.comps id) x = _
    by_cases hxi : x = id
    · rw [if_pos hxi, hxi]
      exact mapGet_del_self s₂.comps id
    · rw [if_neg hxi, mapGet_del_ne s₂.comps id x hxi, h2comps]
  have hgc₃ : ∀ (j : Int) (tyx : String), getComp s₃ j tyx =
      if j = id then none else getComp sC j tyx := by
    intro j tyx
    by_cases hji : j = id
    · rw [if_pos hji, hji]
      unfold getComp
      rw [hheid]
      simp
    · rw [if_neg hji]
      unfold getComp
      rw [hhene j hji, hcomps₃ j, if_neg hji]
  have hgt₃ : ∀ j : Int, getTransform s₃ j =
      if j = id then none else getTransform sC j := by
    intro j
    unfold getTransform
    rw [hgc₃ j "transform"]
    by_cases hji : j = id
    · rw [if_pos hji, if_pos hji]
    · rw [if_neg hji, if_neg hji]
  have hshr : Shrinks sC s₃ := by
    intro x
    by_cases hxi : x = id
    · right
      show (getTransform s₃ x).bind _ = none
      rw [hgt₃ x, if_pos hxi]
      rfl
    · left
      show (getTransform s₃ x).bind _ = (getTransform sC x).bind _
      rw [hgt₃ x, if_neg hxi]
  refine ⟨⟨⟨?_, ?_, ?_⟩, ⟨?_, ?_, ?_⟩, ⟨?_, ?_, ?_⟩⟩, hshr, hheid⟩
  · rw [hents₃]
    exact jsSetDel_nodup hw.entsNodup id
  · intro x
    rw [hcomps₃ x]
    by_cases hxi : x = id
    · subst hxi
      rw [if_pos rfl]
      simp only [Option.isSome_none]
      constructor
      · intro hfoo
        cases hfoo
      · intro hmem
        have h1 : hasEntity s₃ x = true := by simpa [hasEntity] using hmem
        rw [hheid] at h1
        cases h1
    · rw [if_neg hxi, hw.keysLive x]
      constructor
      · intro hmem
        have h1 : hasEntity sC x = true := by simpa [hasEntity] using hmem
        rw [← hhene x hxi] at h1
        simpa [hasEntity] using h1
      · intro hmem
        have h1 : hasEntity s₃ x = true := by simpa [hasEntity] using hmem
        rw [hhene x hxi] at h1
        simpa [hasEntity] using h1
  · intro e c hc
    rw [hgc₃ e "transform"] at hc
    by_cases hei : e = id
    · rw [if_pos hei] at hc
      cases hc
    · rw [if_neg hei] at hc
      exact hw.slotTransform e c hc
  · intro e t p he hp
    rw [hgt₃ e] at he
    by_cases hei : e = id
    · rw [if_pos hei] at he
      cases he
    · rw [if_neg hei] at he
      have hpid : p ≠ id := by
        intro hpid
        apply hnoToId e
        show (getTransform sC e).bind _ = some id
        rw [he]
        show t.parent = some id
        rw [hp, hpid]
      obtain ⟨hpl, pt, hpt, hmem⟩ := hh.parentOk e t p he hp
      refine ⟨?_, pt, ?_, hmem⟩
      · rw [hhene p hpid]
        exact hpl
      · rw [hgt₃ p, if_neg hpid]
        exact hpt
  · intro p pt c hp hc
    rw [hgt₃ p] at hp
    by_cases hpi : p = id
    · rw [if_pos hpi] at hp
      cases hp
    · rw [if_neg hpi] at hp
      have hci : c ≠ id := fun hci => hnochild p pt hp (hci ▸ hc)
      obtain ⟨ct, hct, hcp⟩ := hh.childOk p pt c hp hc
      exact ⟨ct, by rw [hgt₃ c, if_neg hci]; exact hct, hcp⟩
  · exact terminating_of_shrinks hshr hh.terminating
  · intro tyx x
    show x ∈ (mapGet s₂.index tyx).getD [] ↔ hasComp s₃ x tyx = true
    unfold hasComp
    rw [hgc₃ x tyx]
    rcases h2idx tyx with hA | ⟨hB, hBnone⟩
    · rw [hA]
      by_cases hxi : x = id
      · subst hxi
        rw [if_pos rfl]
        simp only [Option.isSome_none]
        constructor
        · intro hmem
          exfalso
          cases hmi : mapGet sC.index tyx with
          | none =>
            rw [hmi] at hmem
            simp at hmem
          | some l =>
            rw [hmi] at hmem
            have h6 : x ∈ jsSetDel l x := hmem
            rw [mem_jsSetDel] at h6
            exact h6.2 rfl
        · intro hfoo
          cases hfoo
      · rw [if_neg hxi]
        have h5 := hx.mem tyx x
        unfold hasComp at h5
        cases hmi : mapGet sC.index tyx with
        | none =>
          rw [hmi] at h5
          constructor
          · intro hmem
            simp at hmem
          · intro hsome
            exact absurd (h5.mpr hsome) (by simp)
        | some l =>
          rw [hmi] at h5
          simp only [Option.getD_some] at h5
          show x ∈ (some (jsSetDel l id)).getD [] ↔ _
          simp only [Option.getD_some]
          rw [mem_jsSetDel, ← h5]
          simp [hxi]
    · rw [hB]
      by_cases hxi : x = id
      · subst hxi
        rw [if_pos rfl]
        have h5 := hx.mem tyx x
        unfold hasComp at h5
        rw [hBnone] at h5
        constructor
        · intro hmem
          exact absurd (h5.mp hmem) (by simp)
        · intro hfoo
          exact absurd hfoo (by simp)
      · rw [if_neg hxi]
        exact hx.mem tyx x
  · intro tyx l hl
    rw [hidx₃] at hl
    rcases h2idx tyx with hA | ⟨hB, _⟩
    · rw [hA] at hl
      cases hmi : mapGet sC.index tyx with
      | none =>
        rw [hmi] at hl
        cases hl
      | some st =>
        rw [hmi] at hl
        have h6 : jsSetDel st id = l := Option.some.inj hl
        rw [← h6]
        exact jsSetDel_nodup (hx.nodupSets tyx st hmi) id
    · rw [hB] at hl
      exact hx.nodupSets tyx l hl
  · intro x tyx hc
    unfold hasComp at hc
    rw [hgc₃ x tyx] at hc
    by_cases hxi : x = id
    · rw [if_pos hxi] at hc
      cases hc
    · rw [if_neg hxi] at hc
      exact hx.tyValid x tyx hc

/-- `removeEntity`, given fuel exceeding the length of every parent chain
into the target, preserves the invariant, only ever cuts parent links,
and leaves the target dead. -/
theorem removeEntity_strong : ∀ (fuel : Nat) (s : EMState) (id : Int),
    INV s →
    (∀ (c : Int) (n : Nat), psteps s n (some c) = some id → n + 1 < fuel) →
    INV (removeEntity fuel s id).2 ∧
    Shrinks s (removeEntity fuel s id).2 ∧
    hasEntity (removeEntity fuel s id).2 id = false := by
  intro fuel
  induction fuel with
  | zero =>
    intro s id hinv hbound
    exact absurd (hbound id 0 rfl) (by omega)
  | succ F ih =>
    intro s id hinv hbound
    rw [removeEntity]
    by_cases hl : hasEntity s id = false
    · rw [if_pos hl]
      exact ⟨hinv, shrinks_self s, hl⟩
    · rw [if_neg hl]
      dsimp only
      have hlive : hasEntity s id = true := by
        cases hb : hasEntity s id
        · exact absurd hb hl
        · rfl
      cases hT : getTransform s id with
      | none =>
        dsimp only
        have hnoToId : ∀ x : Int, pstep s (some x) ≠ some id := by
          intro x hx
          obtain ⟨tx, htx, hpx⟩ := pstep_some s x id hx
          obtain ⟨_, pt, hpt, _⟩ := hinv.2.1.parentOk x tx id htx hpx
          rw [hT] at hpt
          cases hpt
        have hnochild : ∀ p pt, getTransform s p = some pt →
            id ∉ pt.children := by
          intro p pt hp hcm
          obtain ⟨ct, hct, _⟩ := hinv.2.1.childOk p pt id hp hcm
          rw [hT] at hct
          cases hct
        cases hm2 : mapGet s.comps id with
        | none =>
          dsimp only
          exact removeEntityFinal_INV s s id hinv hnoToId hnochild rfl rfl
            (fun tyx => Or.inr ⟨rfl, by
              unfold getComp
              cases hasEntity s id <;> simp [hm2]⟩)
        | some m =>
          dsimp only
          obtain ⟨⟨f_e, f_n, f_c⟩, f_idx⟩ :=
            indexDelFold id (m.map Prod.fst) s
          exact removeEntityFinal_INV s _ id hinv hnoToId hnochild f_e f_c
            (fun tyx => by
              rw [f_idx tyx]
              by_cases hmem : tyx ∈ m.map Prod.fst
              · rw [if_pos hmem]
                exact Or.inl rfl
              · rw [if_neg hmem]
                refine Or.inr ⟨rfl, ?_⟩
                unfold getComp
                cases hle : hasEntity s id
                · rw [if_neg (by simp)]
                · rw [if_pos rfl, hm2]
                  show mapGet m tyx = none
                  exact mapGet_none_of_not_mem hmem)
      | some t =>
        dsimp only
        set sA := if t.parent ≠ none then (setParent s id none).2 else s
          with hsA
        have hAinv : INV sA := by
          rw [hsA]
          by_cases hpt : t.parent ≠ none
          · rw [if_pos hpt]
            exact setParent_INV s id none hinv
          · rw [if_neg hpt]
            exact hinv
        have hAshr : Shrinks s sA := by
          rw [hsA]
          by_cases hpt : t.parent ≠ none
          · rw [if_pos hpt]
            exact setParent_none_shrinks s id hinv.2.1
          · rw [if_neg hpt]
            exact shrinks_self s
        have hAstep : pstep sA (some id) = none := by
          rw [hsA]
          by_cases hpt : t.parent ≠ none
          · rw [if_pos hpt]
            exact setParent_none_cut s id t hinv hlive hT hpt
          · rw [if_neg hpt]
            push_neg at hpt
            show (getTransform s id).bind _ = none
            rw [hT]
            exact hpt
        set kids : List Int := (match getTransform sA id with
          | some tNow => tNow.children
          | none => t.children) with hkids
        have hkidstep : ∀ cid, cid ∈ kids → pstep s (some cid) = some id := by
          intro cid hcid
          rw [hkids] at hcid
          cases hTA : getTransform sA id with
          | some tNow =>
            rw [hTA] at hcid
            dsimp only at hcid
            obtain ⟨ct', hct', hcp'⟩ :=
              hAinv.2.1.childOk id tNow cid hTA hcid
            have hstepA : pstep sA (some cid) = some id := by
              show (getTransform sA cid).bind _ = some id
              rw [hct']
              exact hcp'
            rcases hAshr cid with heq | hnone
            · rw [← heq]
              exact hstepA
            · rw [hnone] at hstepA
              cases hstepA
          | none =>
            rw [hTA] at hcid
            dsimp only at hcid
            obtain ⟨ct', hct', hcp'⟩ := hinv.2.1.childOk id t cid hT hcid
            show (getTransform s cid).bind _ = some id
            rw [hct']
            exact hcp'
        have hfold2 : ∀ (ks : List Int) (st : EMState), INV st →
            Shrinks s st →
            (∀ cid, cid ∈ ks → pstep s (some cid) = some id) →
            INV (ks.foldl (fun st cid =>
              if hasEntity st cid then (removeEntity F st cid).2 else st)
              st) ∧
            Shrinks st (ks.foldl (fun st cid =>
              if hasEntity st cid then (removeEntity F st cid).2 else st)
              st) ∧
            List.Sublist ((ks.foldl (fun st cid =>
              if hasEntity st cid then (removeEntity F st cid).2 else st)
                st).entities) st.entities ∧
            ∀ cid, cid ∈ ks → hasEntity (ks.foldl (fun st cid =>
              if hasEntity st cid then (removeEntity F st cid).2 else st) st)
              cid = false := by
          intro ks
          induction ks with
          | nil =>
            intro st h1 h2 h3
            refine ⟨h1, shrinks_self st, List.Sublist.refl _, ?_⟩
            intro cid hcid
            exact absurd hcid (List.not_mem_nil cid)
          | cons cid rest ihk =>
            intro st h1 h2 h3
            rw [List.foldl_cons]
            by_cases hc : hasEntity st cid = true
            · rw [if_pos hc]
              have hbound2 : ∀ (c : Int) (n : Nat),
                  psteps st n (some c) = some cid → n + 1 < F := by
                intro c n hcn
                have hchain : psteps s n (some c) = some cid :=
                  psteps_shrink_some h2 n c cid hcn
                have h2c : psteps s (n + 1) (some c) = some id := by
                  rw [psteps_add s n 1 (some c), hchain]
                  show pstep s (some cid) = some id
                  exact h3 cid (List.mem_cons_self cid rest)
                have := hbound c (n + 1) h2c
                omega
              obtain ⟨hI, hS, hE⟩ := ih st cid h1 hbound2
              have hshell := removeEntity_shell F st cid
              obtain ⟨hI2, hS2, hSub2, hDead2⟩ :=
                ihk (removeEntity F st cid).2 hI (Shrinks.trans h2 hS)
                  (fun c hc2 => h3 c (List.mem_cons_of_mem cid hc2))
              refine ⟨hI2, Shrinks.trans hS hS2, hSub2.trans hshell.2, ?_⟩
              intro c hcmem
              rcases List.mem_cons.mp hcmem with hceq | hcr
              · subst hceq
                have hdead : c ∉ ((removeEntity F st c).2).entities := by
                  intro hmem2
                  have h7 : hasEntity (removeEntity F st c).2 c = true := by
                    simpa [hasEntity] using hmem2
                  rw [hE] at h7
                  cases h7
                have hout : c ∉ ((rest.foldl (fun st cid =>
                    if hasEntity st cid then (removeEntity F st cid).2
                    else st) (removeEntity F st c).2).entities) :=
                  fun hmem2 => hdead (hSub2.subset hmem2)
                simpa [hasEntity] using hout
              · exact hDead2 c hcr
            · rw [if_neg hc]
              obtain ⟨hI2, hS2, hSub2, hDead2⟩ := ihk st h1 h2
                (fun c hc2 => h3 c (List.mem_cons_of_mem cid hc2))
              refine ⟨hI2, hS2, hSub2, ?_⟩
              intro c hcmem
              rcases List.mem_cons.mp hcmem with hceq | hcr
              · subst hceq
                have hcd : c ∉ st.entities := by
                  intro hmem2
                  exact hc (by simpa [hasEntity] using hmem2)
                have hout : c ∉ ((rest.foldl (fun st cid =>
                    if hasEntity st cid then (removeEntity F st cid).2
                    else st) st).entities) :=
                  fun hmem2 => hcd (hSub2.subset hmem2)
                simpa [hasEntity] using hout
              · exact hDead2 c hcr
        obtain ⟨hBinv, hBshr, hBsub, hBdead⟩ :=
          hfold2 kids sA hAinv hAshr hkidstep
        set sB := kids.foldl (fun st cid =>
          if hasEntity st cid then (removeEntity F st cid).2 else st) sA
          with hsB
        have hBstep : pstep sB (some id) = none := by
          rcases hBshr id with heq | hnone
          · rw [heq]
            exact hAstep
          · exact hnone
        have hnoToIdB : ∀ x : Int, pstep sB (some x) ≠ some id := by
          intro x hx
          have hxA : pstep sA (some x) = some id := by
            rcases hBshr x with heq | hnone
            · rw [← heq]
              exact hx
            · rw [hnone] at hx
              cases hx
          obtain ⟨tx, htx, hpx⟩ := pstep_some sA x id hxA
          obtain ⟨_, pt, hpt, hxmem⟩ := hAinv.2.1.parentOk x tx id htx hpx
          have hxkids : x ∈ kids := by
            rw [hkids, hpt]
            exact hxmem
          have hxdead := hBdead x hxkids
          obtain ⟨tx', htx', _⟩ := pstep_some sB x id hx
          have h8 : hasEntity sB x = true :=
            getTransform_some_live sB x tx' htx'
          rw [hxdead] at h8
          cases h8
        cases hTB : getTransform sB id with
        | none =>
          dsimp only
          have hnochildB : ∀ p pt, getTransform sB p = some pt →
              id ∉ pt.children := by
            intro p pt hp hcm
            obtain ⟨ct, hct, _⟩ := hBinv.2.1.childOk p pt id hp hcm
            rw [hTB] at hct
            cases hct
          cases hm2 : mapGet sB.comps id with
          | none =>
            dsimp only
            obtain ⟨hI, hS, hE⟩ := removeEntityFinal_INV sB sB id hBinv
              hnoToIdB hnochildB rfl rfl (fun tyx => Or.inr ⟨rfl, by
                unfold getComp
                cases hasEntity sB id <;> simp [hm2]⟩)
            exact ⟨hI, Shrinks.trans (Shrinks.trans hAshr hBshr) hS, hE⟩
          | some m =>
            dsimp only
            obtain ⟨⟨f_e, f_n, f_c⟩, f_idx⟩ :=
              indexDelFold id (m.map Prod.fst) sB
            obtain ⟨hI, hS, hE⟩ := removeEntityFinal_INV sB _ id hBinv
              hnoToIdB hnochildB f_e f_c (fun tyx => by
                rw [f_idx tyx]
                by_cases hmem : tyx ∈ m.map Prod.fst
                · rw [if_pos hmem]
                  exact Or.inl rfl
                · rw [if_neg hmem]
                  refine Or.inr ⟨rfl, ?_⟩
                  unfold getComp
                  cases hle : hasEntity sB id
                  · rw [if_neg (by simp)]
                  · rw [if_pos rfl, hm2]
                    show mapGet m tyx = none
                    exact mapGet_none_of_not_mem hmem)
            exact ⟨hI, Shrinks.trans (Shrinks.trans hAshr hBshr) hS, hE⟩
        | some tEnd =>
          dsimp only
          have htEp : tEnd.parent = none := by
            have h6 : (some tEnd).bind Transform.parent = none := by
              rw [← hTB]
              exact hBstep
            exact h6
          have hnochildB : ∀ p pt, getTransform sB p = some pt →
              id ∉ pt.children := by
            intro p pt hp hcm
            obtain ⟨ct, hct, hcp⟩ := hBinv.2.1.childOk p pt id hp hcm
            rw [hTB] at hct
            have h9 : ct = tEnd := (Option.some.inj hct).symm
            rw [h9, htEp] at hcp
            cases hcp
          set tE : Transform := { tEnd with parent := none, children := [] }
            with htE
          set sC := putTransform sB id tE with hsC
          obtain ⟨hwB, hhB, hxB⟩ := hBinv
          have hentry : (mapGet sB.comps id).isSome = true :=
            getComp_some_entry sB id "transform" _
              (getTransform_eq_comp sB id tEnd hTB)
          have hgtC : ∀ j, getTransform sC j =
              if j = id then some tE else getTransform sB j := by
            intro j
            by_cases hj : j = id
            · rw [if_pos hj, hj, hsC]
              exact getTransform_put_self sB id tEnd tE hTB
            · rw [if_neg hj, hsC]
              exact getTransform_put_other sB id tE j hj
          have hpsC : ∀ x : Int, pstep sC (some x) = pstep sB (some x) := by
            intro x
            show (getTransform sC x).bind _ = (getTransform sB x).bind _
            rw [hgtC x]
            by_cases hx2 : x = id
            · rw [if_pos hx2, hx2, hTB]
              show tE.parent = tEnd.parent
              rw [htEp]
            · rw [if_neg hx2]
          have hCinv : INV sC := by
            refine ⟨⟨?_, ?_, ?_⟩, ⟨?_, ?_, ?_⟩, ⟨?_, ?_, ?_⟩⟩
            · rw [hsC, (putTransform_shell sB id tE).1]
              exact hwB.entsNodup
            · intro x
              rw [hsC, putTransform_keys sB id tE hentry x]
              show _ ↔ x ∈ (putTransform sB id tE).entities
              rw [(putTransform_shell sB id tE).1]
              exact hwB.keysLive x
            · intro j cc hcc
              by_cases hj : j = id
              · subst hj
                have hj2 := getTransform_eq_comp sC j tE
                  (by rw [hgtC j, if_pos rfl])
                rw [hj2] at hcc
                exact ⟨tE, (Option.some.inj hcc).symm⟩
              · rw [hsC, getComp_put_other sB id tE j "transform"
                  (Or.inl hj)] at hcc
                exact hwB.slotTransform j cc hcc
            · intro e t' p he hp
              rw [hgtC e] at he
              by_cases hei : e = id
              · rw [if_pos hei] at he
                have ht' : t' = tE := (Option.some.inj he).symm
                rw [ht'] at hp
                have h10 : tE.parent = none := rfl
                rw [h10] at hp
                cases hp
              · rw [if_neg hei] at he
                have hpid : p ≠ id := by
                  intro hpid
                  apply hnoToIdB e
                  show (getTransform sB e).bind _ = some id
                  rw [he]
                  show t'.parent = some id
                  rw [hp, hpid]
                obtain ⟨hpl, pt, hpt, hmem⟩ := hhB.parentOk e t' p he hp
                refine ⟨?_, pt, ?_, hmem⟩
                · show decide (p ∈ sC.entities) = true
                  rw [hsC, (putTransform_shell sB id tE).1]
                  exact hpl
                · rw [hgtC p, if_neg hpid]
                  exact hpt
            · intro p pt c hp hcm
              rw [hgtC p] at hp
              by_cases hpi : p = id
              · rw [if_pos hpi] at hp
                have hpt2 : pt = tE := (Option.some.inj hp).symm
                rw [hpt2] at hcm
                have h11 : tE.children = [] := rfl
                rw [h11] at hcm
                cases hcm
              · rw [if_neg hpi] at hp
                have hci : c ≠ id :=
                  fun hci => hnochildB p pt hp (hci ▸ hcm)
                obtain ⟨ct, hct, hcp⟩ := hhB.childOk p pt c hp hcm
                exact ⟨ct, by rw [hgtC c, if_neg hci]; exact hct, hcp⟩
            · intro e
              obtain ⟨n, hn⟩ := hhB.terminating e
              exact ⟨n, by rw [psteps_congr hpsC n (some e)]; exact hn⟩
            · intro tyx x
              rw [hsC]
              show x ∈ (mapGet (putTransform sB id tE).index tyx).getD []
                ↔ hasComp (putTransform sB id tE) x tyx = true
              rw [(putTransform_shell sB id tE).2.2,
                hasComp_put sB id tEnd tE hTB x tyx]
              exact hxB.mem tyx x
            · intro tyx l hl2
              rw [hsC, (putTransform_shell sB id tE).2.2] at hl2
              exact hxB.nodupSets tyx l hl2
            · intro x tyx hcp2
              rw [hsC, hasComp_put sB id tEnd tE hTB x tyx] at hcp2
              exact hxB.tyValid x tyx hcp2
          have hnoToIdC : ∀ x : Int, pstep sC (some x) ≠ some id := by
            intro x hx
            rw [hpsC x] at hx
            exact hnoToIdB x hx
          have hnochildC : ∀ p pt, getTransform sC p = some pt →
              id ∉ pt.children := by
            intro p pt hp
            rw [hgtC p] at hp
            by_cases hpi : p = id
            · rw [if_pos hpi] at hp
              have hpt2 : pt = tE := (Option.some.inj hp).symm
              rw [hpt2]
              intro hcm
              have h11 : tE.children = [] := rfl
              rw [h11] at hcm
              cases hcm
            · rw [if_neg hpi] at hp
              exact hnochildB p pt hp
          cases hm2 : mapGet sC.comps id with
          | none =>
            dsimp only
            obtain ⟨hI, hS, hE⟩ := removeEntityFinal_INV sC sC id hCinv
              hnoToIdC hnochildC rfl rfl (fun tyx => Or.inr ⟨rfl, by
                unfold getComp
                cases hasEntity sC id <;> simp [hm2]⟩)
            refine ⟨hI, ?_, hE⟩
            exact Shrinks.trans (Shrinks.trans hAshr hBshr)
              (Shrinks.trans (fun x => Or.inl (hpsC x)) hS)
          | some m =>
            dsimp only
            obtain ⟨⟨f_e, f_n, f_c⟩, f_idx⟩ :=
              indexDelFold id (m.map Prod.fst) sC
            obtain ⟨hI, hS, hE⟩ := removeEntityFinal_INV sC _ id hCinv
              hnoToIdC hnochildC f_e f_c (fun tyx => by
                rw [f_idx tyx]
                by_cases hmem : tyx ∈ m.map Prod.fst
                · rw [if_pos hmem]
                  exact Or.inl rfl
                · rw [if_neg hmem]
                  refine Or.inr ⟨rfl, ?_⟩
                  unfold getComp
                  cases hle : hasEntity sC id
                  · rw [if_neg (by simp)]
                  · rw [if_pos rfl, hm2]
                    show mapGet m tyx = none
                    exact mapGet_none_of_not_mem hmem)
            refine ⟨hI, ?_, hE⟩
            exact Shrinks.trans (Shrinks.trans hAshr hBshr)
              (Shrinks.trans (fun x => Or.inl (hpsC x)) hS)

/-- The fuel bound of the public `removeEntity` call: no parent chain
into the target is as long as the fuel supplied. -/
theorem removeEntityTop_bound (s : EMState) (id : Int) (h : INV s)
    (hmem : id ∈ s.entities) :
    ∀ (c : Int) (n : Nat), psteps s n (some c) = some id →
      n + 1 < s.entities.length + 1 := by
  intro c n hcn
  have hlen : 0 < s.entities.length := List.length_pos_of_mem hmem
  by_cases hn0 : n = 0
  · subst hn0
    omega
  · have hclive : c ∈ s.entities := by
      cases hp : pstep s (some c) with
      | none =>
        exfalso
        have hdn : psteps s n (some c) = none := by
          cases n with
          | zero => exact absurd rfl hn0
          | succ m =>
            show psteps s m (pstep s (some c)) = none
            rw [hp, psteps_none]
        rw [hdn] at hcn
        cases hcn
      | some x1 =>
        obtain ⟨tc, htc, _⟩ := pstep_some s c x1 hp
        simpa [hasEntity] using getTransform_some_live s c tc htc
    have hdie : psteps s s.entities.length (some c) = none :=
      chain_bound_live s h.2.1 c hclive
    by_cases hge : s.entities.length ≤ n
    · exfalso
      have hdn : psteps s n (some c) = none := by
        have heq : n = s.entities.length + (n - s.entities.length) := by
          omega
        rw [heq, psteps_add, hdie, psteps_none]
      rw [hdn] at hcn
      cases hcn
    · omega

/-- The public `removeEntity` call preserves the invariant. -/
theorem removeEntityTop_INV (s : EMState) (id : Int) (h : INV s) :
    INV (removeEntityTop s id).2 := by
  by_cases hl : hasEntity s id = false
  · unfold removeEntityTop
    rw [removeEntity, if_pos hl]
    exact h
  · have hlive : hasEntity s id = true := by
      cases hb : hasEntity s id
      · exact absurd hb hl
      · rfl
    have hmem : id ∈ s.entities := by simpa [hasEntity] using hlive
    exact (removeEntity_strong (s.entities.length + 1) s id h
      (removeEntityTop_bound s id h hmem)).1

/-! ## `restoreBase` / `deserialize` preserve the invariant -/

theorem removeComponent_shell (s : EMState) (id : Int) (ty : String) :
    (removeComponent s id ty).2.entities = s.entities ∧
    (removeComponent s id ty).2.nextEntityId = s.nextEntityId := by
  unfold removeComponent
  by_cases h1 : ty.trim = ""
  · rw [if_pos h1]
    exact ⟨rfl, rfl⟩
  · rw [if_neg h1]
    by_cases h2 : hasEntity s id = false
    · rw [if_pos h2]
      exact ⟨rfl, rfl⟩
    · rw [if_neg h2]
      cases hgc0 : getComp s id ty with
      | none => exact ⟨rfl, rfl⟩
      | some c =>
        dsimp only
        have hfin : ∀ s₁ : EMState,
            s₁.entities = s.entities ∧ s₁.nextEntityId = s.nextEntityId →
            (indexDel (delComp s₁ id ty) ty id).entities = s.entities ∧
            (indexDel (delComp s₁ id ty) ty id).nextEntityId =
              s.nextEntityId := by
          intro s₁ hse
          obtain ⟨d1, d2, _⟩ := delComp_shell s₁ id ty
          obtain ⟨i1, i2, _⟩ := indexDel_keeps (delComp s₁ id ty) ty id
          exact ⟨by rw [i1, d1, hse.1], by rw [i2, d2, hse.2]⟩
        apply hfin
        by_cases hty : ty = "transform"
        · rw [if_pos hty]
          cases c with
          | data ser f => exact ⟨rfl, rfl⟩
          | transform t =>
            dsimp only
            have hA : ∀ sA : EMState,
                sA.entities = s.entities ∧
                  sA.nextEntityId = s.nextEntityId →
                ((match (match getTransform sA id with
                    | some tNow => tNow.parent
                    | none => t.parent) with
                  | none => sA
                  | some pid =>
                    match getTransform sA pid with
                    | some pT => putTransform sA pid
                        { pT with children := jsSetDel pT.children id }
                    | none => sA).entities = s.entities ∧
                 (match (match getTransform sA id with
                    | some tNow => tNow.parent
                    | none => t.parent) with
                  | none => sA
                  | some pid =>
                    match getTransform sA pid with
                    | some pT => putTransform sA pid
                        { pT with children := jsSetDel pT.children id }
                    | none => sA).nextEntityId = s.nextEntityId) := by
              intro sA hsA
              cases (match getTransform sA id with
                | some tNow => tNow.parent
                | none => t.parent) with
              | none => exact hsA
              | some pid =>
                dsimp only
                cases getTransform sA pid with
                | none => exact hsA
                | some pT =>
                  obtain ⟨p1, p2, _⟩ := putTransform_shell sA pid
                    { pT with children := jsSetDel pT.children id }
                  exact ⟨by rw [p1, hsA.1], by rw [p2, hsA.2]⟩
            apply hA
            refine foldl_pres (fun st : EMState =>
              st.entities = s.entities ∧ st.nextEntityId = s.nextEntityId)
              _ t.children s ⟨rfl, rfl⟩ ?_
            intro st cid _ hst
            by_cases hcl : hasEntity st cid = true
            · rw [if_pos hcl]
              obtain ⟨p1, p2, _⟩ := setParent_shell st cid none
              exact ⟨by rw [p1, hst.1], by rw [p2, hst.2]⟩
            · rw [if_neg hcl]
              exact hst
        · rw [if_neg hty]
          exact ⟨rfl, rfl⟩

/-- `setParent` never changes which components an entity has. -/
theorem setParent_hasComp (s : EMState) (e : Int) (p : Option Int)
    (h : INV s) :
    ∀ (j : Int) (tyx : String),
      hasComp (setParent s e p).2 j tyx = hasComp s j tyx := by
  intro j tyx
  rcases setParent_spec s e p with ⟨_, heq⟩ | ⟨_, heq, _⟩ |
    ⟨_, ct, hct, _, hnf, hpe, hop, _, heq⟩
  · rw [heq]
  · rw [heq]
  · rw [heq]
    obtain ⟨hw, hh, hx⟩ := h
    have hoe := no_self_parent s hh e ct hct
    have hold : ∀ o, ct.parent = some o →
        ∃ ot, getTransform s o = some ot := by
      intro o ho
      obtain ⟨_, ot, hot, _⟩ := hh.parentOk e ct o hct ho
      exact ⟨ot, hot⟩
    have hnew : ∀ q, p = some q → ∃ qt, getTransform s q = some qt :=
      fun q hq => (hnf q hq).2
    obtain ⟨_, _, _, _, hhas⟩ :=
      spApply_char s e p ct hct hoe hpe hop hold hnew
    exact hhas j tyx

/-! ## The index invariant under the unrestricted public API

Hierarchy-breaking `addComponent` calls can destroy the parent/child
invariant, but never the type index.  `WI` is the part of the invariant
that survives arbitrary public calls. -/

/-- Weak invariant: duplicate-free live set, component-map keys are the
live entities, and the type index is consistent. -/
def WI (s : EMState) : Prop :=
  s.entities.Nodup ∧
  (∀ e : Int, (mapGet s.comps e).isSome = true ↔ e ∈ s.entities) ∧
  IdxInv s

theorem WI_of_INV {s : EMState} (h : INV s) : WI s :=
  ⟨h.1.entsNodup, h.1.keysLive, h.2.2⟩

theorem WI_init : WI initEM := WI_of_INV INV_init

/-- Index consistency transfers across states with the same index and
component presence. -/
theorem IdxInv_eqTransfer (s s' : EMState) (hidx : s'.index = s.index)
    (hhas : ∀ (j : Int) (tyx : String), hasComp s' j tyx = hasComp s j tyx)
    (hx : IdxInv s) : IdxInv s' := by
  refine ⟨?_, ?_, ?_⟩
  · intro ty e
    rw [hidx]
    unfold hasComp
    rw [show (getComp s' e ty).isSome = hasComp s' e ty from rfl, hhas e ty]
    exact hx.mem ty e
  · intro ty l hl
    rw [hidx] at hl
    exact hx.nodupSets ty l hl
  · intro e ty hc
    rw [hhas e ty] at hc
    exact hx.tyValid e ty hc

theorem detachOld_any (s : EMState) (e : Int) (oldP newP : Option Int) :
    (∀ x, (mapGet (detachOld s e oldP newP).comps x).isSome =
      (mapGet s.comps x).isSome) ∧
    (∀ (j : Int) (tyx : String),
      hasComp (detachOld s e oldP newP) j tyx = hasComp s j tyx) := by
  cases oldP with
  | none => exact ⟨fun x => rfl, fun j tyx => rfl⟩
  | some o =>
    unfold detachOld
    dsimp only
    by_cases hop : some o ≠ newP
    · rw [if_pos hop]
      cases hot : getTransform s o with
      | none => exact ⟨fun x => rfl, fun j tyx => rfl⟩
      | some ot =>
        refine ⟨putTransform_keys s o _ ?_, hasComp_put s o ot _ hot⟩
        exact getComp_some_entry s o "transform" _
          (getTransform_eq_comp s o ot hot)
    · rw [if_neg hop]
      exact ⟨fun x => rfl, fun j tyx => rfl⟩

theorem attachNew_any (s : EMState) (e : Int) (newP : Option Int) :
    (∀ x, (mapGet (attachNew s e newP).comps x).isSome =
      (mapGet s.comps x).isSome) ∧
    (∀ (j : Int) (tyx : String),
      hasComp (attachNew s e newP) j tyx = hasComp s j tyx) := by
  cases newP with
  | none => exact ⟨fun x => rfl, fun j tyx => rfl⟩
  | some q =>
    unfold attachNew
    dsimp only
    cases hqt : getTransform s q with
    | none => exact ⟨fun x => rfl, fun j tyx => rfl⟩
    | some qt =>
      refine ⟨putTransform_keys s q _ ?_, hasComp_put s q qt _ hqt⟩
      exact getComp_some_entry s q "transform" _
        (getTransform_eq_comp s q qt hqt)

theorem writeParent_any (s : EMState) (e : Int) (newP : Option Int) :
    (∀ x, (mapGet (writeParent s e newP).comps x).isSome =
      (mapGet s.comps x).isSome) ∧
    (∀ (j : Int) (tyx : String),
      hasComp (writeParent s e newP) j tyx = hasComp s j tyx) := by
  unfold writeParent
  cases hct : getTransform s e with
  | none => exact ⟨fun x => rfl, fun j tyx => rfl⟩
  | some ct =>
    refine ⟨putTransform_keys s e _ ?_, hasComp_put s e ct _ hct⟩
    exact getComp_some_entry s e "transform" _
      (getTransform_eq_comp s e ct hct)

theorem spApply_any (s : EMState) (e : Int) (oldP p : Option Int) :
    (∀ x, (mapGet (spApply s e oldP p).comps x).isSome =
      (mapGet s.comps x).isSome) ∧
    (∀ (j : Int) (tyx : String),
      hasComp (spApply s e oldP p) j tyx = hasComp s j tyx) := by
  unfold spApply
  obtain ⟨d1, d2⟩ := detachOld_any s e oldP p
  obtain ⟨a1, a2⟩ := attachNew_any (detachOld s e oldP p) e p
  obtain ⟨w1, w2⟩ :=
    writeParent_any (attachNew (detachOld s e oldP p) e p) e p
  exact ⟨fun x => by rw [w1 x, a1 x, d1 x],
    fun j tyx => by rw [w2 j tyx, a2 j tyx, d2 j tyx]⟩

theorem setParent_any (s : EMState) (e : Int) (p : Option Int) :
    (∀ x, (mapGet (setParent s e p).2.comps x).isSome =
      (mapGet s.comps x).isSome) ∧
    (∀ (j : Int) (tyx : String),
      hasComp (setParent s e p).2 j tyx = hasComp s j tyx) := by
  rcases setParent_spec s e p with ⟨_, heq⟩ | ⟨_, heq, _⟩ |
    ⟨_, ct, hct, _, _, _, _, _, heq⟩
  · rw [heq]
    exact ⟨fun x => rfl, fun j tyx => rfl⟩
  · rw [heq]
    exact ⟨fun x => rfl, fun j tyx => rfl⟩
  · rw [heq]
    exact spApply_any s e ct.parent p

/-- `setParent` preserves the weak invariant unconditionally. -/
theorem setParent_WI (s : EMState) (e : Int) (p : Option Int) (h : WI s) :
    WI (setParent s e p).2 := by
  obtain ⟨hn, hk, hx⟩ := h
  obtain ⟨hkeys, hhas⟩ := setParent_any s e p
  obtain ⟨hse, _, hsi⟩ := setParent_shell s e p
  refine ⟨?_, ?_, ?_⟩
  · rw [hse]
    exact hn
  · intro x
    rw [hkeys x, hse]
    exact hk x
  · exact IdxInv_eqTransfer s (setParent s e p).2 hsi hhas hx

/-- A guarded transform overwrite preserves the weak invariant. -/
theorem putTransformG_WI (s : EMState) (i : Int) (t₀ t : Transform)
    (hi : getTransform s i = some t₀) (h : WI s) :
    WI (putTransform s i t) := by
  obtain ⟨hn, hk, hx⟩ := h
  have hentry : (mapGet s.comps i).isSome = true :=
    getComp_some_entry s i "transform" _ (getTransform_eq_comp s i t₀ hi)
  obtain ⟨pe, _, pi⟩ := putTransform_shell s i t
  refine ⟨?_, ?_, ?_⟩
  · rw [pe]
    exact hn
  · intro x
    rw [putTransform_keys s i t hentry x, pe]
    exact hk x
  · exact IdxInv_eqTransfer s (putTransform s i t) pi
      (hasComp_put s i t₀ t hi) hx


/-- `removeComponent` removes exactly the named slot from `hasComponent`,
unconditionally: every failure leaves the store unchanged and only fails
when the slot was absent anyway. -/
theorem removeComponent_hasComp (s : EMState) (id : Int) (ty : String)
    (hx : IdxInv s) :
    ∀ (j : Int) (tyx : String),
      hasComp (removeComponent s id ty).2 j tyx =
        if j = id ∧ tyx = ty then false else hasComp s j tyx := by
  have habsent : ∀ (j : Int) (tyx : String), hasComp s id ty = false →
      hasComp s j tyx = if j = id ∧ tyx = ty then false
        else hasComp s j tyx := by
    intro j tyx hb
    by_cases hxx : j = id ∧ tyx = ty
    · rw [if_pos hxx, hxx.1, hxx.2]
      exact hb
    · rw [if_neg hxx]
  unfold removeComponent
  by_cases h1 : ty.trim = ""
  · rw [if_pos h1]
    intro j tyx
    refine habsent j tyx ?_
    cases hb : hasComp s id ty
    · rfl
    · exact absurd h1 (hx.tyValid id ty hb)
  · rw [if_neg h1]
    by_cases h2 : hasEntity s id = false
    · rw [if_pos h2]
      intro j tyx
      refine habsent j tyx ?_
      unfold hasComp getComp
      rw [h2]
      rfl
    · rw [if_neg h2]
      cases hgc0 : getComp s id ty with
      | none =>
        intro j tyx
        refine habsent j tyx ?_
        unfold hasComp
        rw [hgc0]
        rfl
      | some c =>
        dsimp only
        have hfin : ∀ s₁ : EMState,
            (∀ (j : Int) (tyx : String),
              hasComp s₁ j tyx = hasComp s j tyx) →
            ∀ (j : Int) (tyx : String),
              hasComp (indexDel (delComp s₁ id ty) ty id) j tyx =
                if j = id ∧ tyx = ty then false else hasComp s j tyx := by
          intro s₁ hpres j tyx
          obtain ⟨_, hgc, _, _⟩ := dropSlot_chars s₁ id ty
          unfold hasComp
          rw [hgc j tyx]
          by_cases hxx : j = id ∧ tyx = ty
          · rw [if_pos hxx, if_pos hxx]
            rfl
          · rw [if_neg hxx, if_neg hxx]
            exact hpres j tyx
        refine hfin _ ?_
        by_cases hty : ty = "transform"
        · rw [if_pos hty]
          cases c with
          | data ser f => exact fun j tyx => rfl
          | transform t =>
            dsimp only
            have hA : ∀ sA : EMState,
                (∀ (j : Int) (tyx : String),
                  hasComp sA j tyx = hasComp s j tyx) →
                ∀ (j : Int) (tyx : String),
                  hasComp (match (match getTransform sA id with
                      | some tNow => tNow.parent
                      | none => t.parent) with
                    | none => sA
                    | some pid =>
                      match getTransform sA pid with
                      | some pT => putTransform sA pid
                          { pT with children := jsSetDel pT.children id }
                      | none => sA) j tyx = hasComp s j tyx := by
              intro sA hsA j tyx
              cases (match getTransform sA id with
                | some tNow => tNow.parent
                | none => t.parent) with
              | none => exact hsA j tyx
              | some pid =>
                dsimp only
                cases hgp : getTransform sA pid with
                | none => exact hsA j tyx
                | some pT =>
                  rw [hasComp_put sA pid pT
                    { pT with children := jsSetDel pT.children id } hgp j tyx]
                  exact hsA j tyx
            apply hA
            refine foldl_pres (fun st : EMState =>
              ∀ (j : Int) (tyx : String),
                hasComp st j tyx = hasComp s j tyx)
              _ t.children s (fun j tyx => rfl) ?_
            intro st cid _ hst
            by_cases hcl : hasEntity st cid = true
            · rw [if_pos hcl]
              intro j tyx
              rw [(setParent_any st cid none).2 j tyx]
              exact hst j tyx
            · rw [if_neg hcl]
              exact hst
        · rw [if_neg hty]
          exact fun j tyx => rfl

/-- Removing every component type a given entity has (as `restoreBase`
does for an existing entity) preserves the invariant, keeps the shell,
and leaves the entity with no components. -/
theorem remFold2 (id : Int) : ∀ (tys : List String) (st : EMState),
    INV st →
    (∀ ty, hasComp st id ty = true → ty ∈ tys) →
    INV (tys.foldl (fun st ty => (removeComponent st id ty).2) st) ∧
    (tys.foldl (fun st ty => (removeComponent st id ty).2) st).entities =
      st.entities ∧
    ∀ ty, hasComp (tys.foldl (fun st ty => (removeComponent st id ty).2) st)
      id ty = false := by
  intro tys
  induction tys with
  | nil =>
    intro st h1 h3
    refine ⟨h1, rfl, ?_⟩
    intro ty
    cases hb : hasComp st id ty
    · exact hb
    · exact absurd (h3 ty hb) (List.not_mem_nil ty)
  | cons ty rest ihs =>
    intro st h1 h3
    rw [List.foldl_cons]
    have hchar := removeComponent_hasComp st id ty h1.2.2
    have h3' : ∀ ty', hasComp (removeComponent st id ty).2 id ty' = true →
        ty' ∈ rest := by
      intro ty' hb
      rw [hchar id ty'] at hb
      by_cases hxx : (id : Int) = id ∧ ty' = ty
      · rw [if_pos hxx] at hb
        cases hb
      · rw [if_neg hxx] at hb
        have hne : ty' ≠ ty := fun hc => hxx ⟨rfl, hc⟩
        rcases List.mem_cons.mp (h3 ty' hb) with hc | hc
        · exact absurd hc hne
        · exact hc
    obtain ⟨hI2, hE2, hC2⟩ := ihs (removeComponent st id ty).2
      (removeComponent_INV st id ty h1) h3'
    refine ⟨hI2, ?_, hC2⟩
    rw [hE2, (removeComponent_shell st id ty).1]

/-- The invariant never mentions the id counter. -/
theorem INV_setNext (s : EMState) (n : Int) (h : INV s) :
    INV { s with nextEntityId := n } := by
  obtain ⟨⟨w1, w2, w3⟩, ⟨p1, p2, p3⟩, ⟨x1, x2, x3⟩⟩ := h
  refine ⟨⟨w1, w2, w3⟩, ⟨p1, p2, ?_⟩, ⟨x1, x2, x3⟩⟩
  have hps : ∀ x : Int, pstep { s with nextEntityId := n } (some x) =
      pstep s (some x) := fun x => rfl
  intro e
  obtain ⟨m, hm⟩ := p3 e
  exact ⟨m, by rw [psteps_congr hps m (some e)]; exact hm⟩

/-- `_restoreSingleEntityBase` preserves the invariant. -/
theorem restoreBase_INV (s : EMState) (id : Int) (h : INV s) :
    INV (restoreBase s id) := by
  unfold restoreBase
  by_cases hl : hasEntity s id = true
  · rw [if_pos hl]
    dsimp only
    have htypes : ∀ ty, hasComp s id ty = true →
        ty ∈ (match mapGet s.comps id with
          | some m => m.map Prod.fst
          | none => ([] : List String)) := by
      intro ty hb
      have hsome : (getComp s id ty).isSome = true := hb
      unfold getComp at hsome
      rw [hl, if_pos rfl] at hsome
      cases hm : mapGet s.comps id with
      | none =>
        rw [hm] at hsome
        cases hsome
      | some m =>
        rw [hm] at hsome
        exact (mapGet_isSome_iff m ty).mp hsome
    obtain ⟨hI1, hE1, hC1⟩ := remFold2 id
      (match mapGet s.comps id with
        | some m => m.map Prod.fst
        | none => ([] : List String)) s h htypes
    set s₁ := (match mapGet s.comps id with
      | some m => m.map Prod.fst
      | none => ([] : List String)).foldl
        (fun st ty => (removeComponent st id ty).2) s with hs₁
    have hlive₁ : hasEntity s₁ id = true := by
      show decide (id ∈ s₁.entities) = true
      rw [hE1]
      exact hl
    have hkey₁ : (mapGet s₁.comps id).isSome = true :=
      (hI1.1.keysLive id).mpr (by simpa [hasEntity] using hlive₁)
    have hnone₁ : ∀ tyx, getComp s₁ id tyx = none := by
      intro tyx
      have hb := hC1 tyx
      unfold hasComp at hb
      cases hg : getComp s₁ id tyx with
      | none => rfl
      | some cc =>
        rw [hg] at hb
        cases hb
    have hgc2 : ∀ (x : Int) (tyx : String),
        getComp { s₁ with comps := mapSet s₁.comps id [] } x tyx =
          getComp s₁ x tyx := by
      intro x tyx
      by_cases hxi : x = id
      · subst hxi
        rw [hnone₁ tyx]
        unfold getComp
        rw [show hasEntity { s₁ with comps := mapSet s₁.comps x [] } x =
          hasEntity s₁ x from rfl, hlive₁, if_pos rfl]
        show (mapGet (mapSet s₁.comps x []) x).bind _ = none
        rw [mapGet_set_self]
        rfl
      · unfold getComp
        rw [show hasEntity { s₁ with comps := mapSet s₁.comps id [] } x =
          hasEntity s₁ x from rfl]
        show (if hasEntity s₁ x = true then
          (mapGet (mapSet s₁.comps id []) x).bind _ else none) = _
        rw [mapGet_set_ne s₁.comps id x [] hxi]
    refine INV_transfer s₁ { s₁ with comps := mapSet s₁.comps id [] }
      rfl rfl ?_ ?_ ?_ ?_ hI1
    · intro x
      show (mapGet (mapSet s₁.comps id []) x).isSome = _
      rw [mapGet_set_isSome]
      by_cases hxi : x = id
      · subst hxi
        rw [hkey₁]
        simp
      · simp [hxi]
    · intro j tyx
      unfold hasComp
      rw [hgc2 j tyx]
    · intro j cc hcc
      rw [hgc2 j "transform"] at hcc
      exact hI1.1.slotTransform j cc hcc
    · intro j
      unfold hierProj getTransform
      rw [hgc2 j "transform"]
  · rw [if_neg hl]
    have hfresh : id ∉ s.entities := by
      intro hmem
      exact hl (by simpa [hasEntity] using hmem)
    obtain ⟨⟨w1, w2, w3⟩, ⟨p1, p2, p3⟩, ⟨x1, x2, x3⟩⟩ :=
      addEntity_INV s id hfresh h
    refine ⟨⟨w1, w2, w3⟩, ⟨p1, p2, ?_⟩, ⟨x1, x2, x3⟩⟩
    have hps : ∀ x : Int,
        pstep { s with
          entities := jsSetAdd s.entities id
          comps := mapSet s.comps id []
          nextEntityId := if s.nextEntityId ≤ id then id + 1
            else s.nextEntityId } (some x) =
        pstep { s with
          nextEntityId := id + 1
          entities := jsSetAdd s.entities id
          comps := mapSet s.comps id [] } (some x) := fun x => rfl
    intro e
    obtain ⟨m, hm⟩ := p3 e
    exact ⟨m, by rw [psteps_congr hps m (some e)]; exact hm⟩

theorem mapGet_filter_excluded {α β : Type} [DecidableEq α]
    (l : List (α × β)) (p : α × β → Bool) (k : α)
    (hp : ∀ v : β, p (k, v) = false) :
    mapGet (l.filter p) k = none := by
  induction l with
  | nil => rfl
  | cons kv rest ih =>
    rw [List.filter_cons]
    by_cases hcp : p kv = true
    · rw [if_pos hcp]
      obtain ⟨a, b⟩ := kv
      have hak : ¬(a = k) := by
        intro he
        rw [he, hp b] at hcp
        cases hcp
      rw [show mapGet ((a, b) :: rest.filter p) k =
        if a = k then some b else mapGet (rest.filter p) k from rfl,
        if_neg hak]
      exact ih
    · rw [if_neg hcp]
      exact ih

/-- `_restoreEntityComponents` preserves the invariant: every component
is reinstalled through `addComponent`, with `parent`/`children` stripped
from the hierarchy component. -/
theorem restoreComps_INV (reg : Registry) (s : EMState) (id : Int)
    (cs : List (String × Fields)) (hreg : RegOk reg) (h : INV s) :
    INV (restoreComps reg s id cs).2 := by
  unfold restoreComps
  refine foldl_pres (fun acc : Nat × EMState => INV acc.2) _ cs (0, s) h ?_
  intro acc tyf _ hacc
  dsimp only
  by_cases hnone : (reg tyf.1).isNone = true
  · rw [if_pos hnone]
    exact hacc
  · rw [if_neg hnone]
    have hsafe : SafeAdd acc.2 id tyf.1 (if tyf.1 = "transform" then
        tyf.2.filter (fun kv => kv.1 ≠ "parent" ∧ kv.1 ≠ "children")
        else tyf.2) := by
      intro hty _
      rw [if_pos hty]
      constructor
      · exact mapGet_filter_excluded tyf.2 _ "parent" (by intro v; simp)
      · exact mapGet_filter_excluded tyf.2 _ "children" (by intro v; simp)
    have hAdd := addComponent_INV reg acc.2 id tyf.1
      (if tyf.1 = "transform" then
        tyf.2.filter (fun kv => kv.1 ≠ "parent" ∧ kv.1 ≠ "children")
      else tyf.2) hreg hacc hsafe
    cases hr : addComponent reg acc.2 id tyf.1
      (if tyf.1 = "transform" then
        tyf.2.filter (fun kv => kv.1 ≠ "parent" ∧ kv.1 ≠ "children")
      else tyf.2) with
    | mk r st =>
      rw [hr] at hAdd
      cases r with
      | none => exact hAdd
      | some c => exact hAdd

/-- Pass 1 of `deserialize` preserves the invariant. -/
theorem pass1_INV (reg : Registry) (s : EMState) (doc : SceneDoc)
    (hreg : RegOk reg) (h : INV s) : INV (pass1 reg s doc).1 := by
  unfold pass1
  refine foldl_pres
    (fun acc : EMState × Int × List Int × Nat => INV acc.1) _ doc
    (s, 0, [], 0) h ?_
  intro acc ent _ hacc
  dsimp only
  have hrc := restoreComps_INV reg (restoreBase acc.1 ent.1) ent.1 ent.2
    hreg (restoreBase_INV acc.1 ent.1 hacc)
  by_cases hz : (restoreComps reg (restoreBase acc.1 ent.1) ent.1 ent.2).1 = 0
  · rw [if_pos hz]
    exact hrc
  · rw [if_neg hz]
    exact hrc

/-- Pass 2 of `deserialize` preserves the invariant. -/
theorem pass2_INV (s : EMState) (doc : SceneDoc) (restored : List Int)
    (h : INV s) : INV (pass2 s doc restored).2 := by
  unfold pass2
  refine foldl_pres (fun acc : Nat × EMState => INV acc.2) _ restored
    (0, s) h ?_
  intro acc eid _ hacc
  cases mapGet doc eid with
  | none => exact hacc
  | some comps =>
    dsimp only
    cases mapGet comps "transform" with
    | none => exact hacc
    | some tf =>
      dsimp only
      cases mapGet tf "parent" with
      | none => exact hacc
      | some pv =>
        dsimp only
        cases pv with
        | num p =>
          dsimp only
          by_cases hmem : p ∈ restored
          · rw [if_pos hmem]
            have hsp := setParent_INV acc.2 eid (some p) hacc
            cases hr : setParent acc.2 eid (some p) with
            | mk b st =>
              rw [hr] at hsp
              cases b with
              | false => exact hsp
              | true => exact hsp
          · rw [if_neg hmem]
            exact setParent_INV acc.2 eid none hacc
        | nul =>
          have hsp := setParent_INV acc.2 eid none hacc
          cases hr : setParent acc.2 eid none with
          | mk b st =>
            rw [hr] at hsp
            cases b with
            | false => exact hsp
            | true => exact hsp
        | str a => exact setParent_INV acc.2 eid none hacc
        | boolean b => exact setParent_INV acc.2 eid none hacc
        | arr xs => exact setParent_INV acc.2 eid none hacc

/-- `deserialize` always leaves the store satisfying the invariant. -/
theorem deserialize_INV (reg : Registry) (s : EMState) (doc : SceneDoc)
    (hreg : RegOk reg) : INV (deserialize reg s doc).2 := by
  unfold deserialize
  dsimp only
  exact INV_setNext _ _ (pass2_INV _ doc _
    (pass1_INV reg initEM doc hreg INV_init))

/-- Installing a brand-new component preserves the weak invariant, with
no constraint on the component's content. -/
theorem setNewComp_WI (s : EMState) (id : Int) (ty : String) (c : Comp)
    (h : WI s) (hlive : hasEntity s id = true)
    (htrim : ty.trim ≠ "") :
    WI (indexAdd (setComp s id ty c) ty id) := by
  obtain ⟨hn, hk, hx⟩ := h
  set s₂ := indexAdd (setComp s id ty c) ty id with hs₂
  have hshell₁ := setComp_shell s id ty c
  have hkeep := indexAdd_keeps (setComp s id ty c) ty id
  have hents : s₂.entities = s.entities := by
    rw [hs₂, hkeep.1, hshell₁.1]
  have hcomps₂ : s₂.comps = (setComp s id ty c).comps := hkeep.2.2
  have hm0 : (mapGet s.comps id).isSome = true :=
    (hk id).mpr (by simpa [hasEntity] using hlive)
  obtain ⟨m, hm⟩ := Option.isSome_iff_exists.mp hm0
  have hsc : (setComp s id ty c).comps = mapSet s.comps id (mapSet m ty c) := by
    unfold setComp; rw [hm]
  have hgc : ∀ (x : Int) (tyx : String), getComp s₂ x tyx =
      if x = id ∧ tyx = ty then some c else getComp s x tyx := by
    intro x tyx
    have hstep : getComp s₂ x tyx = getComp (setComp s id ty c) x tyx := by
      unfold getComp hasEntity
      rw [hents, hcomps₂, hshell₁.1]
    by_cases hxx : x = id ∧ tyx = ty
    · rw [if_pos hxx, hstep, hxx.1, hxx.2]
      exact getComp_setComp_self s id ty c hlive hm0
    · rw [if_neg hxx, hstep]
      apply getComp_setComp_other
      by_cases hxi : x = id
      · exact Or.inr (fun hty2 => hxx ⟨hxi, hty2⟩)
      · exact Or.inl hxi
  have hidxc : ∀ tyx : String, mapGet s₂.index tyx =
      if tyx = ty then some (jsSetAdd ((mapGet s.index ty).getD []) id)
      else mapGet s.index tyx := by
    intro tyx
    have h4 : s₂.index =
        match mapGet s.index ty with
        | none => mapSet s.index ty [id]
        | some st => mapSet s.index ty (jsSetAdd st id) := by
      rw [hs₂]
      unfold indexAdd
      rw [hshell₁.2.2]
      cases mapGet s.index ty <;> rfl
    rw [h4]
    cases hmi : mapGet s.index ty with
    | none =>
      by_cases htx : tyx = ty
      · subst htx
        rw [mapGet_set_self, if_pos rfl]
        show some [id] = some (jsSetAdd [] id)
        simp [jsSetAdd]
      · rw [mapGet_set_ne s.index ty tyx [id] htx, if_neg htx]
    | some st =>
      by_cases htx : tyx = ty
      · subst htx
        rw [mapGet_set_self, if_pos rfl]
        rfl
      · rw [mapGet_set_ne s.index ty tyx _ htx, if_neg htx]
  refine ⟨?_, ?_, ?_, ?_, ?_⟩
  · rw [hents]; exact hn
  · intro x
    rw [hents, hcomps₂, hsc, mapGet_set_isSome]
    by_cases hxi : x = id
    · subst hxi
      simp only [decide_eq_true_eq]
      constructor
      · intro _; simpa [hasEntity] using hlive
      · intro _; simp
    · have hdx : (decide (x = id)) = false := by simp [hxi]
      rw [hdx, Bool.or_false]
      exact hk x
  · intro tyx x'
    show x' ∈ (mapGet s₂.index tyx).getD [] ↔ _
    unfold hasComp
    rw [hgc x' tyx, hidxc tyx]
    by_cases htx : tyx = ty
    · subst htx
      rw [if_pos rfl]
      simp only [Option.getD_some]
      rw [mem_jsSetAdd]
      by_cases hxi : x' = id
      · rw [if_pos (⟨hxi, by simp⟩ : _ ∧ _)]
        simp [hxi]
      · rw [if_neg (fun hc => hxi hc.1)]
        constructor
        · rintro (hc | hc)
          · exact absurd hc hxi
          · exact (hx.mem tyx x').mp hc
        · intro hc
          exact Or.inr ((hx.mem tyx x').mpr hc)
    · rw [if_neg htx, if_neg (fun hc => htx hc.2)]
      exact hx.mem tyx x'
  · intro tyx l hl
    rw [hidxc tyx] at hl
    by_cases htx : tyx = ty
    · rw [if_pos htx] at hl
      have hl2 := Option.some.inj hl
      rw [← hl2]
      cases hmi : mapGet s.index ty with
      | none =>
        simp [jsSetAdd]
      | some st =>
        show (jsSetAdd st id).Nodup
        exact jsSetAdd_nodup (hx.nodupSets ty st hmi)
    · rw [if_neg htx] at hl
      exact hx.nodupSets tyx l hl
  · intro x' tyx hc
    unfold hasComp at hc
    rw [hgc x' tyx] at hc
    by_cases hxx : x' = id ∧ tyx = ty
    · rw [hxx.2]
      exact htrim
    · rw [if_neg hxx] at hc
      exact hx.tyValid x' tyx hc

/-- Overwriting an occupied component slot preserves the weak invariant,
whatever is written. -/
theorem setExistingComp_WI (s : EMState) (id : Int) (ty : String)
    (c₀ c₁ : Comp) (h : WI s) (hgc0 : getComp s id ty = some c₀) :
    WI (setComp s id ty c₁) := by
  obtain ⟨hn, hk, hx⟩ := h
  have hlive : hasEntity s id = true := getComp_some_live s id ty c₀ hgc0
  have hm0 : (mapGet s.comps id).isSome = true :=
    getComp_some_entry s id ty c₀ hgc0
  obtain ⟨m, hm⟩ := Option.isSome_iff_exists.mp hm0
  have hsc : (setComp s id ty c₁).comps =
      mapSet s.comps id (mapSet m ty c₁) := by
    unfold setComp; rw [hm]
  have hgc : ∀ (x : Int) (tyx : String), getComp (setComp s id ty c₁) x tyx =
      if x = id ∧ tyx = ty then some c₁ else getComp s x tyx := by
    intro x tyx
    by_cases hxx : x = id ∧ tyx = ty
    · rw [if_pos hxx, hxx.1, hxx.2]
      exact getComp_setComp_self s id ty c₁ hlive hm0
    · rw [if_neg hxx]
      apply getComp_setComp_other
      by_cases hxi : x = id
      · exact Or.inr fun h2 => hxx ⟨hxi, h2⟩
      · exact Or.inl hxi
  have hhas : ∀ (j : Int) (tyx : String),
      hasComp (setComp s id ty c₁) j tyx = hasComp s j tyx := by
    intro j tyx
    unfold hasComp
    rw [hgc j tyx]
    by_cases hxx : j = id ∧ tyx = ty
    · rw [if_pos hxx, hxx.1, hxx.2, hgc0]
      rfl
    · rw [if_neg hxx]
  refine ⟨?_, ?_, ?_⟩
  · rw [(setComp_shell s id ty c₁).1]
    exact hn
  · intro x
    rw [hsc, mapGet_set_isSome, (setComp_shell s id ty c₁).1]
    by_cases hxi : x = id
    · subst hxi
      rw [hm0]
      simp only [Bool.true_or]
      constructor
      · intro _
        exact (hk x).mp hm0
      · intro _
        trivial
    · have hdx : (decide (x = id)) = false := by simp [hxi]
      rw [hdx, Bool.or_false]
      exact hk x
  · exact IdxInv_eqTransfer s (setComp s id ty c₁)
      (setComp_shell s id ty c₁).2.2 hhas hx

/-- `addComponent` preserves the weak invariant with no usage discipline
at all: even a hierarchy-breaking call keeps the index consistent. -/
theorem addComponent_WI (reg : Registry) (s : EMState) (id : Int)
    (ty : String) (data : Fields) (h : WI s) :
    WI (addComponent reg s id ty data).2 := by
  unfold addComponent
  by_cases h1 : ty.trim = ""
  · rw [if_pos h1]; exact h
  · rw [if_neg h1]
    by_cases h2 : hasEntity s id = false
    · rw [if_pos h2]; exact h
    · rw [if_neg h2]
      have hlive : hasEntity s id = true := by
        cases hb : hasEntity s id
        · exact absurd hb h2
        · rfl
      cases hrty : reg ty with
      | none => exact h
      | some spec =>
        dsimp only
        cases hgc0 : getComp s id ty with
        | none =>
          cases spec with
          | transformSpec =>
            dsimp only
            cases hmk : mkTransform (data.filter (fun kv => kv.1 ≠ "source"))
              with
            | none => exact h
            | some t =>
              dsimp only
              exact setNewComp_WI s id ty (Comp.transform t) h hlive h1
          | dataSpec build ser =>
            dsimp only
            exact setNewComp_WI s id ty
              (Comp.data ser (build (data.filter (fun kv => kv.1 ≠ "source"))))
              h hlive h1
        | some c₀ =>
          dsimp only
          have hS₁ : WI (setComp s id ty
              (((data.filter (fun kv => kv.1 ≠ "source")).foldl
                (fun (acc : Comp × Option Value) kv =>
                  if ty = "transform" ∧ kv.1 = "parent" then (acc.1, some kv.2)
                  else if ty = "transform" ∧ kv.1 = "children" then acc
                  else (updateCompField acc.1 kv.1 kv.2, acc.2))
                (c₀, none)).1)) :=
            setExistingComp_WI s id ty c₀ _ h hgc0
          split
          · exact hS₁
          · split
            · split
              · exact hS₁
              · split
                · exact setParent_WI _ _ _ hS₁
                · exact setParent_WI _ _ _ hS₁
                · exact hS₁
            · exact hS₁

/-- Dropping a component slot and its index entry preserves the weak
invariant. -/
theorem dropSlot_WI (s₁ : EMState) (id : Int) (ty : String) (h : WI s₁) :
    WI (indexDel (delComp s₁ id ty) ty id) := by
  obtain ⟨hn, hk, hx⟩ := h
  obtain ⟨_, _, hkeys, _⟩ := dropSlot_chars s₁ id ty
  refine ⟨?_, ?_, dropSlot_IdxInv s₁ id ty hx⟩
  · rw [(indexDel_keeps (delComp s₁ id ty) ty id).1,
      (delComp_shell s₁ id ty).1]
    exact hn
  · intro x
    rw [hkeys x, (indexDel_keeps (delComp s₁ id ty) ty id).1,
      (delComp_shell s₁ id ty).1]
    exact hk x

/-- `removeComponent` preserves the weak invariant unconditionally. -/
theorem removeComponent_WI (s : EMState) (id : Int) (ty : String)
    (h : WI s) : WI (removeComponent s id ty).2 := by
  unfold removeComponent
  by_cases h1 : ty.trim = ""
  · rw [if_pos h1]; exact h
  · rw [if_neg h1]
    by_cases h2 : hasEntity s id = false
    · rw [if_pos h2]; exact h
    · rw [if_neg h2]
      cases hgc0 : getComp s id ty with
      | none => exact h
      | some c =>
        dsimp only
        have hfin : ∀ s₁ : EMState, WI s₁ →
            WI (indexDel (delComp s₁ id ty) ty id) :=
          fun s₁ => dropSlot_WI s₁ id ty
        refine hfin _ ?_
        by_cases hty : ty = "transform"
        · rw [if_pos hty]
          cases c with
          | data ser f => exact h
          | transform t =>
            dsimp only
            have hA : ∀ sA : EMState, WI sA →
                WI (match (match getTransform sA id with
                    | some tNow => tNow.parent
                    | none => t.parent) with
                  | none => sA
                  | some pid =>
                    match getTransform sA pid with
                    | some pT => putTransform sA pid
                        { pT with children := jsSetDel pT.children id }
                    | none => sA) := by
              intro sA hsA
              cases (match getTransform sA id with
                | some tNow => tNow.parent
                | none => t.parent) with
              | none => exact hsA
              | some pid =>
                dsimp only
                cases hgp : getTransform sA pid with
                | none => exact hsA
                | some pT =>
                  exact putTransformG_WI sA pid pT _ hgp hsA
            apply hA
            refine foldl_pres WI _ t.children s h ?_
            intro st cid _ hst
            by_cases hcl : hasEntity st cid = true
            · rw [if_pos hcl]
              exact setParent_WI st cid none hst
            · rw [if_neg hcl]
              exact hst
        · rw [if_neg hty]
          exact h

/-- The final record update of `removeEntity` preserves the weak
invariant, given the index-fold facts about the intermediate state. -/
theorem removeEntityFinal_WI (sC s₂ : EMState) (id : Int) (h : WI sC)
    (h2ents : s₂.entities = sC.entities)
    (h2comps : s₂.comps = sC.comps)
    (h2idx : ∀ tyx : String,
      mapGet s₂.index tyx =
        (mapGet sC.index tyx).map (fun l => jsSetDel l id) ∨
      (mapGet s₂.index tyx = mapGet sC.index tyx ∧
        getComp sC id tyx = none)) :
    WI { s₂ with
      comps := mapDel s₂.comps id
      entities := jsSetDel s₂.entities id } := by
  obtain ⟨hn, hk, hx⟩ := h
  set s₃ : EMState := { s₂ with
    comps := mapDel s₂.comps id
    entities := jsSetDel s₂.entities id } with hs₃
  have hents₃ : s₃.entities = jsSetDel sC.entities id := by
    show jsSetDel s₂.entities id = _
    rw [h2ents]
  have hidx₃ : s₃.index = s₂.index := rfl
  have hheid : hasEntity s₃ id = false := by
    show decide (id ∈ s₃.entities) = false
    rw [hents₃]
    simp [mem_jsSetDel]
  have hhene : ∀ x : Int, x ≠ id → hasEntity s₃ x = hasEntity sC x := by
    intro x hxi
    show decide (x ∈ s₃.entities) = decide (x ∈ sC.entities)
    rw [hents₃]
    simp [mem_jsSetDel, hxi]
  have hcomps₃ : ∀ x : Int, mapGet s₃.comps x =
      if x = id then none else mapGet sC.comps x := by
    intro x
    show mapGet (mapDel s₂.comps id) x = _
    by_cases hxi : x = id
    · rw [if_pos hxi, hxi]
      exact mapGet_del_self s₂.comps id
    · rw [if_neg hxi, mapGet_del_ne s₂.comps id x hxi, h2comps]
  have hgc₃ : ∀ (j : Int) (tyx : String), getComp s₃ j tyx =
      if j = id then none else getComp sC j tyx := by
    intro j tyx
    by_cases hji : j = id
    · rw [if_pos hji, hji]
      unfold getComp
      rw [hheid]
      simp
    · rw [if_neg hji]
      unfold getComp
      rw [hhene j hji, hcomps₃ j, if_neg hji]
  refine ⟨?_, ?_, ?_, ?_, ?_⟩
  · rw [hents₃]
    exact jsSetDel_nodup hn id
  · intro x
    rw [hcomps₃ x]
    by_cases hxi : x = id
    · subst hxi
      rw [if_pos rfl]
      simp only [Option.isSome_none]
      constructor
      · intro hfoo
        cases hfoo
      · intro hmem
        have h1 : hasEntity s₃ x = true := by simpa [hasEntity] using hmem
        rw [hheid] at h1
        cases h1
    · rw [if_neg hxi, hk x]
      constructor
      · intro hmem
        have h1 : hasEntity sC x = true := by simpa [hasEntity] using hmem
        rw [← hhene x hxi] at h1
        simpa [hasEntity] using h1
      · intro hmem
        have h1 : hasEntity s₃ x = true := by simpa [hasEntity] using hmem
        rw [hhene x hxi] at h1
        simpa [hasEntity] using h1
  · intro tyx x
    show x ∈ (mapGet s₂.index tyx).getD [] ↔ hasComp s₃ x tyx = true
    unfold hasComp
    rw [hgc₃ x tyx]
    rcases h2idx tyx with hA | ⟨hB, hBnone⟩
    · rw [hA]
      by_cases hxi : x = id
      · subst hxi
        rw [if_pos rfl]
        simp only [Option.isSome_none]
        constructor
        · intro hmem
          exfalso
          cases hmi : mapGet sC.index tyx with
          | none =>
            rw [hmi] at hmem
            simp at hmem
          | some l =>
            rw [hmi] at hmem
            have h6 : x ∈ jsSetDel l x := hmem
            rw [mem_jsSetDel] at h6
            exact h6.2 rfl
        · intro hfoo
          cases hfoo
      · rw [if_neg hxi]
        have h5 := hx.mem tyx x
        unfold hasComp at h5
        cases hmi : mapGet sC.index tyx with
        | none =>
          rw [hmi] at h5
          constructor
          · intro hmem
            simp at hmem
          · intro hsome
            exact absurd (h5.mpr hsome) (by simp)
        | some l =>
          rw [hmi] at h5
          simp only [Option.getD_some] at h5
          show x ∈ (some (jsSetDel l id)).getD [] ↔ _
          simp only [Option.getD_some]
          rw [mem_jsSetDel, ← h5]
          simp [hxi]
    · rw [hB]
      by_cases hxi : x = id
      · subst hxi
        rw [if_pos rfl]
        have h5 := hx.mem tyx x
        unfold hasComp at h5
        rw [hBnone] at h5
        constructor
        · intro hmem
          exact absurd (h5.mp hmem) (by simp)
        · intro hfoo
          exact absurd hfoo (by simp)
      · rw [if_neg hxi]
        exact hx.mem tyx x
  · intro tyx l hl
    rw [hidx₃] at hl
    rcases h2idx tyx with hA | ⟨hB, _⟩
    · rw [hA] at hl
      cases hmi : mapGet sC.index tyx with
      | none =>
        rw [hmi] at hl
        cases hl
      | some st =>
        rw [hmi] at hl
        have h6 : jsSetDel st id = l := Option.some.inj hl
        rw [← h6]
        exact jsSetDel_nodup (hx.nodupSets tyx st hmi) id
    · rw [hB] at hl
      exact hx.nodupSets tyx l hl
  · intro x tyx hc
    unfold hasComp at hc
    rw [hgc₃ x tyx] at hc
    by_cases hxi : x = id
    · rw [if_pos hxi] at hc
      cases hc
    · rw [if_neg hxi] at hc
      exact hx.tyValid x tyx hc

/-- The index-scrub-and-delete suffix of `removeEntity`, run on any state,
preserves the weak invariant. -/
theorem removeFinalStage_WI (sC : EMState) (id : Int) (h : WI sC) :
    WI { (match mapGet sC.comps id with
          | none => sC
          | some m => (m.map Prod.fst).foldl
              (fun st ty => indexDel st ty id) sC) with
        comps := mapDel (match mapGet sC.comps id with
          | none => sC
          | some m => (m.map Prod.fst).foldl
              (fun st ty => indexDel st ty id) sC).comps id
        entities := jsSetDel (match mapGet sC.comps id with
          | none => sC
          | some m => (m.map Prod.fst).foldl
              (fun st ty => indexDel st ty id) sC).entities id } := by
  cases hm2 : mapGet sC.comps id with
  | none =>
    dsimp only
    exact removeEntityFinal_WI sC sC id h rfl rfl
      (fun tyx => Or.inr ⟨rfl, by
        unfold getComp
        cases hasEntity sC id <;> simp [hm2]⟩)
  | some m =>
    dsimp only
    obtain ⟨⟨f_e, f_n, f_c⟩, f_idx⟩ := indexDelFold id (m.map Prod.fst) sC
    exact removeEntityFinal_WI sC _ id h f_e f_c
      (fun tyx => by
        rw [f_idx tyx]
        by_cases hmem : tyx ∈ m.map Prod.fst
        · rw [if_pos hmem]
          exact Or.inl rfl
        · rw [if_neg hmem]
          refine Or.inr ⟨rfl, ?_⟩
          unfold getComp
          cases hle : hasEntity sC id
          · rw [if_neg (by simp)]
          · rw [if_pos rfl, hm2]
            show mapGet m tyx = none
            exact mapGet_none_of_not_mem hmem)

/-- `removeEntity` preserves the weak invariant at every fuel value, even
on stores whose hierarchy is broken. -/
theorem removeEntity_WI : ∀ (fuel : Nat) (s : EMState) (id : Int),
    WI s → WI (removeEntity fuel s id).2 := by
  intro fuel
  induction fuel with
  | zero =>
    intro s id h
    exact h
  | succ F ih =>
    intro s id h
    rw [removeEntity]
    by_cases hl : hasEntity s id = false
    · rw [if_pos hl]
      exact h
    · rw [if_neg hl]
      dsimp only
      cases hT : getTransform s id with
      | none =>
        dsimp only
        exact removeFinalStage_WI s id h
      | some t =>
        dsimp only
        set sA := if t.parent ≠ none then (setParent s id none).2 else s
          with hsA
        have hA : WI sA := by
          rw [hsA]
          by_cases hpt : t.parent ≠ none
          · rw [if_pos hpt]
            exact setParent_WI s id none h
          · rw [if_neg hpt]
            exact h
        set kids : List Int := (match getTransform sA id with
          | some tNow => tNow.children
          | none => t.children) with hkids
        set sB := kids.foldl (fun st cid =>
          if hasEntity st cid then (removeEntity F st cid).2 else st) sA
          with hsB
        have hB : WI sB := by
          rw [hsB]
          refine foldl_pres WI _ kids sA hA ?_
          intro st cid _ hst
          by_cases hc : hasEntity st cid = true
          · rw [if_pos hc]
            exact ih st cid hst
          · rw [if_neg hc]
            exact hst
        cases hTB : getTransform sB id with
        | none =>
          dsimp only
          exact removeFinalStage_WI sB id hB
        | some tEnd =>
          dsimp only
          exact removeFinalStage_WI _ id
            (putTransformG_WI sB id tEnd
              { tEnd with parent := none, children := [] } hTB hB)

/-- The public `removeEntity` call preserves the weak invariant. -/
theorem removeEntityTop_WI (s : EMState) (id : Int) (h : WI s) :
    WI (removeEntityTop s id).2 :=
  removeEntity_WI (s.entities.length + 1) s id h

/-- Removing every component type an entity has preserves the weak
invariant, keeps the live set, and leaves the entity componentless. -/
theorem remFold2W (id : Int) : ∀ (tys : List String) (st : EMState),
    WI st →
    (∀ ty, hasComp st id ty = true → ty ∈ tys) →
    WI (tys.foldl (fun st ty => (removeComponent st id ty).2) st) ∧
    (tys.foldl (fun st ty => (removeComponent st id ty).2) st).entities =
      st.entities ∧
    ∀ ty, hasComp (tys.foldl (fun st ty => (removeComponent st id ty).2) st)
      id ty = false := by
  intro tys
  induction tys with
  | nil =>
    intro st h1 h3
    refine ⟨h1, rfl, ?_⟩
    intro ty
    cases hb : hasComp st id ty
    · exact hb
    · exact absurd (h3 ty hb) (List.not_mem_nil ty)
  | cons ty rest ihs =>
    intro st h1 h3
    rw [List.foldl_cons]
    have hchar := removeComponent_hasComp st id ty h1.2.2
    have h3' : ∀ ty', hasComp (removeComponent st id ty).2 id ty' = true →
        ty' ∈ rest := by
      intro ty' hb
      rw [hchar id ty'] at hb
      by_cases hxx : (id : Int) = id ∧ ty' = ty
      · rw [if_pos hxx] at hb
        cases hb
      · rw [if_neg hxx] at hb
        have hne : ty' ≠ ty := fun hc => hxx ⟨rfl, hc⟩
        rcases List.mem_cons.mp (h3 ty' hb) with hc | hc
        · exact absurd hc hne
        · exact hc
    obtain ⟨hI2, hE2, hC2⟩ := ihs (removeComponent st id ty).2
      (removeComponent_WI st id ty h1) h3'
    refine ⟨hI2, ?_, hC2⟩
    rw [hE2, (removeComponent_shell st id ty).1]

/-- Registering a fresh entity (with any id counter) preserves the weak
invariant. -/
theorem addEntity_WI (s : EMState) (i n : Int) (hfresh : i ∉ s.entities)
    (h : WI s) :
    WI { s with
      nextEntityId := n
      entities := jsSetAdd s.entities i
      comps := mapSet s.comps i [] } := by
  obtain ⟨hn0, hk, hx⟩ := h
  set s' : EMState := { s with
    nextEntityId := n
    entities := jsSetAdd s.entities i
    comps := mapSet s.comps i [] } with hs'
  have hents : s'.entities = s.entities ++ [i] := by
    show jsSetAdd s.entities i = _
    simp [jsSetAdd, hfresh]
  have hmem : ∀ x : Int, x ∈ s'.entities ↔ x ∈ s.entities ∨ x = i := by
    intro x; rw [hents]; simp
  have hcomps : ∀ x : Int, mapGet s'.comps x =
      if x = i then some [] else mapGet s.comps x := by
    intro x
    by_cases hxi : x = i
    · subst hxi
      show mapGet (mapSet s.comps x []) x = _
      rw [mapGet_set_self, if_pos rfl]
    · show mapGet (mapSet s.comps i []) x = _
      rw [mapGet_set_ne s.comps i x [] hxi, if_neg hxi]
  have hlive' : ∀ x : Int, x ≠ i → hasEntity s' x = hasEntity s x := by
    intro x hxi
    show decide (x ∈ s'.entities) = decide (x ∈ s.entities)
    rw [hents]
    simp [hxi]
  have hgc : ∀ (x : Int) (ty : String),
      getComp s' x ty = if x = i then none else getComp s x ty := by
    intro x ty
    by_cases hxi : x = i
    · subst hxi
      rw [if_pos rfl]
      unfold getComp
      have : hasEntity s' x = true := by
        show decide (x ∈ s'.entities) = true
        rw [hents]; simp
      rw [if_pos this, hcomps x, if_pos rfl]
      rfl
    · rw [if_neg hxi]
      unfold getComp
      rw [hlive' x hxi, hcomps x, if_neg hxi]
  have hhas : ∀ (j : Int) (ty : String), hasComp s' j ty = hasComp s j ty := by
    intro j ty
    unfold hasComp
    rw [hgc j ty]
    by_cases hxi : j = i
    · rw [if_pos hxi, hxi]
      have hni : getComp s i ty = none := by
        unfold getComp
        rw [if_neg (by simp [hasEntity, hfresh])]
      rw [hni]
    · rw [if_neg hxi]
  refine ⟨?_, ?_, IdxInv_eqTransfer s s' rfl hhas hx⟩
  · rw [hents]
    refine List.Nodup.append hn0 (List.nodup_singleton i) ?_
    intro a ha hb
    rw [List.mem_singleton] at hb
    subst hb
    exact hfresh ha
  · intro x
    rw [hcomps x, hmem x]
    by_cases hxi : x = i
    · subst hxi; simp
    · rw [if_neg hxi]
      rw [hk x]
      simp [hxi]

/-- `createEntity` preserves the weak invariant. -/
theorem createEntity_WI (s : EMState) (h : WI s) :
    WI (createEntity s).2 :=
  addEntity_WI s _ _ (createEntity_fresh s) h

/-- `_restoreSingleEntityBase` preserves the weak invariant. -/
theorem restoreBase_WI (s : EMState) (id : Int) (h : WI s) :
    WI (restoreBase s id) := by
  unfold restoreBase
  by_cases hl : hasEntity s id = true
  · rw [if_pos hl]
    dsimp only
    have htypes : ∀ ty, hasComp s id ty = true →
        ty ∈ (match mapGet s.comps id with
          | some m => m.map Prod.fst
          | none => ([] : List String)) := by
      intro ty hb
      have hsome : (getComp s id ty).isSome = true := hb
      unfold getComp at hsome
      rw [hl, if_pos rfl] at hsome
      cases hm : mapGet s.comps id with
      | none =>
        rw [hm] at hsome
        cases hsome
      | some m =>
        rw [hm] at hsome
        exact (mapGet_isSome_iff m ty).mp hsome
    obtain ⟨hI1, hE1, hC1⟩ := remFold2W id
      (match mapGet s.comps id with
        | some m => m.map Prod.fst
        | none => ([] : List String)) s h htypes
    set s₁ := (match mapGet s.comps id with
      | some m => m.map Prod.fst
      | none => ([] : List String)).foldl
        (fun st ty => (removeComponent st id ty).2) s with hs₁
    have hlive₁ : hasEntity s₁ id = true := by
      show decide (id ∈ s₁.entities) = true
      rw [hE1]
      exact hl
    have hkey₁ : (mapGet s₁.comps id).isSome = true :=
      (hI1.2.1 id).mpr (by simpa [hasEntity] using hlive₁)
    have hnone₁ : ∀ tyx, getComp s₁ id tyx = none := by
      intro tyx
      have hb := hC1 tyx
      unfold hasComp at hb
      cases hg : getComp s₁ id tyx with
      | none => rfl
      | some cc =>
        rw [hg] at hb
        cases hb
    have hgc2 : ∀ (x : Int) (tyx : String),
        getComp { s₁ with comps := mapSet s₁.comps id [] } x tyx =
          getComp s₁ x tyx := by
      intro x tyx
      by_cases hxi : x = id
      · subst hxi
        rw [hnone₁ tyx]
        unfold getComp
        rw [show hasEntity { s₁ with comps := mapSet s₁.comps x [] } x =
          hasEntity s₁ x from rfl, hlive₁, if_pos rfl]
        show (mapGet (mapSet s₁.comps x []) x).bind _ = none
        rw [mapGet_set_self]
        rfl
      · unfold getComp
        rw [show hasEntity { s₁ with comps := mapSet s₁.comps id [] } x =
          hasEntity s₁ x from rfl]
        show (if hasEntity s₁ x = true then
          (mapGet (mapSet s₁.comps id []) x).bind _ else none) = _
        rw [mapGet_set_ne s₁.comps id x [] hxi]
    have hhas : ∀ (j : Int) (tyx : String),
        hasComp { s₁ with comps := mapSet s₁.comps id [] } j tyx =
          hasComp s₁ j tyx := by
      intro j tyx
      unfold hasComp
      rw [hgc2 j tyx]
    refine ⟨hI1.1, ?_, IdxInv_eqTransfer s₁ _ rfl hhas hI1.2.2⟩
    intro x
    show (mapGet (mapSet s₁.comps id []) x).isSome = true ↔ x ∈ s₁.entities
    rw [mapGet_set_isSome]
    by_cases hxi : x = id
    · subst hxi
      constructor
      · intro _
        simpa [hasEntity] using hlive₁
      · intro _
        simp
    · have hdx : (decide (x = id)) = false := by simp [hxi]
      rw [hdx, Bool.or_false]
      exact hI1.2.1 x
  · rw [if_neg hl]
    have hfresh : id ∉ s.entities := by
      intro hmem
      exact hl (by simpa [hasEntity] using hmem)
    exact addEntity_WI s id _ hfresh h

/-- `_restoreEntityComponents` preserves the weak invariant for any
registry. -/
theorem restoreComps_WI (reg : Registry) (s : EMState) (id : Int)
    (cs : List (String × Fields)) (h : WI s) :
    WI (restoreComps reg s id cs).2 := by
  unfold restoreComps
  refine foldl_pres (fun acc : Nat × EMState => WI acc.2) _ cs (0, s) h ?_
  intro acc tyf _ hacc
  dsimp only
  by_cases hnone : (reg tyf.1).isNone = true
  · rw [if_pos hnone]
    exact hacc
  · rw [if_neg hnone]
    have hAdd := addComponent_WI reg acc.2 id tyf.1
      (if tyf.1 = "transform" then
        tyf.2.filter (fun kv => kv.1 ≠ "parent" ∧ kv.1 ≠ "children")
      else tyf.2) hacc
    cases hr : addComponent reg acc.2 id tyf.1
      (if tyf.1 = "transform" then
        tyf.2.filter (fun kv => kv.1 ≠ "parent" ∧ kv.1 ≠ "children")
      else tyf.2) with
    | mk r st =>
      rw [hr] at hAdd
      cases r with
      | none => exact hAdd
      | some c => exact hAdd

/-- Pass 1 of `deserialize` preserves the weak invariant. -/
theorem pass1_WI (reg : Registry) (s : EMState) (doc : SceneDoc)
    (h : WI s) : WI (pass1 reg s doc).1 := by
  unfold pass1
  refine foldl_pres
    (fun acc : EMState × Int × List Int × Nat => WI acc.1) _ doc
    (s, 0, [], 0) h ?_
  intro acc ent _ hacc
  dsimp only
  have hrc := restoreComps_WI reg (restoreBase acc.1 ent.1) ent.1 ent.2
    (restoreBase_WI acc.1 ent.1 hacc)
  by_cases hz : (restoreComps reg (restoreBase acc.1 ent.1) ent.1 ent.2).1 = 0
  · rw [if_pos hz]
    exact hrc
  · rw [if_neg hz]
    exact hrc

/-- Pass 2 of `deserialize` preserves the weak invariant. -/
theorem pass2_WI (s : EMState) (doc : SceneDoc) (restored : List Int)
    (h : WI s) : WI (pass2 s doc restored).2 := by
  unfold pass2
  refine foldl_pres (fun acc : Nat × EMState => WI acc.2) _ restored
    (0, s) h ?_
  intro acc eid _ hacc
  cases mapGet doc eid with
  | none => exact hacc
  | some comps =>
    dsimp only
    cases mapGet comps "transform" with
    | none => exact hacc
    | some tf =>
      dsimp only
      cases mapGet tf "parent" with
      | none => exact hacc
      | some pv =>
        dsimp only
        cases pv with
        | num p =>
          dsimp only
          by_cases hmem : p ∈ restored
          · rw [if_pos hmem]
            have hsp := setParent_WI acc.2 eid (some p) hacc
            cases hr : setParent acc.2 eid (some p) with
            | mk b st =>
              rw [hr] at hsp
              cases b with
              | false => exact hsp
              | true => exact hsp
          · rw [if_neg hmem]
            exact setParent_WI acc.2 eid none hacc
        | nul =>
          have hsp := setParent_WI acc.2 eid none hacc
          cases hr : setParent acc.2 eid none with
          | mk b st =>
            rw [hr] at hsp
            cases b with
            | false => exact hsp
            | true => exact hsp
        | str a => exact setParent_WI acc.2 eid none hacc
        | boolean b => exact setParent_WI acc.2 eid none hacc
        | arr xs => exact setParent_WI acc.2 eid none hacc

/-- The weak invariant never mentions the id counter. -/
theorem WI_setNext (s : EMState) (n : Int) (h : WI s) :
    WI { s with nextEntityId := n } :=
  ⟨h.1, h.2.1, ⟨h.2.2.mem, h.2.2.nodupSets, h.2.2.tyValid⟩⟩

/-- `deserialize` always leaves the store satisfying the weak invariant,
for any registry. -/
theorem deserialize_WI (reg : Registry) (s : EMState) (doc : SceneDoc) :
    WI (deserialize reg s doc).2 := by
  unfold deserialize
  dsimp only
  exact WI_setNext _ _ (pass2_WI _ doc _ (pass1_WI reg initEM doc WI_init))

/-! ## Reachable stores -/

/-- Stores reachable through the public Entity Store API under the
intended usage discipline: the reserved name is only ever registered to
the transform class (`RegOk`), and a brand-new hierarchy component is
never seeded with `parent` or `children` data (`SafeAdd`). -/
inductive ReachS : EMState → Prop where
  | init : ReachS initEM
  | create (s : EMState) : ReachS s → ReachS (createEntity s).2
  | removeEnt (s : EMState) (id : Int) : ReachS s →
      ReachS (removeEntityTop s id).2
  | addComp (reg : Registry) (s : EMState) (id : Int) (ty : String)
      (data : Fields) : ReachS s → RegOk reg → SafeAdd s id ty data →
      ReachS (addComponent reg s id ty data).2
  | removeComp (s : EMState) (id : Int) (ty : String) : ReachS s →
      ReachS (removeComponent s id ty).2
  | setPar (s : EMState) (e : Int) (p : Option Int) : ReachS s →
      ReachS (setParent s e p).2
  | clearOp (s : EMState) : ReachS s → ReachS (clear s)
  | deser (reg : Registry) (s : EMState) (doc : SceneDoc) : ReachS s →
      RegOk reg → ReachS (deserialize reg s doc).2

/-- Every store reachable under the usage discipline satisfies the full
invariant. -/
theorem ReachS_INV : ∀ s : EMState, ReachS s → INV s := by
  intro s h
  induction h with
  | init => exact INV_init
  | create s _ ih => exact createEntity_INV s ih
  | removeEnt s id _ ih => exact removeEntityTop_INV s id ih
  | addComp reg s id ty data _ hreg hsafe ih =>
    exact addComponent_INV reg s id ty data hreg ih hsafe
  | removeComp s id ty _ ih => exact removeComponent_INV s id ty ih
  | setPar s e p _ ih => exact setParent_INV s e p ih
  | clearOp s _ _ => exact INV_init
  | deser reg s doc _ hreg _ => exact deserialize_INV reg s doc hreg

/-- Stores reachable through the public API with no discipline at all:
any registry, any component data. -/
inductive Reach : EMState → Prop where
  | init : Reach initEM
  | create (s : EMState) : Reach s → Reach (createEntity s).2
  | removeEnt (s : EMState) (id : Int) : Reach s →
      Reach (removeEntityTop s id).2
  | addComp (reg : Registry) (s : EMState) (id : Int) (ty : String)
      (data : Fields) : Reach s → Reach (addComponent reg s id ty data).2
  | removeComp (s : EMState) (id : Int) (ty : String) : Reach s →
      Reach (removeComponent s id ty).2
  | setPar (s : EMState) (e : Int) (p : Option Int) : Reach s →
      Reach (setParent s e p).2
  | clearOp (s : EMState) : Reach s → Reach (clear s)
  | deser (reg : Registry) (s : EMState) (doc : SceneDoc) : Reach s →
      Reach (deserialize reg s doc).2

/-- Every store reachable through the public API — even with
hierarchy-breaking calls — satisfies the weak invariant. -/
theorem Reach_WI : ∀ s : EMState, Reach s → WI s := by
  intro s h
  induction h with
  | init => exact WI_init
  | create s _ ih => exact createEntity_WI s ih
  | removeEnt s id _ ih => exact removeEntityTop_WI s id ih
  | addComp reg s id ty data _ ih => exact addComponent_WI reg s id ty data ih
  | removeComp s id ty _ ih => exact removeComponent_WI s id ty ih
  | setPar s e p _ ih => exact setParent_WI s e p ih
  | clearOp s _ _ => exact WI_init
  | deser reg s doc _ _ => exact deserialize_WI reg s doc

/-! ## A concrete demonstration store -/

/-- A registry binding only the reserved hierarchy type. -/
def regT : Registry := fun ty =>
  if ty = "transform" then some CompSpec.transformSpec else none

theorem regT_ok : RegOk regT := Or.inl rfl

/-- Entities 1 and 2, both with transforms, 2 parented under 1. -/
def demoEM : EMState :=
  (setParent (addComponent regT (addComponent regT
    (createEntity (createEntity initEM).2).2 1 "transform" []).2
    2 "transform" []).2 2 (some 1)).2

theorem demoEM_reachS : ReachS demoEM :=
  ReachS.setPar _ 2 (some 1)
    (ReachS.addComp regT _ 2 "transform" []
      (ReachS.addComp regT _ 1 "transform" []
        (ReachS.create _ (ReachS.create _ ReachS.init))
        regT_ok (fun _ _ => ⟨rfl, rfl⟩))
      regT_ok (fun _ _ => ⟨rfl, rfl⟩))

theorem demoEM_reach : Reach demoEM :=
  Reach.setPar _ 2 (some 1)
    (Reach.addComp regT _ 2 "transform" []
      (Reach.addComp regT _ 1 "transform" []
        (Reach.create _ (Reach.create _ Reach.init))))

/-! ## Evaluating `String.trim` on the reserved name

`String.trim` is defined through well-founded recursion and does not
reduce definitionally, so concrete runs are evaluated through the
equation lemmas once and for all. -/

theorem trim_transform : "transform".trim = "transform" := by
  have h1 : Substring.takeWhileAux "transform" "transform".endPos
      Char.isWhitespace ⟨0⟩ = ⟨0⟩ := by
    rw [Substring.takeWhileAux.eq_def]
    rw [dif_pos (by decide)]
    rw [if_neg (by decide)]
  have h2 : Substring.takeRightWhileAux "transform" ⟨0⟩
      Char.isWhitespace "transform".endPos = "transform".endPos := by
    rw [Substring.takeRightWhileAux.eq_def]
    rw [dif_pos (by decide)]
    dsimp only
    rw [if_pos (by decide)]
  show ("transform".toSubstring.trim).toString = "transform"
  unfold Substring.trim
  dsimp only [String.toSubstring]
  rw [h1, h2]
  rfl

theorem trim_transform_ne : ¬(("transform" : String).trim = "") := by
  rw [trim_transform]
  decide

/-- The body of `addComponent` after the non-empty-type guard; equal to
`addComponent` whenever the type name survives trimming
(`addComponent_eq_body`), and free of `String.trim`, so concrete calls
reduce definitionally. -/
def addComponentB (reg : Registry) (s : EMState) (id : Int) (ty : String)
    (data : Fields) : Option Comp × EMState :=
  if hasEntity s id = false then (none, s)
  else
    match reg ty with
    | none => (none, s)
    | some spec =>
      let componentData := data.filter (fun kv => kv.1 ≠ "source")
      match getComp s id ty with
      | none =>
        match spec with
        | .transformSpec =>
          match mkTransform componentData with
          | none => (none, s)
          | some t =>
            let c := Comp.transform t
            (some c, indexAdd (setComp s id ty c) ty id)
        | .dataSpec build ser =>
          let c := Comp.data ser (build componentData)
          (some c, indexAdd (setComp s id ty c) ty id)
      | some c₀ =>
        let acc := componentData.foldl
          (fun (acc : Comp × Option Value) kv =>
            if ty = "transform" ∧ kv.1 = "parent" then (acc.1, some kv.2)
            else if ty = "transform" ∧ kv.1 = "children" then acc
            else (updateCompField acc.1 kv.1 kv.2, acc.2))
          (c₀, none)
        let c₁ := acc.1
        let s₁ := setComp s id ty c₁
        let s₂ :=
          match acc.2 with
          | none => s₁
          | some v =>
            match c₁ with
            | .transform t =>
              if parentEqVal t.parent v then s₁
              else
                match v with
                | .num n => (setParent s₁ id (some n)).2
                | .nul => (setParent s₁ id none).2
                | _ => s₁
            | .data _ _ => s₁
        (some c₁, s₂)

theorem addComponent_eq_body (reg : Registry) (s : EMState) (id : Int)
    (ty : String) (data : Fields) (h : ¬(ty.trim = "")) :
    addComponent reg s id ty data = addComponentB reg s id ty data := by
  unfold addComponent addComponentB
  rw [if_neg h]

/-- The child entity of the demonstration store carries the default
transform parented under 1. -/
theorem demoEM_gt2 : getTransform demoEM 2 =
    some ⟨[Value.num 0, Value.num 0, Value.num 0],
      [Value.num 0, Value.num 0, Value.num 0],
      [Value.num 1, Value.num 1, Value.num 1], some 1, []⟩ := by
  unfold demoEM
  rw [addComponent_eq_body regT (createEntity (createEntity initEM).2).2
    1 "transform" [] trim_transform_ne]
  rw [addComponent_eq_body regT _ 2 "transform" [] trim_transform_ne]
  rfl

/-- One parent step in the demonstration store climbs from 2 to 1. -/
theorem demoEM_step : psteps demoEM 1 (some 2) = some 1 := by
  show (getTransform demoEM 2).bind Transform.parent = some 1
  rw [demoEM_gt2]
  rfl

/-! ## Claim C1 -/

/-- Claim C1 (counterexample): installing a brand-new transform through
`addComponent` writes the supplied `parent` field directly into the
component, so a single public call yields a transform whose parent 999
is not a live entity and has no child set containing the entity — the
parent/child invariant does not hold after every public operation. -/
theorem C1_counterexample :
    (getTransform (addComponent regT (createEntity initEM).2 1 "transform"
        [("parent", Value.num 999)]).2 1).map Transform.parent =
      some (some 999) ∧
    hasEntity (addComponent regT (createEntity initEM).2 1 "transform"
        [("parent", Value.num 999)]).2 999 = false := by
  rw [addComponent_eq_body regT (createEntity initEM).2 1 "transform"
    [("parent", Value.num 999)] trim_transform_ne]
  exact ⟨rfl, rfl⟩

/-- Claim C1 (amended): in every store reachable under the usage
discipline (`ReachS`: the reserved name registered to the transform
class, new hierarchy components never seeded with `parent`/`children`
data), every transform with a non-null parent P has P live, P holding a
hierarchy component, and the entity in P's child set; and every parent
chain terminates, so the graph is an acyclic forest (each entity stores
at most one parent, roots store null). -/
theorem C1_amended_hierarchy_forest (s : EMState) (h : ReachS s) :
    (∀ (e : Int) (t : Transform) (p : Int), getTransform s e = some t →
        t.parent = some p →
      hasEntity s p = true ∧ hasComp s p "transform" = true ∧
      ∃ pt, getTransform s p = some pt ∧ e ∈ pt.children) ∧
    (∀ e : Int, ∃ n : Nat, psteps s n (some e) = none) := by
  obtain ⟨hw, hh, hx⟩ := ReachS_INV s h
  constructor
  · intro e t p ht hp
    obtain ⟨hpl, pt, hpt, hmem⟩ := hh.parentOk e t p ht hp
    refine ⟨hpl, ?_, pt, hpt, hmem⟩
    unfold hasComp
    rw [getTransform_eq_comp s p pt hpt]
    rfl
  · exact hh.terminating

theorem C1_amended_hierarchy_forest_witness :
    hasEntity demoEM 1 = true ∧ hasComp demoEM 1 "transform" = true ∧
    (∃ pt, getTransform demoEM 1 = some pt ∧ 2 ∈ pt.children) := by
  have h := (C1_amended_hierarchy_forest demoEM demoEM_reachS).1 2
    ⟨[Value.num 0, Value.num 0, Value.num 0],
     [Value.num 0, Value.num 0, Value.num 0],
     [Value.num 1, Value.num 1, Value.num 1], some 1, []⟩ 1 demoEM_gt2 rfl
  exact ⟨h.1, h.2.1, h.2.2⟩

/-! ## Claim C3 witness -/

theorem C3_setParent_cycle_rejected_no_partial_effect_witness :
    INV demoEM ∧ psteps demoEM 1 (some 2) = some 1 ∧
    (setParent demoEM 1 (some 2)).1 = false ∧
    (setParent demoEM 1 (some 2)).2 = demoEM := by
  have h := C3_setParent_cycle_rejected_no_partial_effect.2 demoEM 1 2 1
    (ReachS_INV demoEM demoEM_reachS) demoEM_step
  exact ⟨ReachS_INV demoEM demoEM_reachS, demoEM_step, h.1, h.2⟩

/-! ## Claim C4 -/

/-- Claim C4: in every store reachable through the public API — in
particular after any sequence of `addComponent`/`removeComponent` calls
from any reachable state, with no usage discipline — the list returned
by `getEntitiesWithComponent(T)` is duplicate-free and contains exactly
the live entities `e` with `hasComponent(e, T)`. -/
theorem C4_index_matches_components (s : EMState) (h : Reach s) :
    ∀ (ty : String) (e : Int),
      (e ∈ getEntitiesWithComponent s ty ↔ hasComp s e ty = true) ∧
      (getEntitiesWithComponent s ty).Nodup := by
  obtain ⟨_, _, hx⟩ := Reach_WI s h
  intro ty e
  constructor
  · unfold getEntitiesWithComponent
    by_cases ht : ty.trim = ""
    · rw [if_pos ht]
      constructor
      · intro hmem
        exact absurd hmem (List.not_mem_nil e)
      · intro hb
        exact absurd ht (hx.tyValid e ty hb)
    · rw [if_neg ht]
      exact hx.mem ty e
  · unfold getEntitiesWithComponent
    by_cases ht : ty.trim = ""
    · rw [if_pos ht]
      exact List.nodup_nil
    · rw [if_neg ht]
      cases hmi : mapGet s.index ty with
      | none =>
        show (Option.getD none []).Nodup
        exact List.nodup_nil
      | some l =>
        show (Option.getD (some l) []).Nodup
        exact hx.nodupSets ty l hmi

theorem C4_index_matches_components_witness :
    (1 ∈ getEntitiesWithComponent demoEM "transform" ↔
      hasComp demoEM 1 "transform" = true) ∧
    (getEntitiesWithComponent demoEM "transform").Nodup :=
  C4_index_matches_components demoEM demoEM_reach "transform" 1

/-! ## Claim C2 -/

/-- Claim C2 (counterexample): on a brand-new transform, `addComponent`
does not delegate the `parent` field to `setParent` — the constructor
writes it directly.  Seeding a new transform on entity 1 with
`parent = 1` stores a self-parent, which `setParent` can never produce;
the same data applied to an existing transform is delegated and
rejected, leaving the parent null. -/
theorem C2_counterexample :
    (getTransform (addComponent regT (createEntity initEM).2 1 "transform"
        [("parent", Value.num 1)]).2 1).map Transform.parent =
      some (some 1) ∧
    (getTransform (addComponent regT (addComponent regT
        (createEntity initEM).2 1 "transform" []).2 1 "transform"
        [("parent", Value.num 1)]).2 1).map Transform.parent =
      some none := by
  rw [addComponent_eq_body regT (createEntity initEM).2 1 "transform"
    [("parent", Value.num 1)] trim_transform_ne]
  rw [addComponent_eq_body regT (createEntity initEM).2 1 "transform" []
    trim_transform_ne]
  rw [addComponent_eq_body regT (addComponentB regT (createEntity initEM).2
    1 "transform" []).2 1 "transform" [("parent", Value.num 1)]
    trim_transform_ne]
  exact ⟨rfl, rfl⟩

/-- Claim C2 (amended): the delegation holds on the update path only.
When the entity already holds a transform, `addComponent` leaves every
entity's parent and child set untouched except through a final
`setParent` call: the merge intercepts `parent`/`children`, so there is
a merged store `s₁` hierarchy-identical to `s` such that the result is
`s₁` itself or `setParent s₁ id p'` for the intercepted parent `p'`.  A
brand-new transform instead gets its `parent` written directly by the
constructor (see the counterexample). -/
theorem C2_amended_update_delegates_to_setParent (reg : Registry)
    (s : EMState) (id : Int) (data : Fields) (t₀ : Transform)
    (hgc0 : getComp s id "transform" = some (Comp.transform t₀))
    (hlive : hasEntity s id = true) :
    ∃ s₁ : EMState,
      (∀ j : Int, hierProj s₁ j = hierProj s j) ∧
      ((addComponent reg s id "transform" data).2 = s₁ ∨
       ∃ p' : Option Int, (addComponent reg s id "transform" data).2 =
         (setParent s₁ id p').2) := by
  rw [addComponent_eq_body reg s id "transform" data trim_transform_ne]
  unfold addComponentB
  have h2 : ¬(hasEntity s id = false) := by
    rw [hlive]
    intro hc
    cases hc
  rw [if_neg h2]
  cases hrty : reg "transform" with
  | none => exact ⟨s, fun j => rfl, Or.inl rfl⟩
  | some spec =>
    dsimp only
    rw [hgc0]
    dsimp only
    obtain ⟨t₁, hfold1, hp₁, hch₁⟩ := mergeFold_hier
      (data.filter (fun kv => kv.1 ≠ "source")) (Comp.transform t₀) none t₀
      rfl
    have hm0 : (mapGet s.comps id).isSome = true :=
      getComp_some_entry s id "transform" _ hgc0
    set c₁ := ((data.filter (fun kv => kv.1 ≠ "source")).foldl
      (fun (acc : Comp × Option Value) kv =>
        if ("transform" : String) = "transform" ∧ kv.1 = "parent" then
          (acc.1, some kv.2)
        else if ("transform" : String) = "transform" ∧
            kv.1 = "children" then acc
        else (updateCompField acc.1 kv.1 kv.2, acc.2))
      (Comp.transform t₀, none)).1 with hc₁
    have hgc : ∀ (x : Int) (tyx : String),
        getComp (setComp s id "transform" c₁) x tyx =
          if x = id ∧ tyx = "transform" then some c₁ else getComp s x tyx := by
      intro x tyx
      by_cases hxx : x = id ∧ tyx = "transform"
      · rw [if_pos hxx, hxx.1, hxx.2]
        exact getComp_setComp_self s id "transform" c₁ hlive hm0
      · rw [if_neg hxx]
        apply getComp_setComp_other
        by_cases hxi : x = id
        · exact Or.inr fun h3 => hxx ⟨hxi, h3⟩
        · exact Or.inl hxi
    have hproj : ∀ j : Int,
        hierProj (setComp s id "transform" c₁) j = hierProj s j := by
      intro j
      unfold hierProj getTransform
      rw [hgc j "transform"]
      by_cases hxx : j = id ∧ ("transform" : String) = "transform"
      · rw [if_pos hxx]
        have hrhs : getComp s j "transform" = some (Comp.transform t₀) := by
          rw [hxx.1]
          exact hgc0
        rw [hrhs, hfold1]
        simp [hp₁, hch₁]
      · rw [if_neg hxx]
    refine ⟨setComp s id "transform" c₁, hproj, ?_⟩
    split
    · exact Or.inl rfl
    · rename_i v hv
      rw [hfold1]
      dsimp only
      by_cases hpe : parentEqVal t₁.parent v = true
      · rw [if_pos hpe]
        exact Or.inl rfl
      · rw [if_neg hpe]
        cases v with
        | num n => exact Or.inr ⟨some n, rfl⟩
        | nul => exact Or.inr ⟨none, rfl⟩
        | str a => exact Or.inl rfl
        | boolean b => exact Or.inl rfl
        | arr xs => exact Or.inl rfl

/-- A one-entity store with a default root transform. -/
def demoBase : EMState :=
  ⟨2, [1], [(1, [("transform", Comp.transform
    ⟨[Value.num 0, Value.num 0, Value.num 0],
     [Value.num 0, Value.num 0, Value.num 0],
     [Value.num 1, Value.num 1, Value.num 1], none, []⟩)])],
   [("transform", [1])]⟩

theorem C2_amended_update_delegates_to_setParent_witness :
    ∃ s₁ : EMState,
      (∀ j : Int, hierProj s₁ j = hierProj demoBase j) ∧
      ((addComponent regT demoBase 1 "transform"
          [("parent", Value.num 1)]).2 = s₁ ∨
       ∃ p' : Option Int, (addComponent regT demoBase 1 "transform"
          [("parent", Value.num 1)]).2 = (setParent s₁ 1 p').2) :=
  C2_amended_update_delegates_to_setParent regT demoBase 1
    [("parent", Value.num 1)]
    ⟨[Value.num 0, Value.num 0, Value.num 0],
     [Value.num 0, Value.num 0, Value.num 0],
     [Value.num 1, Value.num 1, Value.num 1], none, []⟩
    rfl rfl

/-! ## Claim C5: round-trip machinery

`deserialize (serializeEM s)` is analysed in stages: restoring one
serialized component, restoring one entity, pass 1 over the whole
document, then pass 2 re-parenting. -/

/-- The component that restoring the serialized form of `c` under type
name `ty` stores: a transform keeps its payload, loses its children, and
(for the reserved name only) has its parent stripped for pass 2;
a data component is rebuilt by the registered constructor. -/
def reComp (reg : Registry) (ty : String) (c : Comp) : Comp :=
  match c, reg ty with
  | .transform t, _ =>
    .transform ⟨t.position, t.rotation, t.scale,
      if ty = "transform" then none else t.parent, []⟩
  | .data sr f, some (.dataSpec b sr₂) =>
    .data sr₂ (b ((sr f).filter (fun kv => kv.1 ≠ "source")))
  | c, _ => c

/-- A stored component is compatible with the registry: transforms sit
under a name registered to the transform class, data components under
their own class, whose constructor/serializer round-trip on the
serialized record. -/
def CompCompat (reg : Registry) (ty : String) : Comp → Prop
  | .transform _ => reg ty = some CompSpec.transformSpec
  | .data sr f => ∃ b sr₂, reg ty = some (CompSpec.dataSpec b sr₂) ∧
      sr₂ (b ((sr f).filter (fun kv => kv.1 ≠ "source"))) = sr f

/-- Every component of the store is registry-compatible. -/
def RegCompat (reg : Registry) (s : EMState) : Prop :=
  ∀ (e : Int) (ty : String) (c : Comp), getComp s e ty = some c →
    CompCompat reg ty c

/-- Rebuilding a transform from its serialized record with
`parent`/`children` stripped gives the payload back as a childless
root. -/
theorem mkTransform_strip (t : Transform) :
    mkTransform (((serializeTransform t).filter
      (fun kv => kv.1 ≠ "parent" ∧ kv.1 ≠ "children")).filter
      (fun kv => kv.1 ≠ "source")) =
    some ⟨t.position, t.rotation, t.scale, none, []⟩ := rfl

/-- Rebuilding a transform from its full serialized record restores the
payload and the parent, with no children (children are never
serialized). -/
theorem mkTransform_full (t : Transform) :
    mkTransform ((serializeTransform t).filter
      (fun kv => kv.1 ≠ "source")) =
    some ⟨t.position, t.rotation, t.scale, t.parent, []⟩ := by
  unfold serializeTransform
  cases hp : t.parent with
  | none => rfl
  | some p => rfl

/-- Restoring one serialized component on an entity that does not yet
have the type installs exactly `reComp` and touches nothing else. -/
theorem addComponent_restore (reg : Registry) (s : EMState) (id : Int)
    (ty : String) (c : Comp) (hlive : hasEntity s id = true)
    (hfresh : getComp s id ty = none) (htrim : ¬(ty.trim = ""))
    (hc : CompCompat reg ty c)
    (hnd : ty = "transform" → ∃ t, c = Comp.transform t) :
    addComponent reg s id ty
      (if ty = "transform" then
        (serializeComp c).filter
          (fun kv => kv.1 ≠ "parent" ∧ kv.1 ≠ "children")
      else serializeComp c) =
    (some (reComp reg ty c),
     indexAdd (setComp s id ty (reComp reg ty c)) ty id) := by
  rw [addComponent_eq_body _ _ _ _ _ htrim]
  unfold addComponentB
  rw [if_neg (by rw [hlive]; intro hcc; cases hcc)]
  cases c with
  | transform t =>
    have hr : reg ty = some CompSpec.transformSpec := hc
    rw [hr]
    dsimp only
    rw [hfresh]
    dsimp only
    have hre : reComp reg ty (Comp.transform t) =
        Comp.transform ⟨t.position, t.rotation, t.scale,
          if ty = "transform" then none else t.parent, []⟩ := by
      unfold reComp
      cases reg ty <;> rfl
    by_cases hty : ty = "transform"
    · subst hty
      rw [if_pos rfl]
      show (match mkTransform (((serializeTransform t).filter
          (fun kv => kv.1 ≠ "parent" ∧ kv.1 ≠ "children")).filter
          (fun kv => kv.1 ≠ "source")) with
        | none => (none, s)
        | some t2 =>
          (some (Comp.transform t2),
           indexAdd (setComp s id "transform" (Comp.transform t2))
             "transform" id)) = _
      rw [mkTransform_strip t, hre, if_pos rfl]
    · rw [if_neg hty]
      show (match mkTransform ((serializeTransform t).filter
          (fun kv => kv.1 ≠ "source")) with
        | none => (none, s)
        | some t2 =>
          (some (Comp.transform t2),
           indexAdd (setComp s id ty (Comp.transform t2)) ty id)) = _
      rw [mkTransform_full t, hre, if_neg hty]
  | data sr f =>
    obtain ⟨b, sr₂, hr, _⟩ := hc
    have hnt : ¬(ty = "transform") := by
      intro hty
      obtain ⟨t, hct⟩ := hnd hty
      cases hct
    rw [if_neg hnt, hr]
    dsimp only
    rw [hfresh]
    dsimp only
    have hre : reComp reg ty (Comp.data sr f) =
        Comp.data sr₂ (b ((sr f).filter (fun kv => kv.1 ≠ "source"))) := by
      unfold reComp
      rw [hr]
    rw [hre]
    rfl

theorem mapGet_append {α β : Type} [DecidableEq α]
    (l₁ l₂ : List (α × β)) (k : α) :
    mapGet (l₁ ++ l₂) k =
      match mapGet l₁ k with
      | some v => some v
      | none => mapGet l₂ k := by
  induction l₁ with
  | nil => rfl
  | cons kv rest ih =>
    obtain ⟨a, b⟩ := kv
    show (if a = k then some b else mapGet (rest ++ l₂) k) = _
    by_cases hak : a = k
    · rw [if_pos hak]
      show _ = (match (if a = k then some b else mapGet rest k) with
        | some v => some v
        | none => mapGet l₂ k)
      rw [if_pos hak]
    · rw [if_neg hak, ih]
      show _ = (match (if a = k then some b else mapGet rest k) with
        | some v => some v
        | none => mapGet l₂ k)
      rw [if_neg hak]

theorem mapSet_append {α β : Type} [DecidableEq α]
    (l : List (α × β)) (a : α) (b : β) (h : mapGet l a = none) :
    mapSet l a b = l ++ [(a, b)] := by
  induction l with
  | nil => rfl
  | cons kv rest ih =>
    obtain ⟨k, v⟩ := kv
    show (if k = a then (k, b) :: rest else (k, v) :: mapSet rest a b) = _
    have hka : ¬(k = a) := by
      intro hka
      unfold mapGet at h
      rw [if_pos hka] at h
      cases h
    rw [if_neg hka, ih]
    · rfl
    · unfold mapGet at h
      rw [if_neg hka] at h
      exact h

theorem mapGet_map_values {α β γ : Type} [DecidableEq α]
    (f : α → β → γ) :
    ∀ (m : List (α × β)) (k : α),
    mapGet (m.map (fun kv => (kv.1, f kv.1 kv.2))) k =
      (mapGet m k).map (f k) := by
  intro m
  induction m with
  | nil => intro k; rfl
  | cons kv rest ih =>
    intro k
    obtain ⟨a, b⟩ := kv
    show (if a = k then some (f a b) else
      mapGet (rest.map (fun kv => (kv.1, f kv.1 kv.2))) k) = _
    by_cases hak : a = k
    · rw [if_pos hak]
      show _ = (if a = k then some b else mapGet rest k).map (f k)
      rw [if_pos hak, hak]
      rfl
    · rw [if_neg hak, ih k]
      show _ = (if a = k then some b else mapGet rest k).map (f k)
      rw [if_neg hak]

theorem mapGet_of_mem_nodup {α β : Type} [DecidableEq α] :
    ∀ (m : List (α × β)) (k : α) (v : β),
    (m.map Prod.fst).Nodup → (k, v) ∈ m → mapGet m k = some v := by
  intro m
  induction m with
  | nil =>
    intro k v _ hm
    cases hm
  | cons kv rest ih =>
    intro k v hnd hm
    obtain ⟨a, b⟩ := kv
    rw [List.map_cons] at hnd
    have hnd2 := List.nodup_cons.mp hnd
    rcases List.mem_cons.mp hm with heq | hmem
    · injection heq with h1 h2
      subst h1
      subst h2
      show (if k = k then some v else mapGet rest k) = some v
      rw [if_pos rfl]
    · have hak : ¬(a = k) := by
        intro hak
        subst hak
        exact hnd2.1 (List.mem_map.mpr ⟨(a, v), hmem, rfl⟩)
      show (if a = k then some b else mapGet rest k) = some v
      rw [if_neg hak]
      exact ih k v hnd2.2 hmem

/-- Restoring the serialized components of one entity: every component
is reinstalled as `reComp`, appended in order to the entity's map, with
no failures and nothing else touched. -/
theorem restoreComps_restore (reg : Registry) (id : Int) :
    ∀ (m m₀ : List (String × Comp)) (s : EMState),
    hasEntity s id = true →
    mapGet s.comps id = some m₀ →
    (∀ ty c, (ty, c) ∈ m → CompCompat reg ty c) →
    (∀ ty c, (ty, c) ∈ m → ¬(ty.trim = "")) →
    (∀ ty c, (ty, c) ∈ m → ty = "transform" → ∃ t, c = Comp.transform t) →
    (∀ ty c, (ty, c) ∈ m → mapGet m₀ ty = none) →
    (m.map Prod.fst).Nodup →
    (restoreComps reg s id (m.map (fun kv =>
      (kv.1, serializeComp kv.2)))).1 = 0 ∧
    ((restoreComps reg s id (m.map (fun kv =>
      (kv.1, serializeComp kv.2)))).2).entities = s.entities ∧
    (∀ x : Int, x ≠ id →
      mapGet ((restoreComps reg s id (m.map (fun kv =>
        (kv.1, serializeComp kv.2)))).2).comps x = mapGet s.comps x) ∧
    mapGet ((restoreComps reg s id (m.map (fun kv =>
      (kv.1, serializeComp kv.2)))).2).comps id =
      some (m₀ ++ m.map (fun kv => (kv.1, reComp reg kv.1 kv.2))) := by
  intro m
  induction m with
  | nil =>
    intro m₀ s hlive hm₀ _ _ _ _ _
    refine ⟨rfl, rfl, fun x _ => rfl, ?_⟩
    show mapGet s.comps id = some (m₀ ++
      List.map (fun kv : String × Comp => (kv.1, reComp reg kv.1 kv.2))
        ([] : List (String × Comp)))
    rw [hm₀]
    simp
  | cons tyc rest ih =>
    intro m₀ s hlive hm₀ hcompat htrim hslot hfresh hnd
    obtain ⟨ty, c⟩ := tyc
    have hcompat0 : CompCompat reg ty c :=
      hcompat ty c (List.mem_cons_self _ _)
    have hspec : ∃ spec, reg ty = some spec := by
      cases c with
      | transform t => exact ⟨_, hcompat0⟩
      | data sr f =>
        obtain ⟨b, sr₂, hr, _⟩ := hcompat0
        exact ⟨_, hr⟩
    obtain ⟨spec, hspec⟩ := hspec
    have hgc : getComp s id ty = none := by
      unfold getComp
      rw [hlive, if_pos rfl, hm₀]
      exact hfresh ty c (List.mem_cons_self _ _)
    have hadd := addComponent_restore reg s id ty c hlive hgc
      (htrim ty c (List.mem_cons_self _ _)) hcompat0
      (hslot ty c (List.mem_cons_self _ _))
    have hstep : restoreComps reg s id
        (((ty, c) :: rest).map (fun kv => (kv.1, serializeComp kv.2))) =
        restoreComps reg
          (indexAdd (setComp s id ty (reComp reg ty c)) ty id) id
          (rest.map (fun kv => (kv.1, serializeComp kv.2))) := by
      show (((ty, serializeComp c) ::
        rest.map (fun kv => (kv.1, serializeComp kv.2))).foldl _ (0, s)) = _
      rw [List.foldl_cons]
      dsimp only
      rw [hspec]
      dsimp only [Option.isNone]
      rw [if_neg (fun hcc => Bool.false_ne_true hcc)]
      rw [hadd]
      rfl
    rw [hstep]
    set st := indexAdd (setComp s id ty (reComp reg ty c)) ty id with hst
    have hstents : st.entities = s.entities := by
      rw [hst, (indexAdd_keeps (setComp s id ty (reComp reg ty c)) ty id).1,
        (setComp_shell s id ty (reComp reg ty c)).1]
    have hstcomps : st.comps = (setComp s id ty (reComp reg ty c)).comps :=
      (indexAdd_keeps (setComp s id ty (reComp reg ty c)) ty id).2.2
    have hsc : (setComp s id ty (reComp reg ty c)).comps =
        mapSet s.comps id (mapSet m₀ ty (reComp reg ty c)) := by
      unfold setComp
      rw [hm₀]
    have hstid : mapGet st.comps id =
        some (m₀ ++ [(ty, reComp reg ty c)]) := by
      rw [hstcomps, hsc, mapGet_set_self,
        mapSet_append m₀ ty _ (hfresh ty c (List.mem_cons_self _ _))]
    have hstx : ∀ x : Int, x ≠ id →
        mapGet st.comps x = mapGet s.comps x := by
      intro x hx
      rw [hstcomps, hsc, mapGet_set_ne s.comps id x _ hx]
    have hndr : (rest.map Prod.fst).Nodup :=
      (List.nodup_cons.mp (by simpa using hnd)).2
    have hty_not : ty ∉ rest.map Prod.fst :=
      (List.nodup_cons.mp (by simpa using hnd)).1
    obtain ⟨r1, r2, r3, r4⟩ := ih (m₀ ++ [(ty, reComp reg ty c)]) st
      (by show decide (id ∈ st.entities) = true
          rw [hstents]
          exact hlive)
      hstid
      (fun ty2 c2 hm2 => hcompat ty2 c2 (List.mem_cons_of_mem _ hm2))
      (fun ty2 c2 hm2 => htrim ty2 c2 (List.mem_cons_of_mem _ hm2))
      (fun ty2 c2 hm2 => hslot ty2 c2 (List.mem_cons_of_mem _ hm2))
      (fun ty2 c2 hm2 => by
        rw [mapGet_append]
        rw [hfresh ty2 c2 (List.mem_cons_of_mem _ hm2)]
        have hne : ¬(ty = ty2) := by
          intro he
          exact hty_not (he ▸ List.mem_map.mpr ⟨(ty2, c2), hm2, rfl⟩)
        show mapGet [(ty, reComp reg ty c)] ty2 = none
        unfold mapGet
        rw [if_neg hne]
        rfl)
      hndr
    refine ⟨r1, ?_, ?_, ?_⟩
    · rw [r2, hstents]
    · intro x hx
      rw [r3 x hx, hstx x hx]
    · rw [r4]
      simp

theorem jsSetAdd_fresh {α : Type} [DecidableEq α] (l : List α) (x : α)
    (h : x ∉ l) : jsSetAdd l x = l ++ [x] := by
  unfold jsSetAdd
  rw [if_neg h]

theorem restoreBase_fresh (s : EMState) (id : Int)
    (h : hasEntity s id = false) :
    restoreBase s id = { s with
      entities := jsSetAdd s.entities id
      comps := mapSet s.comps id []
      nextEntityId := if s.nextEntityId ≤ id then id + 1
        else s.nextEntityId } := by
  unfold restoreBase
  rw [if_neg (by rw [h]; intro hc; cases hc)]

/-- Pass 1 on a document whose entries are the serialized states of live
entities of `s` with fresh ids: every entity is recreated with its
components restored as `reComp`, appended in document order. -/
theorem pass1_restore (reg : Registry) (s : EMState) :
    ∀ (doc : SceneDoc) (st : EMState) (hi : Int) (R : List Int) (f₀ : Nat),
    st.entities = R →
    (∀ x, x ∈ doc.map Prod.fst → x ∉ R) →
    (doc.map Prod.fst).Nodup →
    (∀ x, x ∈ doc.map Prod.fst → mapGet st.comps x = none) →
    (∀ id cs, (id, cs) ∈ doc → hasEntity s id = true ∧
      ∃ m, mapGet s.comps id = some m ∧
        cs = m.map (fun kv => (kv.1, serializeComp kv.2)) ∧
        (m.map Prod.fst).Nodup ∧
        (∀ ty c, (ty, c) ∈ m → CompCompat reg ty c) ∧
        (∀ ty c, (ty, c) ∈ m → ¬(ty.trim = "")) ∧
        (∀ ty c, (ty, c) ∈ m → ty = "transform" →
          ∃ t, c = Comp.transform t)) →
    ((doc.foldl
      (fun acc ent =>
        let st₁ := restoreBase acc.1 ent.1
        let r := restoreComps reg st₁ ent.1 ent.2
        if r.1 = 0 then
          (r.2, max acc.2.1 ent.1, jsSetAdd acc.2.2.1 ent.1, acc.2.2.2)
        else
          (r.2, acc.2.1, acc.2.2.1, acc.2.2.2 + 1))
      (st, hi, R, f₀)).1.entities = R ++ doc.map Prod.fst) ∧
    (∀ id cs, (id, cs) ∈ doc → ∃ m, mapGet s.comps id = some m ∧
      mapGet ((doc.foldl
        (fun acc ent =>
          let st₁ := restoreBase acc.1 ent.1
          let r := restoreComps reg st₁ ent.1 ent.2
          if r.1 = 0 then
            (r.2, max acc.2.1 ent.1, jsSetAdd acc.2.2.1 ent.1, acc.2.2.2)
          else
            (r.2, acc.2.1, acc.2.2.1, acc.2.2.2 + 1))
        (st, hi, R, f₀)).1.comps) id =
        some (m.map (fun kv => (kv.1, reComp reg kv.1 kv.2)))) ∧
    (∀ x : Int, x ∉ doc.map Prod.fst →
      mapGet ((doc.foldl
        (fun acc ent =>
          let st₁ := restoreBase acc.1 ent.1
          let r := restoreComps reg st₁ ent.1 ent.2
          if r.1 = 0 then
            (r.2, max acc.2.1 ent.1, jsSetAdd acc.2.2.1 ent.1, acc.2.2.2)
          else
            (r.2, acc.2.1, acc.2.2.1, acc.2.2.2 + 1))
        (st, hi, R, f₀)).1.comps) x = mapGet st.comps x) ∧
    ((doc.foldl
      (fun acc ent =>
        let st₁ := restoreBase acc.1 ent.1
        let r := restoreComps reg st₁ ent.1 ent.2
        if r.1 = 0 then
          (r.2, max acc.2.1 ent.1, jsSetAdd acc.2.2.1 ent.1, acc.2.2.2)
        else
          (r.2, acc.2.1, acc.2.2.1, acc.2.2.2 + 1))
      (st, hi, R, f₀)).2.2.1 = R ++ doc.map Prod.fst) := by
  intro doc
  induction doc with
  | nil =>
    intro st hi R f₀ hents _ _ _ _
    refine ⟨?_, ?_, ?_, ?_⟩
    · show st.entities = R ++ List.map Prod.fst ([] : SceneDoc)
      rw [hents]
      simp
    · intro id cs hm
      cases hm
    · intro x _
      rfl
    · show R = R ++ List.map Prod.fst ([] : SceneDoc)
      simp
  | cons ent rest ih =>
    intro st hi R f₀ hents hdisj hnd hfresh hfaith
    obtain ⟨id, cs⟩ := ent
    have hidmem : id ∈ ((id, cs) :: rest).map Prod.fst := by simp
    have hnotR : id ∉ R := hdisj id hidmem
    have hlive0 : hasEntity st id = false := by
      show decide (id ∈ st.entities) = false
      rw [hents]
      simp [hnotR]
    obtain ⟨hlives, m, hm, hcs, hmnd, hmcompat, hmtrim, hmslot⟩ :=
      hfaith id cs (List.mem_cons_self _ _)
    rw [List.foldl_cons]
    dsimp only
    set st₁ := restoreBase st id with hst₁
    have hrb := restoreBase_fresh st id hlive0
    have h1ents : st₁.entities = R ++ [id] := by
      rw [hst₁, hrb]
      show jsSetAdd st.entities id = _
      rw [hents]
      exact jsSetAdd_fresh R id hnotR
    have h1live : hasEntity st₁ id = true := by
      show decide (id ∈ st₁.entities) = true
      rw [h1ents]
      simp
    have h1compsid : mapGet st₁.comps id = some [] := by
      rw [hst₁, hrb]
      show mapGet (mapSet st.comps id []) id = some []
      rw [mapGet_set_self]
    have h1compsx : ∀ x : Int, x ≠ id →
        mapGet st₁.comps x = mapGet st.comps x := by
      intro x hx
      rw [hst₁, hrb]
      show mapGet (mapSet st.comps id []) x = _
      rw [mapGet_set_ne st.comps id x [] hx]
    rw [hcs]
    obtain ⟨r1, r2, r3, r4⟩ := restoreComps_restore reg id m [] st₁
      h1live h1compsid hmcompat hmtrim hmslot (fun ty c _ => rfl) hmnd
    rw [if_pos r1]
    set st₂ := (restoreComps reg st₁ id
      (m.map (fun kv => (kv.1, serializeComp kv.2)))).2 with hst₂
    rw [jsSetAdd_fresh R id hnotR]
    have h2ents : st₂.entities = R ++ [id] := by
      rw [hst₂, r2, h1ents]
    have h2compsid : mapGet st₂.comps id =
        some (m.map (fun kv => (kv.1, reComp reg kv.1 kv.2))) := by
      rw [hst₂, r4]
      simp
    have h2compsx : ∀ x : Int, x ≠ id →
        mapGet st₂.comps x = mapGet st.comps x := by
      intro x hx
      rw [hst₂, r3 x hx, h1compsx x hx]
    have hndrest : (rest.map Prod.fst).Nodup := by
      rw [List.map_cons] at hnd
      exact (List.nodup_cons.mp hnd).2
    have hidnotrest : id ∉ rest.map Prod.fst := by
      rw [List.map_cons] at hnd
      exact (List.nodup_cons.mp hnd).1
    obtain ⟨q1, q2, q3, q4⟩ := ih st₂ (max hi id) (R ++ [id]) f₀
      h2ents
      (by
        intro x hx
        rw [List.mem_append]
        rintro (hxr | hxi)
        · exact hdisj x (by simp [hx]) hxr
        · rw [List.mem_singleton] at hxi
          subst hxi
          exact hidnotrest hx)
      hndrest
      (by
        intro x hx
        have hxid : x ≠ id := by
          intro he
          subst he
          exact hidnotrest hx
        rw [h2compsx x hxid]
        exact hfresh x (by simp [hx]))
      (fun id2 cs2 hm2 => hfaith id2 cs2 (List.mem_cons_of_mem _ hm2))
    refine ⟨by rw [q1]; simp, ?_, ?_, by rw [q4]; simp⟩
    · intro id2 cs2 hm2
      rcases List.mem_cons.mp hm2 with heq | hmem
      · injection heq with he1 he2
        refine ⟨m, ?_, ?_⟩
        · rw [he1]
          exact hm
        · rw [he1, q3 id hidnotrest]
          exact h2compsid
      · exact q2 id2 cs2 hmem
    · intro x hx
      have hxrest : x ∉ rest.map Prod.fst := by
        intro hc
        exact hx (by simp [hc])
      have hxid : x ≠ id := by
        intro he
        subst he
        exact hx hidmem
      rw [q3 x hxrest, h2compsx x hxid]

/-- A walk answering `.cycle` exhibits a chain to the target. -/
theorem walk_cycle_hit_conv (s : EMState) (target : Int) :
    ∀ (fuel : Nat) (x : Option Int),
      walkAnc s target fuel x = WalkRes.cycle →
      ∃ k, psteps s k x = some target := by
  intro fuel
  induction fuel with
  | zero =>
    intro x hw
    cases x with
    | none => cases hw
    | some a => cases hw
  | succ m ih =>
    intro x hw
    cases x with
    | none => cases hw
    | some a =>
      rw [walkAnc] at hw
      by_cases hat : a = target
      · exact ⟨0, by show some a = some target; rw [hat]⟩
      · rw [if_neg hat] at hw
        cases hg : getTransform s a with
        | none =>
          rw [hg] at hw
          cases hw
        | some t =>
          rw [hg] at hw
          obtain ⟨k, hk⟩ := ih t.parent hw
          refine ⟨k + 1, ?_⟩
          show psteps s k (pstep s (some a)) = some target
          have hst : pstep s (some a) = t.parent := by
            show (getTransform s a).bind Transform.parent = t.parent
            rw [hg]
            rfl
          rw [hst]
          exact hk

/-- Chains ending on a live id transfer along pointwise sub-steps. -/
theorem psteps_mono_of_pstep_sub (s' s : EMState)
    (hsub : ∀ (y q : Int), pstep s' (some y) = some q →
      pstep s (some y) = some q) :
    ∀ (k : Nat) (a b : Int),
      psteps s' k (some a) = some b → psteps s k (some a) = some b := by
  intro k
  induction k with
  | zero =>
    intro a b h
    exact h
  | succ m ih =>
    intro a b h
    have h' : psteps s' m (pstep s' (some a)) = some b := h
    cases hp : pstep s' (some a) with
    | none =>
      rw [hp, psteps_none] at h'
      cases h'
    | some c =>
      rw [hp] at h'
      have hc := hsub a c hp
      show psteps s m (pstep s (some a)) = some b
      rw [hc]
      exact ih c b h'

/-- A terminating hierarchy admits no periodic chain. -/
theorem no_periodic (s : EMState) (hh : HierInv s) (x : Int) (j : Nat)
    (hj : 0 < j) (hcyc : psteps s j (some x) = some x) : False := by
  obtain ⟨n, hn⟩ := hh.terminating x
  have hm : ∀ m : Nat, psteps s (m * j) (some x) = some x := by
    intro m
    induction m with
    | zero =>
      rw [Nat.zero_mul]
      rfl
    | succ m2 ihm =>
      have : (m2 + 1) * j = m2 * j + j := by ring
      rw [this, psteps_add s (m2 * j) j (some x), ihm]
      exact hcyc
  have hge : n ≤ (n + 1) * j := by
    calc n ≤ (n + 1) * 1 := by omega
    _ ≤ (n + 1) * j := by
      exact Nat.mul_le_mul_left (n + 1) hj
  have hsplit : (n + 1) * j = n + ((n + 1) * j - n) := by omega
  have h1 := hm (n + 1)
  rw [hsplit, psteps_add s n ((n + 1) * j - n) (some x), hn,
    psteps_none] at h1
  cases h1

/-- In a pass-2 intermediate store (chains embedded in a terminating
original, child still a root), re-parenting along an original edge
succeeds and mutates through `spApply`. -/
theorem setParent_restore_ok (scur s : EMState) (hh2 : HierInv scur)
    (hhs : HierInv s) (x p : Int) (ctx : Transform)
    (hsub : ∀ (y q : Int), pstep scur (some y) = some q →
      pstep s (some y) = some q)
    (hxstep : pstep s (some x) = some p)
    (hlivex : hasEntity scur x = true) (hlivep : hasEntity scur p = true)
    (hgtx : getTransform scur x = some ctx) (hctp : ctx.parent = none)
    (hgtp : (getTransform scur p).isSome = true) :
    setParent scur x (some p) =
      (true, spApply scur x ctx.parent (some p)) := by
  have hpx : p ≠ x := by
    intro he
    subst he
    exact no_periodic s hhs p 1 (by omega) hxstep
  have hwalk : walkAnc scur x (scur.entities.length + 1) (some p) =
      WalkRes.ok := by
    have hnf : psteps scur (scur.entities.length + 1) (some p) = none := by
      have h1 : psteps scur scur.entities.length (some p) = none :=
        chain_bound_live scur hh2 p (by simpa [hasEntity] using hlivep)
      exact psteps_absorb scur scur.entities.length 1 (some p) h1
    have hnofo := walk_no_fuelOut scur x (scur.entities.length + 1)
      (some p) hnf
    have hnobr := walk_no_broken scur hh2 x (scur.entities.length + 1)
      (some p) (Or.inr ⟨p, rfl, hgtp⟩)
    have hnocy : walkAnc scur x (scur.entities.length + 1) (some p) ≠
        WalkRes.cycle := by
      intro hcy
      obtain ⟨k, hk⟩ := walk_cycle_hit_conv scur x
        (scur.entities.length + 1) (some p) hcy
      have hk2 : psteps s k (some p) = some x :=
        psteps_mono_of_pstep_sub scur s hsub k p x hk
      have hcyc : psteps s (1 + k) (some x) = some x := by
        rw [psteps_add s 1 k (some x)]
        have h1 : psteps s 1 (some x) = some p := hxstep
        rw [h1]
        exact hk2
      exact no_periodic s hhs x (1 + k) (by omega) hcyc
    cases hres : walkAnc scur x (scur.entities.length + 1) (some p) with
    | ok => rfl
    | cycle => exact absurd hres hnocy
    | broken => exact absurd hres hnobr
    | fuelOut => exact absurd hres hnofo
  unfold setParent
  rw [if_neg (by rw [hlivex]; intro hc; cases hc)]
  rw [if_neg (by
    show ¬((!hasEntity scur p) = true)
    rw [hlivep]
    intro hc
    cases hc)]
  rw [if_neg (by
    intro hc
    exact hpx (Option.some.inj hc))]
  rw [hgtx]
  dsimp only
  rw [if_neg (by
    show ¬((getTransform scur p).isNone = true)
    intro hc
    rw [Option.isNone_iff_eq_none] at hc
    rw [hc] at hgtp
    cases hgtp)]
  rw [if_neg (by
    rw [hctp]
    intro hc
    cases hc)]
  rw [hwalk]

/-- `spApply` on a root child: the child gains the parent, the parent
gains the child, nothing else changes. -/
theorem spApply_clean (scur : EMState) (x p : Int) (ctx pT : Transform)
    (hxp : x ≠ p)
    (hgtx : getTransform scur x = some ctx) (hctp : ctx.parent = none)
    (hgtp : getTransform scur p = some pT) :
    (spApply scur x ctx.parent (some p)).entities = scur.entities ∧
    (∀ (j : Int) (ty : String), ty ≠ "transform" →
      getComp (spApply scur x ctx.parent (some p)) j ty =
        getComp scur j ty) ∧
    (∀ j : Int, j ≠ x → j ≠ p →
      getTransform (spApply scur x ctx.parent (some p)) j =
        getTransform scur j) ∧
    getTransform (spApply scur x ctx.parent (some p)) p =
      some { pT with children := jsSetAdd pT.children x } ∧
    getTransform (spApply scur x ctx.parent (some p)) x =
      some { ctx with parent := some p } := by
  have hd : detachOld scur x ctx.parent (some p) = scur := by
    rw [hctp]
    rfl
  have ha : attachNew scur x (some p) =
      putTransform scur p { pT with children := jsSetAdd pT.children x } := by
    unfold attachNew
    dsimp only
    rw [hgtp]
  set pT₂ : Transform := { pT with children := jsSetAdd pT.children x }
    with hpT₂
  set s₁ := putTransform scur p pT₂ with hs₁
  have hs₁p : getTransform s₁ p = some pT₂ :=
    getTransform_put_self scur p pT pT₂ hgtp
  have hs₁x : getTransform s₁ x = some ctx := by
    rw [hs₁, getTransform_put_other scur p pT₂ x hxp]
    exact hgtx
  have hwp : writeParent s₁ x (some p) =
      putTransform s₁ x { ctx with parent := some p } := by
    unfold writeParent
    rw [hs₁x]
  set ctx₂ : Transform := { ctx with parent := some p } with hctx₂
  have hsp : spApply scur x ctx.parent (some p) =
      putTransform s₁ x ctx₂ := by
    unfold spApply
    rw [hd, ha]
    exact hwp
  rw [hsp]
  refine ⟨?_, ?_, ?_, ?_, ?_⟩
  · rw [(putTransform_shell s₁ x ctx₂).1, hs₁, (putTransform_shell scur p pT₂).1]
  · intro j ty hty
    rw [getComp_put_other s₁ x ctx₂ j ty (Or.inr hty), hs₁,
      getComp_put_other scur p pT₂ j ty (Or.inr hty)]
  · intro j hjx hjp
    rw [getTransform_put_other s₁ x ctx₂ j hjx, hs₁,
      getTransform_put_other scur p pT₂ j hjp]
  · rw [getTransform_put_other s₁ x ctx₂ p (fun hc => hxp hc.symm)]
    exact hs₁p
  · exact getTransform_put_self s₁ x ctx ctx₂ hs₁x

theorem mapGet_serialized (m : List (String × Comp)) :
    ∀ k : String,
    mapGet (m.map (fun kv => (kv.1, serializeComp kv.2))) k =
      (mapGet m k).map serializeComp := by
  induction m with
  | nil => intro k; rfl
  | cons kv rest ih =>
    intro k
    obtain ⟨a, b⟩ := kv
    show (if a = k then some (serializeComp b) else
      mapGet (rest.map (fun kv => (kv.1, serializeComp kv.2))) k) = _
    by_cases hak : a = k
    · rw [if_pos hak]
      show _ = (if a = k then some b else mapGet rest k).map serializeComp
      rw [if_pos hak]
      rfl
    · rw [if_neg hak, ih k]
      show _ = (if a = k then some b else mapGet rest k).map serializeComp
      rw [if_neg hak]

theorem mapGet_serializeTransform_parent (t : Transform) :
    mapGet (serializeTransform t) "parent" =
      some (match t.parent with
        | some p => Value.num p
        | none => Value.nul) := rfl

/-- Re-rooting a root to `null` is a successful no-op. -/
theorem setParent_none_noop (s : EMState) (e : Int)
    (hl : hasEntity s e = true) (ct : Transform)
    (hct : getTransform s e = some ct) (hp : ct.parent = none) :
    setParent s e none = (true, s) := by
  unfold setParent
  rw [if_neg (by rw [hl]; intro hc; cases hc)]
  rw [if_neg (fun hc => Bool.false_ne_true hc)]
  rw [if_neg (fun hc => Option.noConfusion hc)]
  rw [hct]
  dsimp only
  rw [if_neg (fun hc => Bool.false_ne_true hc)]
  rw [if_pos (by rw [hp])]

/-- One step of pass 2 of `deserialize`. -/
def pass2Step (doc : SceneDoc) (restored : List Int)
    (acc : Nat × EMState) (eid : Int) : Nat × EMState :=
  match mapGet doc eid with
  | none => acc
  | some comps =>
    match mapGet comps "transform" with
    | none => acc
    | some tf =>
      match mapGet tf "parent" with
      | none => acc
      | some pv =>
        match pv with
        | .num p =>
          if p ∈ restored then
            match setParent acc.2 eid (some p) with
            | (true, st) => (acc.1, st)
            | (false, st) => (acc.1 + 1, st)
          else (acc.1 + 1, (setParent acc.2 eid none).2)
        | .nul =>
          match setParent acc.2 eid none with
          | (true, st) => (acc.1, st)
          | (false, st) => (acc.1 + 1, st)
        | _ => (acc.1 + 1, (setParent acc.2 eid none).2)

theorem pass2_eq (s : EMState) (doc : SceneDoc) (restored : List Int) :
    pass2 s doc restored =
      restored.foldl (pass2Step doc restored) (0, s) := rfl

/-- Pass 2 over restored ids: each processed entity is re-attached along
its original edge, so every transform carries its original payload, its
original parent once processed, and exactly its processed original
children. -/
theorem pass2_restore (s : EMState) (hhs : HierInv s)
    (doc : SceneDoc) (Rall : List Int) (hnd : Rall.Nodup)
    (hRiff : ∀ x : Int, x ∈ Rall ↔ x ∈ s.entities)
    (hdocget : ∀ eid, eid ∈ Rall → ∃ m, mapGet s.comps eid = some m ∧
      mapGet doc eid =
        some (m.map (fun kv => (kv.1, serializeComp kv.2))))
    (hslot : ∀ (e : Int) (c : Comp), getComp s e "transform" = some c →
      ∃ t, c = Comp.transform t) :
    ∀ (R2 P : List Int) (scur : EMState) (k0 : Nat),
    P ++ R2 = Rall →
    (∀ y : Int, hasEntity scur y = hasEntity s y) →
    (∀ (y : Int) (t : Transform), getTransform s y = some t →
      getTransform scur y = some ⟨t.position, t.rotation, t.scale,
        if y ∈ P then t.parent else none,
        P.filter (fun c => decide (pstep s (some c) = some y))⟩) →
    (∀ y : Int, getTransform s y = none → getTransform scur y = none) →
    INV scur →
    ((R2.foldl (pass2Step doc Rall) (k0, scur)).2.entities =
      scur.entities) ∧
    (∀ (j : Int) (ty : String), ty ≠ "transform" →
      getComp (R2.foldl (pass2Step doc Rall) (k0, scur)).2 j ty =
        getComp scur j ty) ∧
    (∀ (y : Int) (t : Transform), getTransform s y = some t →
      getTransform (R2.foldl (pass2Step doc Rall) (k0, scur)).2 y =
        some ⟨t.position, t.rotation, t.scale,
          if y ∈ P ++ R2 then t.parent else none,
          (P ++ R2).filter (fun c => decide (pstep s (some c) = some y))⟩) ∧
    (∀ y : Int, getTransform s y = none →
      getTransform (R2.foldl (pass2Step doc Rall) (k0, scur)).2 y =
        none) := by
  intro R2
  induction R2 with
  | nil =>
    intro P scur k0 hPR h2a h2c h2d h2e
    refine ⟨rfl, fun j ty _ => rfl, ?_, ?_⟩
    · intro y t ht
      show getTransform scur y = _
      rw [h2c y t ht]
      simp
    · intro y ht
      exact h2d y ht
  | cons eid R2x ih =>
    intro P scur k0 hPR h2a h2c h2d h2e
    have hPP : (P ++ [eid]) ++ R2x = P ++ eid :: R2x := by simp
    have hndP : (P ++ eid :: R2x).Nodup := by rw [hPR]; exact hnd
    have heidP : eid ∉ P := by
      intro hc
      rcases List.nodup_append.mp hndP with ⟨_, _, hdisj⟩
      exact hdisj hc (List.mem_cons_self _ _)
    have heidR : eid ∈ Rall := by
      rw [← hPR]
      simp
    have hlive_sb : hasEntity s eid = true := by
      have h5 := (hRiff eid).mp heidR
      simpa [hasEntity] using h5
    have hlv : hasEntity scur eid = true := by
      rw [h2a eid]
      exact hlive_sb
    obtain ⟨m, hm, hdoceid⟩ := hdocget eid heidR
    have hgcform : ∀ c : Comp, mapGet m "transform" = some c →
        getComp s eid "transform" = some c := by
      intro c hc
      unfold getComp
      rw [hlive_sb, if_pos rfl, hm]
      exact hc
    rw [List.foldl_cons]
    cases hmt : mapGet m "transform" with
    | none =>
      have hstep : pass2Step doc Rall (k0, scur) eid = (k0, scur) := by
        unfold pass2Step
        rw [hdoceid]
        dsimp only
        rw [mapGet_serialized m "transform", hmt]
        rfl
      rw [hstep]
      have hgt_eid : getTransform s eid = none := by
        unfold getTransform
        have h6 : getComp s eid "transform" = none := by
          unfold getComp
          rw [hlive_sb, if_pos rfl, hm]
          exact hmt
        rw [h6]
      have hps_eid : pstep s (some eid) = none := by
        show (getTransform s eid).bind Transform.parent = none
        rw [hgt_eid]
        rfl
      have h2c' : ∀ (y : Int) (t : Transform), getTransform s y = some t →
          getTransform scur y = some ⟨t.position, t.rotation, t.scale,
            if y ∈ P ++ [eid] then t.parent else none,
            (P ++ [eid]).filter
              (fun c => decide (pstep s (some c) = some y))⟩ := by
        intro y t ht
        have hyne : y ≠ eid := by
          intro he
          rw [he, hgt_eid] at ht
          cases ht
        rw [h2c y t ht]
        have hif : (if y ∈ P ++ [eid] then t.parent else none) =
            (if y ∈ P then t.parent else none) := by
          by_cases hy : y ∈ P
          · rw [if_pos hy, if_pos (List.mem_append.mpr (Or.inl hy))]
          · rw [if_neg hy, if_neg (by
              intro hc
              rcases List.mem_append.mp hc with h7 | h7
              · exact hy h7
              · rw [List.mem_singleton] at h7
                exact hyne h7)]
        have hfil : (P ++ [eid]).filter
            (fun c => decide (pstep s (some c) = some y)) =
            P.filter (fun c => decide (pstep s (some c) = some y)) := by
          rw [List.filter_append]
          have h8 : [eid].filter
              (fun c => decide (pstep s (some c) = some y)) = [] := by
            simp [hps_eid]
          rw [h8, List.append_nil]
        rw [hif, hfil]
      obtain ⟨q1, q2, q3, q4⟩ := ih (P ++ [eid]) scur k0
        (by rw [hPP]; exact hPR) h2a h2c' h2d h2e
      rw [hPP] at q3
      exact ⟨q1, q2, q3, q4⟩
    | some c =>
      obtain ⟨t, hct⟩ := hslot eid c (hgcform c hmt)
      subst hct
      have hgt_eid_s : getTransform s eid = some t := by
        unfold getTransform
        rw [hgcform _ hmt]
      have hctx0 := h2c eid t hgt_eid_s
      rw [if_neg heidP] at hctx0
      set ctx : Transform := ⟨t.position, t.rotation, t.scale, none,
        P.filter (fun c => decide (pstep s (some c) = some eid))⟩
        with hctxd
      cases hpar : t.parent with
      | none =>
        have hnoop : setParent scur eid none = (true, scur) :=
          setParent_none_noop scur eid hlv ctx hctx0 rfl
        have hstep : pass2Step doc Rall (k0, scur) eid = (k0, scur) := by
          unfold pass2Step
          rw [hdoceid]
          dsimp only
          rw [mapGet_serialized m "transform", hmt]
          dsimp only [Option.map, serializeComp]
          rw [mapGet_serializeTransform_parent t, hpar]
          dsimp only
          rw [hnoop]
        rw [hstep]
        have hps_eid : pstep s (some eid) = none := by
          show (getTransform s eid).bind Transform.parent = none
          rw [hgt_eid_s]
          exact hpar
        have h2c' : ∀ (y : Int) (t2 : Transform),
            getTransform s y = some t2 →
            getTransform scur y = some ⟨t2.position, t2.rotation, t2.scale,
              if y ∈ P ++ [eid] then t2.parent else none,
              (P ++ [eid]).filter
                (fun c => decide (pstep s (some c) = some y))⟩ := by
          intro y t2 ht
          by_cases hyne : y = eid
          · have ht2 : t2 = t := by
              rw [hyne, hgt_eid_s] at ht
              exact (Option.some.inj ht).symm
            subst ht2
            rw [hyne, hctx0]
            have hfil2 : (P ++ [eid]).filter
                (fun c => decide (pstep s (some c) = some eid)) =
                P.filter (fun c => decide (pstep s (some c) = some eid)) := by
              rw [List.filter_append]
              have h8 : [eid].filter
                  (fun c => decide (pstep s (some c) = some eid)) = [] := by
                simp [hps_eid]
              rw [h8, List.append_nil]
            rw [hfil2]
            rw [if_pos (List.mem_append.mpr (Or.inr (List.mem_singleton.mpr
              rfl)))]
            rw [hpar]
          · have hfil : (P ++ [eid]).filter
                (fun c => decide (pstep s (some c) = some y)) =
                P.filter (fun c => decide (pstep s (some c) = some y)) := by
              rw [List.filter_append]
              have h8 : [eid].filter
                  (fun c => decide (pstep s (some c) = some y)) = [] := by
                simp [hps_eid]
              rw [h8, List.append_nil]
            rw [h2c y t2 ht, hfil]
            have hif : (if y ∈ P ++ [eid] then t2.parent else none) =
                (if y ∈ P then t2.parent else none) := by
              by_cases hy : y ∈ P
              · rw [if_pos hy, if_pos (List.mem_append.mpr (Or.inl hy))]
              · rw [if_neg hy, if_neg (by
                  intro hc
                  rcases List.mem_append.mp hc with h7 | h7
                  · exact hy h7
                  · rw [List.mem_singleton] at h7
                    exact hyne h7)]
            rw [hif]
        obtain ⟨q1, q2, q3, q4⟩ := ih (P ++ [eid]) scur k0
          (by rw [hPP]; exact hPR) h2a h2c' h2d h2e
        rw [hPP] at q3
        exact ⟨q1, q2, q3, q4⟩
      | some p =>
        have hpstep : pstep s (some eid) = some p := by
          show (getTransform s eid).bind Transform.parent = some p
          rw [hgt_eid_s]
          exact hpar
        obtain ⟨hplive_s, pt, hpt_s, _⟩ :=
          hhs.parentOk eid t p hgt_eid_s hpar
        have hpRall : p ∈ Rall := by
          rw [hRiff p]
          simpa [hasEntity] using hplive_s
        have hep : eid ≠ p := by
          intro he
          have hcyc : psteps s 1 (some eid) = some eid := by
            show pstep s (some eid) = some eid
            rw [hpstep, ← he]
          exact no_periodic s hhs eid 1 (by omega) hcyc
        have hptc := h2c p pt hpt_s
        set ptC : Transform := ⟨pt.position, pt.rotation, pt.scale,
          if p ∈ P then pt.parent else none,
          P.filter (fun c => decide (pstep s (some c) = some p))⟩
          with hptCd
        have hlvp : hasEntity scur p = true := by
          rw [h2a p]
          simpa [hasEntity] using hplive_s
        have hsub : ∀ (y q : Int), pstep scur (some y) = some q →
            pstep s (some y) = some q := by
          intro y q hq
          cases hty : getTransform s y with
          | none =>
            have h9 := h2d y hty
            have h10 : pstep scur (some y) = none := by
              show (getTransform scur y).bind Transform.parent = none
              rw [h9]
              rfl
            rw [h10] at hq
            cases hq
          | some ty2 =>
            have h5 := h2c y ty2 hty
            have h6 : pstep scur (some y) =
                (if y ∈ P then ty2.parent else none) := by
              show (getTransform scur y).bind Transform.parent = _
              rw [h5]
              rfl
            rw [h6] at hq
            by_cases hy : y ∈ P
            · rw [if_pos hy] at hq
              show (getTransform s y).bind Transform.parent = some q
              rw [hty]
              exact hq
            · rw [if_neg hy] at hq
              cases hq
        have hso := setParent_restore_ok scur s h2e.2.1 hhs eid p ctx
          hsub hpstep hlv hlvp hctx0 rfl (by rw [hptc]; rfl)
        have hstep : pass2Step doc Rall (k0, scur) eid =
            (k0, spApply scur eid ctx.parent (some p)) := by
          unfold pass2Step
          rw [hdoceid]
          dsimp only
          rw [mapGet_serialized m "transform", hmt]
          dsimp only [Option.map, serializeComp]
          rw [mapGet_serializeTransform_parent t, hpar]
          dsimp only
          rw [if_pos hpRall, hso]
        rw [hstep]
        obtain ⟨cl1, cl2, cl3, cl4, cl5⟩ :=
          spApply_clean scur eid p ctx ptC hep hctx0 rfl (by rw [hptc])
        set S2 := spApply scur eid ctx.parent (some p) with hS2
        have hIS2 : INV S2 := by
          have h11 := setParent_INV scur eid (some p) h2e
          rw [hso] at h11
          exact h11
        have h2a' : ∀ y : Int, hasEntity S2 y = hasEntity s y := by
          intro y
          show decide (y ∈ S2.entities) = _
          rw [cl1]
          exact h2a y
        have h2d' : ∀ y : Int, getTransform s y = none →
            getTransform S2 y = none := by
          intro y hty
          have hyne : y ≠ eid := by
            intro he
            rw [he, hgt_eid_s] at hty
            cases hty
          have hynp : y ≠ p := by
            intro he
            rw [he, hpt_s] at hty
            cases hty
          rw [cl3 y hyne hynp]
          exact h2d y hty
        have h2c' : ∀ (y : Int) (t2 : Transform),
            getTransform s y = some t2 →
            getTransform S2 y = some ⟨t2.position, t2.rotation, t2.scale,
              if y ∈ P ++ [eid] then t2.parent else none,
              (P ++ [eid]).filter
                (fun c => decide (pstep s (some c) = some y))⟩ := by
          intro y t2 ht
          by_cases hyeid : y = eid
          · have ht2 : t2 = t := by
              rw [hyeid, hgt_eid_s] at ht
              exact (Option.some.inj ht).symm
            subst ht2
            rw [hyeid, cl5]
            have hfil2 : (P ++ [eid]).filter
                (fun c => decide (pstep s (some c) = some eid)) =
                P.filter (fun c => decide (pstep s (some c) = some eid)) := by
              rw [List.filter_append]
              have h8 : [eid].filter
                  (fun c => decide (pstep s (some c) = some eid)) = [] := by
                have h12 : ¬(pstep s (some eid) = some eid) := by
                  rw [hpstep]
                  intro hc
                  exact hep (Option.some.inj hc).symm
                simp [h12]
              rw [h8, List.append_nil]
            rw [hfil2]
            rw [if_pos (List.mem_append.mpr (Or.inr
              (List.mem_singleton.mpr rfl)))]
            rw [hpar]
          · by_cases hyp : y = p
            · have ht2 : t2 = pt := by
                rw [hyp, hpt_s] at ht
                exact (Option.some.inj ht).symm
              rw [hyp, cl4, ht2]
              have hif : (if p ∈ P ++ [eid] then pt.parent else none) =
                  (if p ∈ P then pt.parent else none) := by
                by_cases hy : p ∈ P
                · rw [if_pos hy, if_pos (List.mem_append.mpr (Or.inl hy))]
                · rw [if_neg hy, if_neg (by
                    intro hc
                    rcases List.mem_append.mp hc with h7 | h7
                    · exact hy h7
                    · rw [List.mem_singleton] at h7
                      exact hep h7.symm)]
              have hfil : (P ++ [eid]).filter
                  (fun c => decide (pstep s (some c) = some p)) =
                  P.filter (fun c => decide (pstep s (some c) = some p)) ++
                    [eid] := by
                rw [List.filter_append]
                have h8 : [eid].filter
                    (fun c => decide (pstep s (some c) = some p)) =
                    [eid] := by
                  simp [hpstep]
                rw [h8]
              rw [hif, hfil]
              have hadd : jsSetAdd (P.filter
                  (fun c => decide (pstep s (some c) = some p))) eid =
                  P.filter (fun c => decide (pstep s (some c) = some p)) ++
                    [eid] := by
                apply jsSetAdd_fresh
                intro hc
                exact heidP (List.mem_of_mem_filter hc)
              show some { ptC with
                children := jsSetAdd ptC.children eid } = _
              rw [hptCd]
              dsimp only
              rw [hadd]
            · rw [cl3 y hyeid hyp]
              rw [h2c y t2 ht]
              have hif : (if y ∈ P ++ [eid] then t2.parent else none) =
                  (if y ∈ P then t2.parent else none) := by
                by_cases hy : y ∈ P
                · rw [if_pos hy, if_pos (List.mem_append.mpr (Or.inl hy))]
                · rw [if_neg hy, if_neg (by
                    intro hc
                    rcases List.mem_append.mp hc with h7 | h7
                    · exact hy h7
                    · rw [List.mem_singleton] at h7
                      exact hyeid h7)]
              have hfil : (P ++ [eid]).filter
                  (fun c => decide (pstep s (some c) = some y)) =
                  P.filter (fun c => decide (pstep s (some c) = some y)) := by
                rw [List.filter_append]
                have h8 : [eid].filter
                    (fun c => decide (pstep s (some c) = some y)) = [] := by
                  have h12 : ¬(pstep s (some eid) = some y) := by
                    rw [hpstep]
                    intro hc
                    exact hyp (Option.some.inj hc).symm
                  simp [h12]
                rw [h8, List.append_nil]
              rw [hif, hfil]
        obtain ⟨q1, q2, q3, q4⟩ := ih (P ++ [eid]) S2 k0
          (by rw [hPP]; exact hPR) h2a' h2c' h2d' hIS2
        rw [hPP] at q3
        refine ⟨?_, ?_, q3, q4⟩
        · rw [q1, cl1]
        · intro j ty hty
          rw [q2 j ty hty, cl2 j ty hty]

theorem getEntityState_live (s : EMState) (id : Int)
    (m : List (String × Comp)) (hl : hasEntity s id = true)
    (hm : mapGet s.comps id = some m) :
    getEntityState s id =
      some (m.map (fun kv => (kv.1, serializeComp kv.2))) := by
  unfold getEntityState
  rw [if_neg (by rw [hl]; intro hc; cases hc), hm]

theorem filterMap_entityState (s : EMState) :
    ∀ l : List Int, (∀ x, x ∈ l → (getEntityState s x).isSome = true) →
    ((l.filterMap (fun id => (getEntityState s id).map
      (fun cs => (id, cs)))).map Prod.fst = l) ∧
    (∀ (id : Int) (cs : List (String × Fields)),
      (id, cs) ∈ l.filterMap (fun id => (getEntityState s id).map
        (fun cs => (id, cs))) → id ∈ l ∧ getEntityState s id = some cs) := by
  intro l
  induction l with
  | nil =>
    intro _
    exact ⟨rfl, fun id cs hm => absurd hm (List.not_mem_nil _)⟩
  | cons a rest ih =>
    intro hl
    obtain ⟨cs0, hcs0⟩ := Option.isSome_iff_exists.mp
      (hl a (List.mem_cons_self _ _))
    have hfa : (getEntityState s a).map
        (fun cs => ((a : Int), cs)) = some (a, cs0) := by
      rw [hcs0]
      rfl
    have hstep : ((a :: rest).filterMap (fun id => (getEntityState s id).map
        (fun cs => (id, cs)))) = (a, cs0) :: rest.filterMap
          (fun id => (getEntityState s id).map (fun cs => (id, cs))) := by
      rw [List.filterMap_cons, hfa]
    obtain ⟨ih1, ih2⟩ := ih (fun x hx => hl x (List.mem_cons_of_mem _ hx))
    rw [hstep]
    constructor
    · rw [List.map_cons, ih1]
    · intro id cs hm
      rcases List.mem_cons.mp hm with heq | hmem
      · injection heq with he1 he2
        subst he1
        subst he2
        exact ⟨List.mem_cons_self _ _, hcs0⟩
      · obtain ⟨h5, h6⟩ := ih2 id cs hmem
        exact ⟨List.mem_cons_of_mem _ h5, h6⟩

/-- The document side of the round trip: the serialized document lists
exactly the live entities (in sorted order) with their serialized
component maps. -/
theorem serializeEM_char (s : EMState) (hw : WFInv s) :
    ((serializeEM s).map Prod.fst =
      s.entities.insertionSort (fun a b => a ≤ b)) ∧
    (∀ (id : Int) (cs : List (String × Fields)),
      (id, cs) ∈ serializeEM s → ∃ m, mapGet s.comps id = some m ∧
        cs = m.map (fun kv => (kv.1, serializeComp kv.2))) := by
  have hsorted : ∀ x, x ∈ s.entities.insertionSort (fun a b => a ≤ b) ↔
      x ∈ s.entities := by
    intro x
    exact (List.perm_insertionSort (fun a b => a ≤ b) s.entities).mem_iff
  have hstate : ∀ x, x ∈ s.entities.insertionSort (fun a b => a ≤ b) →
      (getEntityState s x).isSome = true := by
    intro x hx
    have hlx : hasEntity s x = true := by
      simpa [hasEntity] using (hsorted x).mp hx
    obtain ⟨m, hm⟩ := Option.isSome_iff_exists.mp
      ((hw.keysLive x).mpr ((hsorted x).mp hx))
    rw [getEntityState_live s x m hlx hm]
    rfl
  obtain ⟨h1, h2⟩ := filterMap_entityState s
    (s.entities.insertionSort (fun a b => a ≤ b)) hstate
  refine ⟨h1, ?_⟩
  intro id cs hm
  obtain ⟨h5, h6⟩ := h2 id cs hm
  have hlx : hasEntity s id = true := by
    simpa [hasEntity] using (hsorted id).mp h5
  obtain ⟨m, hmm⟩ := Option.isSome_iff_exists.mp
    ((hw.keysLive id).mpr ((hsorted id).mp h5))
  refine ⟨m, hmm, ?_⟩
  rw [getEntityState_live s id m hlx hmm] at h6
  exact (Option.some.inj h6).symm

/-- Claim C5: `deserialize (serialize())` reproduces an isomorphic
entity/component/hierarchy graph.  For an invariant-satisfying store
whose components are registry-compatible (`RegCompat`: every stored
transform sits under a transform-registered name, every data component's
registered constructor/serializer round-trip on its serialized record)
and whose entity maps have duplicate-free keys, the round trip preserves
the entity-id set exactly, the component types of every entity, the
serialized field values of every component, and every transform's parent
and children set. -/
theorem C5_serialize_deserialize_roundtrip (reg : Registry)
    (s s0 : EMState) (hI : INV s) (hreg : RegOk reg)
    (hRC : RegCompat reg s)
    (hinner : ∀ (e : Int) (m : List (String × Comp)),
      mapGet s.comps e = some m → (m.map Prod.fst).Nodup) :
    (∀ x : Int, hasEntity (deserialize reg s0 (serializeEM s)).2 x =
      hasEntity s x) ∧
    (∀ (e : Int) (ty : String),
      hasComp (deserialize reg s0 (serializeEM s)).2 e ty =
        hasComp s e ty) ∧
    (∀ (e : Int) (ty : String) (c : Comp), getComp s e ty = some c →
      ∃ c', getComp (deserialize reg s0 (serializeEM s)).2 e ty =
          some c' ∧ serializeComp c' = serializeComp c) ∧
    (∀ (e : Int) (t : Transform), getTransform s e = some t →
      ∃ t', getTransform (deserialize reg s0 (serializeEM s)).2 e =
          some t' ∧
        t'.position = t.position ∧ t'.rotation = t.rotation ∧
        t'.scale = t.scale ∧ t'.parent = t.parent ∧
        (∀ c : Int, c ∈ t'.children ↔ c ∈ t.children)) := by
  obtain ⟨hw, hh, hx⟩ := hI
  set doc := serializeEM s with hdocd
  obtain ⟨hids, hentries⟩ := serializeEM_char s hw
  set Rall := doc.map Prod.fst with hRalld
  have hRiff : ∀ x : Int, x ∈ Rall ↔ x ∈ s.entities := by
    intro x
    rw [hids]
    exact (List.perm_insertionSort (fun a b => a ≤ b) s.entities).mem_iff
  have hndR : Rall.Nodup := by
    rw [hids]
    exact ((List.perm_insertionSort (fun a b => a ≤ b)
      s.entities).nodup_iff).mpr hw.entsNodup
  have hfaith : ∀ (id : Int) (cs : List (String × Fields)),
      (id, cs) ∈ doc →
      hasEntity s id = true ∧ ∃ m, mapGet s.comps id = some m ∧
        cs = m.map (fun kv => (kv.1, serializeComp kv.2)) ∧
        (m.map Prod.fst).Nodup ∧
        (∀ ty c, (ty, c) ∈ m → CompCompat reg ty c) ∧
        (∀ ty c, (ty, c) ∈ m → ¬(ty.trim = "")) ∧
        (∀ ty c, (ty, c) ∈ m → ty = "transform" →
          ∃ t, c = Comp.transform t) := by
    intro id cs hm
    obtain ⟨m, hmm, hcs⟩ := hentries id cs hm
    have hlive : hasEntity s id = true := by
      have h5 : (mapGet s.comps id).isSome = true := by
        rw [hmm]
        rfl
      have h6 := (hw.keysLive id).mp h5
      simpa [hasEntity] using h6
    have hgcm : ∀ ty c, (ty, c) ∈ m → getComp s id ty = some c := by
      intro ty c hmem
      unfold getComp
      rw [hlive, if_pos rfl, hmm]
      exact mapGet_of_mem_nodup m ty c (hinner id m hmm) hmem
    refine ⟨hlive, m, hmm, hcs, hinner id m hmm, ?_, ?_, ?_⟩
    · intro ty c hmem
      exact hRC id ty c (hgcm ty c hmem)
    · intro ty c hmem
      refine hx.tyValid id ty ?_
      show (getComp s id ty).isSome = true
      rw [hgcm ty c hmem]
      rfl
    · intro ty c hmem hty
      exact hw.slotTransform id c (hty ▸ hgcm ty c hmem)
  obtain ⟨p1ents, p1comps, p1rest, p1R⟩ := pass1_restore reg s doc
    initEM 0 [] 0 rfl (fun x _ hc => absurd hc (List.not_mem_nil x))
    hndR (fun x _ => rfl) hfaith
  have hIS1 : INV (pass1 reg initEM doc).1 :=
    pass1_INV reg initEM doc hreg INV_init
  have hS1ents : (pass1 reg initEM doc).1.entities = Rall := by
    have h5 : (pass1 reg initEM doc).1.entities = [] ++ Rall := p1ents
    rw [List.nil_append] at h5
    exact h5
  have h2a : ∀ y : Int, hasEntity (pass1 reg initEM doc).1 y =
      hasEntity s y := by
    intro y
    show decide (y ∈ (pass1 reg initEM doc).1.entities) =
      decide (y ∈ s.entities)
    rw [hS1ents]
    exact decide_eq_decide.mpr (hRiff y)
  have hcompsS1 : ∀ (id : Int) (cs : List (String × Fields)),
      (id, cs) ∈ doc → ∃ m, mapGet s.comps id = some m ∧
      mapGet (pass1 reg initEM doc).1.comps id =
        some (m.map (fun kv => (kv.1, reComp reg kv.1 kv.2))) := p1comps
  have hS1comp : ∀ e : Int, hasEntity s e = true →
      ∃ m, mapGet s.comps e = some m ∧
      mapGet (pass1 reg initEM doc).1.comps e =
        some (m.map (fun kv => (kv.1, reComp reg kv.1 kv.2))) := by
    intro e he
    have hmem : e ∈ Rall := (hRiff e).mpr (by simpa [hasEntity] using he)
    rw [hRalld] at hmem
    obtain ⟨ec, hm2, hfst⟩ := List.mem_map.mp hmem
    obtain ⟨e2, cs⟩ := ec
    have he2 : e2 = e := hfst
    subst he2
    exact hcompsS1 e2 cs hm2
  have hgcS1 : ∀ (e : Int) (ty : String),
      getComp (pass1 reg initEM doc).1 e ty =
        (getComp s e ty).map (reComp reg ty) := by
    intro e ty
    by_cases he : hasEntity s e = true
    · obtain ⟨m, hm, hm1⟩ := hS1comp e he
      have he1 : hasEntity (pass1 reg initEM doc).1 e = true := by
        rw [h2a e]
        exact he
      unfold getComp
      rw [he, he1, if_pos rfl, if_pos rfl, hm, hm1]
      show mapGet (m.map (fun kv => (kv.1, reComp reg kv.1 kv.2))) ty =
        (mapGet m ty).map (reComp reg ty)
      exact mapGet_map_values (reComp reg) m ty
    · have he2 : hasEntity s e = false := by
        cases hb : hasEntity s e
        · rfl
        · exact absurd hb he
      have he3 : hasEntity (pass1 reg initEM doc).1 e = false := by
        rw [h2a e]
        exact he2
      unfold getComp
      rw [if_neg (by rw [he3]; intro hc; cases hc),
        if_neg (by rw [he2]; intro hc; cases hc)]
      rfl
  have hreT : ∀ t : Transform, reComp reg "transform" (Comp.transform t) =
      Comp.transform ⟨t.position, t.rotation, t.scale, none, []⟩ := by
    intro t
    unfold reComp
    cases reg "transform" <;> rfl
  have h2c0 : ∀ (y : Int) (t : Transform), getTransform s y = some t →
      getTransform (pass1 reg initEM doc).1 y =
        some ⟨t.position, t.rotation, t.scale,
          if y ∈ ([] : List Int) then t.parent else none,
          ([] : List Int).filter
            (fun c => decide (pstep s (some c) = some y))⟩ := by
    intro y t ht
    have hgc := getTransform_eq_comp s y t ht
    unfold getTransform
    rw [hgcS1 y "transform", hgc]
    dsimp only [Option.map]
    rw [hreT t]
    rfl
  have h2d0 : ∀ y : Int, getTransform s y = none →
      getTransform (pass1 reg initEM doc).1 y = none := by
    intro y ht
    unfold getTransform
    rw [hgcS1 y "transform"]
    cases hgc : getComp s y "transform" with
    | none => rfl
    | some c =>
      obtain ⟨t, hct⟩ := hw.slotTransform y c hgc
      subst hct
      exfalso
      unfold getTransform at ht
      rw [hgc] at ht
      exact Option.noConfusion ht
  have hdocget : ∀ eid, eid ∈ Rall → ∃ m, mapGet s.comps eid = some m ∧
      mapGet doc eid =
        some (m.map (fun kv => (kv.1, serializeComp kv.2))) := by
    intro eid hmem
    rw [hRalld] at hmem
    obtain ⟨ec, hm2, hfst⟩ := List.mem_map.mp hmem
    obtain ⟨e2, cs⟩ := ec
    have he2 : e2 = eid := hfst
    subst he2
    obtain ⟨m, hmm, hcs⟩ := hentries e2 cs hm2
    refine ⟨m, hmm, ?_⟩
    rw [← hcs]
    exact mapGet_of_mem_nodup doc e2 cs hndR hm2
  obtain ⟨w1, w2, w3, w4⟩ := pass2_restore s hh doc Rall hndR hRiff
    hdocget hw.slotTransform Rall [] (pass1 reg initEM doc).1 0
    (List.nil_append Rall) h2a h2c0 h2d0 hIS1
  rw [List.nil_append] at w3
  have hrest : (pass1 reg initEM doc).2.2.1 = Rall := by
    have h5 : (pass1 reg initEM doc).2.2.1 = [] ++ Rall := p1R
    rw [List.nil_append] at h5
    exact h5
  have hDgc : ∀ (e : Int) (ty : String),
      getComp (deserialize reg s0 doc).2 e ty =
        getComp (Rall.foldl (pass2Step doc Rall)
          (0, (pass1 reg initEM doc).1)).2 e ty := by
    intro e ty
    have h5 : getComp (deserialize reg s0 doc).2 e ty =
        getComp (pass2 (pass1 reg initEM doc).1 doc
          ((pass1 reg initEM doc).2.2.1)).2 e ty := rfl
    rw [h5, hrest, pass2_eq]
  have hDgt : ∀ e : Int,
      getTransform (deserialize reg s0 doc).2 e =
        getTransform (Rall.foldl (pass2Step doc Rall)
          (0, (pass1 reg initEM doc).1)).2 e := by
    intro e
    have h5 : getTransform (deserialize reg s0 doc).2 e =
        getTransform (pass2 (pass1 reg initEM doc).1 doc
          ((pass1 reg initEM doc).2.2.1)).2 e := rfl
    rw [h5, hrest, pass2_eq]
  have hDent : ∀ x : Int, hasEntity (deserialize reg s0 doc).2 x =
      hasEntity s x := by
    intro x
    have h5 : hasEntity (deserialize reg s0 doc).2 x =
        hasEntity (pass2 (pass1 reg initEM doc).1 doc
          ((pass1 reg initEM doc).2.2.1)).2 x := rfl
    rw [h5, hrest, pass2_eq]
    show decide (x ∈ (Rall.foldl (pass2Step doc Rall)
      (0, (pass1 reg initEM doc).1)).2.entities) = _
    rw [w1, hS1ents]
    exact decide_eq_decide.mpr (hRiff x)
  have hIs' : INV (deserialize reg s0 doc).2 :=
    deserialize_INV reg s0 doc hreg
  have hserR : ∀ (ty : String) (c : Comp), ty ≠ "transform" →
      CompCompat reg ty c →
      serializeComp (reComp reg ty c) = serializeComp c := by
    intro ty c hty hcc
    cases c with
    | transform t =>
      have hre : reComp reg ty (Comp.transform t) = Comp.transform
          ⟨t.position, t.rotation, t.scale,
            if ty = "transform" then none else t.parent, []⟩ := by
        unfold reComp
        cases reg ty <;> rfl
      rw [hre, if_neg hty]
      show serializeTransform _ = serializeTransform t
      unfold serializeTransform
      rfl
    | data sr f =>
      obtain ⟨b, sr₂, hr, heq⟩ := hcc
      have hre : reComp reg ty (Comp.data sr f) =
          Comp.data sr₂ (b ((sr f).filter
            (fun kv => kv.1 ≠ "source"))) := by
        unfold reComp
        rw [hr]
      rw [hre]
      exact heq
  refine ⟨hDent, ?_, ?_, ?_⟩
  · -- component types preserved
    intro e ty
    unfold hasComp
    by_cases hty : ty = "transform"
    · subst hty
      cases hgt : getTransform s e with
      | some t =>
        have h5 := w3 e t hgt
        have h6 : getTransform (deserialize reg s0 doc).2 e =
            some ⟨t.position, t.rotation, t.scale,
              if e ∈ Rall then t.parent else none,
              Rall.filter (fun c => decide (pstep s (some c) = some e))⟩ := by
          rw [hDgt e]
          exact h5
        rw [getTransform_eq_comp _ _ _ h6,
          getTransform_eq_comp s e t hgt]
        rfl
      | none =>
        have h5 : getTransform (deserialize reg s0 doc).2 e = none := by
          rw [hDgt e]
          exact w4 e hgt
        have h6 : getComp (deserialize reg s0 doc).2 e "transform" =
            none := by
          cases hgc : getComp (deserialize reg s0 doc).2 e "transform" with
          | none => rfl
          | some c =>
            obtain ⟨t, hct⟩ := hIs'.1.slotTransform e c hgc
            subst hct
            exfalso
            unfold getTransform at h5
            rw [hgc] at h5
            exact Option.noConfusion h5
        have h7 : getComp s e "transform" = none := by
          cases hgc : getComp s e "transform" with
          | none => rfl
          | some c =>
            obtain ⟨t, hct⟩ := hw.slotTransform e c hgc
            subst hct
            exfalso
            unfold getTransform at hgt
            rw [hgc] at hgt
            exact Option.noConfusion hgt
        rw [h6, h7]
    · rw [hDgc e ty, w2 e ty hty, hgcS1 e ty]
      cases getComp s e ty <;> rfl
  · -- serialized field values preserved
    intro e ty c hgc
    by_cases hty : ty = "transform"
    · subst hty
      obtain ⟨t, hct⟩ := hw.slotTransform e c hgc
      subst hct
      have hgt : getTransform s e = some t := by
        unfold getTransform
        rw [hgc]
      have hmemR : e ∈ Rall :=
        (hRiff e).mpr (by
          simpa [hasEntity] using getComp_some_live s e "transform" _ hgc)
      have h6 : getTransform (deserialize reg s0 doc).2 e =
          some ⟨t.position, t.rotation, t.scale,
            if e ∈ Rall then t.parent else none,
            Rall.filter (fun c => decide (pstep s (some c) = some e))⟩ := by
        rw [hDgt e]
        exact w3 e t hgt
      refine ⟨Comp.transform ⟨t.position, t.rotation, t.scale,
        if e ∈ Rall then t.parent else none,
        Rall.filter (fun c => decide (pstep s (some c) = some e))⟩,
        getTransform_eq_comp _ _ _ h6, ?_⟩
      show serializeTransform _ = serializeTransform t
      unfold serializeTransform
      rw [if_pos hmemR]
    · refine ⟨reComp reg ty c, ?_, ?_⟩
      · rw [hDgc e ty, w2 e ty hty, hgcS1 e ty, hgc]
        rfl
      · exact hserR ty c hty (hRC e ty c hgc)
  · -- hierarchy preserved
    intro e t ht
    have hmemR : e ∈ Rall :=
      (hRiff e).mpr (by
        simpa [hasEntity] using getTransform_some_live s e t ht)
    have h6 : getTransform (deserialize reg s0 doc).2 e =
        some ⟨t.position, t.rotation, t.scale,
          if e ∈ Rall then t.parent else none,
          Rall.filter (fun c => decide (pstep s (some c) = some e))⟩ := by
      rw [hDgt e]
      exact w3 e t ht
    refine ⟨_, h6, rfl, rfl, rfl, ?_, ?_⟩
    · show (if e ∈ Rall then t.parent else none) = t.parent
      rw [if_pos hmemR]
    · intro c
      show c ∈ Rall.filter (fun c => decide (pstep s (some c) = some e)) ↔
        c ∈ t.children
      rw [List.mem_filter]
      constructor
      · rintro ⟨hcR, hcp⟩
        have hcp2 : pstep s (some c) = some e := of_decide_eq_true hcp
        obtain ⟨tc, htc, htcp⟩ := pstep_some s c e hcp2
        obtain ⟨_, pt2, hpt2, hcmem⟩ := hh.parentOk c tc e htc htcp
        have hpe : pt2 = t := by
          rw [ht] at hpt2
          exact (Option.some.inj hpt2).symm
        rw [← hpe]
        exact hcmem
      · intro hcm
        obtain ⟨ct, hct, hctp⟩ := hh.childOk e t c ht hcm
        have hstep : pstep s (some c) = some e := by
          show (getTransform s c).bind Transform.parent = some e
          rw [hct]
          exact hctp
        refine ⟨?_, decide_eq_true hstep⟩
        exact (hRiff c).mpr
          (by simpa [hasEntity] using getTransform_some_live s c ct hct)

/-! ## Claim C5: concrete witness store -/

/-- The default root transform stored in `demoBase`. -/
def demoT : Transform :=
  ⟨[Value.num 0, Value.num 0, Value.num 0],
   [Value.num 0, Value.num 0, Value.num 0],
   [Value.num 1, Value.num 1, Value.num 1], none, []⟩

/-- Component lookup in `demoBase`, fully characterised. -/
theorem demoBase_getComp_eq (e : Int) (ty : String) :
    getComp demoBase e ty =
      if e = 1 then
        (if "transform" = ty then some (Comp.transform demoT) else none)
      else none := by
  by_cases he : e = 1
  · subst he
    rw [if_pos rfl]
    rfl
  · rw [if_neg he]
    unfold getComp
    rw [if_neg (fun hc => he (by simpa [hasEntity, demoBase] using hc))]

/-- Transform lookup in `demoBase`, fully characterised. -/
theorem demoBase_getTransform_eq (e : Int) :
    getTransform demoBase e = if e = 1 then some demoT else none := by
  unfold getTransform
  rw [demoBase_getComp_eq e "transform"]
  by_cases he : e = 1
  · rw [if_pos he, if_pos he]
    rfl
  · rw [if_neg he, if_neg he]

/-- The one-entity store `demoBase` satisfies the full invariant. -/
theorem demoBase_INV : INV demoBase := by
  have hms : ∀ a : Int, mapGet demoBase.comps a =
      if (1 : Int) = a then
        some [("transform", Comp.transform demoT)] else none :=
    fun a => rfl
  refine ⟨⟨by decide, ?_, ?_⟩, ⟨?_, ?_, ?_⟩, ⟨?_, ?_, ?_⟩⟩
  · intro e
    rw [hms e]
    by_cases he : e = 1
    · simp [demoBase, he]
    · simp [demoBase, he, Ne.symm he]
  · intro e c h
    rw [demoBase_getComp_eq] at h
    by_cases he : e = 1
    · rw [if_pos he, if_pos rfl] at h
      exact ⟨demoT, (Option.some.inj h).symm⟩
    · rw [if_neg he] at h
      cases h
  · intro e t p hgt hp
    rw [demoBase_getTransform_eq] at hgt
    by_cases he : e = 1
    · rw [if_pos he] at hgt
      injection hgt with h1
      rw [← h1] at hp
      exact Option.noConfusion (show (none : Option Int) = some p from hp)
    · rw [if_neg he] at hgt
      cases hgt
  · intro p pt c hgt hc
    rw [demoBase_getTransform_eq] at hgt
    by_cases hp1 : p = 1
    · rw [if_pos hp1] at hgt
      injection hgt with h1
      rw [← h1] at hc
      simp [demoT] at hc
    · rw [if_neg hp1] at hgt
      cases hgt
  · intro e
    refine ⟨2, ?_⟩
    show psteps demoBase 1 (pstep demoBase (some e)) = none
    have hps : pstep demoBase (some e) = none := by
      show (getTransform demoBase e).bind Transform.parent = none
      rw [demoBase_getTransform_eq]
      by_cases he : e = 1
      · rw [if_pos he]
        rfl
      · rw [if_neg he]
        rfl
    rw [hps]
    rfl
  · intro ty e
    have hmi : mapGet demoBase.index ty =
        if "transform" = ty then some [(1 : Int)] else none := rfl
    unfold hasComp
    rw [demoBase_getComp_eq, hmi]
    by_cases hty : "transform" = ty
    · rw [if_pos hty, if_pos hty]
      by_cases he : e = 1
      · rw [if_pos he]
        simp [he]
      · rw [if_neg he]
        simp [he]
    · rw [if_neg hty, if_neg hty]
      simp
  · intro ty l h
    have hmi : mapGet demoBase.index ty =
        if "transform" = ty then some [(1 : Int)] else none := rfl
    rw [hmi] at h
    by_cases hty : "transform" = ty
    · rw [if_pos hty] at h
      injection h with h1
      rw [← h1]
      decide
    · rw [if_neg hty] at h
      cases h
  · intro e ty h
    unfold hasComp at h
    rw [demoBase_getComp_eq] at h
    by_cases he : e = 1
    · rw [if_pos he] at h
      by_cases hty : "transform" = ty
      · rw [← hty, trim_transform]
        decide
      · rw [if_neg hty] at h
        exact Bool.noConfusion h
    · rw [if_neg he] at h
      exact Bool.noConfusion h

/-- Every component of `demoBase` is compatible with the demo registry. -/
theorem demoBase_RegCompat : RegCompat regT demoBase := by
  intro e ty c h
  rw [demoBase_getComp_eq] at h
  by_cases he : e = 1
  · rw [if_pos he] at h
    by_cases hty : "transform" = ty
    · rw [if_pos hty] at h
      injection h with h1
      rw [← h1, ← hty]
      exact rfl
    · rw [if_neg hty] at h
      cases h
  · rw [if_neg he] at h
    cases h

/-- Every per-entity component map of `demoBase` has duplicate-free keys. -/
theorem demoBase_inner : ∀ (e : Int) (m : List (String × Comp)),
    mapGet demoBase.comps e = some m → (m.map Prod.fst).Nodup := by
  intro e m h
  have hms : mapGet demoBase.comps e =
      if (1 : Int) = e then
        some [("transform", Comp.transform demoT)] else none := rfl
  rw [hms] at h
  by_cases he : (1 : Int) = e
  · rw [if_pos he] at h
    injection h with h1
    rw [← h1]
    decide
  · rw [if_neg he] at h
    cases h

/-- Witness: the round-trip theorem applies to the concrete one-entity
store `demoBase` with the demo registry, and preserves entity 1. -/
theorem C5_serialize_deserialize_roundtrip_witness :
    INV demoBase ∧ RegOk regT ∧ RegCompat regT demoBase ∧
    hasEntity (deserialize regT initEM (serializeEM demoBase)).2 1 =
      hasEntity demoBase 1 :=
  ⟨demoBase_INV, regT_ok, demoBase_RegCompat,
   (C5_serialize_deserialize_roundtrip regT demoBase initEM demoBase_INV
      regT_ok demoBase_RegCompat demoBase_inner).1 1⟩

/-! ## Claim C9: counter allocation over create/remove runs -/

/-- One create/remove step keeps every live id strictly below the
counter. -/
theorem applyCr_liveBelow (s : EMState) (op : CrOp)
    (h : LiveBelowNext s) : LiveBelowNext (applyCr s op) := by
  cases op with
  | create =>
    intro e he
    have he2 : e = (createEntity s).1 ∨ e ∈ s.entities :=
      mem_jsSetAdd.mp he
    have hnx : (createEntity s).2.nextEntityId = (createEntity s).1 + 1 :=
      createEntity_next s
    show e < (createEntity s).2.nextEntityId
    rw [hnx]
    cases he2 with
    | inl h1 =>
      omega
    | inr h1 =>
      have h2 := h e h1
      have h3 := createEntity_ge s
      omega
  | remove id =>
    intro e he
    have hsh := removeEntity_shell (s.entities.length + 1) s id
    have he2 : e ∈ s.entities := hsh.2.subset he
    show e < ((removeEntity (s.entities.length + 1) s id).2).nextEntityId
    rw [hsh.1]
    exact h e he2

/-- A create/remove run keeps every live id strictly below the counter. -/
theorem runCr_liveBelow (ops : List CrOp) :
    ∀ s : EMState, LiveBelowNext s → LiveBelowNext (runCr s ops) := by
  induction ops with
  | nil => intro s h; exact h
  | cons op rest ih =>
    intro s h
    exact ih (applyCr s op) (applyCr_liveBelow s op h)

/-- C9 (amended): over any `createEntity`/`removeEntity` run from a fresh
store no two live entities ever share an id; each `createEntity` call
returns the smallest non-live id at or above the counter (the returned id
is free, at least the counter, and every id from the counter up to it is
live); the counter never decreases across a run; and the id of a removed
live entity is never returned by any later `createEntity` of the run —
even while lower free ids remain unused. -/
theorem C9_amended_unique_counter_alloc :
    (∀ ops : List CrOp, ((runCr initEM ops).entities).Nodup) ∧
    (∀ s : EMState,
      (createEntity s).1 ∉ s.entities ∧
      s.nextEntityId ≤ (createEntity s).1 ∧
      (∀ x : Int, s.nextEntityId ≤ x → x < (createEntity s).1 →
        x ∈ s.entities)) ∧
    (∀ (s : EMState) (ops : List CrOp),
      s.nextEntityId ≤ (runCr s ops).nextEntityId) ∧
    (∀ (ops₁ ops₂ : List CrOp) (id : Int),
      id ∈ (runCr initEM ops₁).entities →
      (createEntity (runCr (removeEntityTop (runCr initEM ops₁) id).2
        ops₂)).1 ≠ id) := by
  refine ⟨?_, ?_, ?_, ?_⟩
  · intro ops
    exact runCr_nodup ops initEM (by simp [initEM])
  · intro s
    exact ⟨createEntity_fresh s, createEntity_ge s, createEntity_min s⟩
  · intro s ops
    exact runCr_next_mono ops s
  · intro ops₁ ops₂ id hmem
    have hlb : LiveBelowNext (runCr initEM ops₁) :=
      runCr_liveBelow ops₁ initEM
        (fun e he => absurd he (List.not_mem_nil e))
    have hid : id < (runCr initEM ops₁).nextEntityId := hlb id hmem
    have h0 : ((removeEntityTop (runCr initEM ops₁) id).2).nextEntityId =
        (runCr initEM ops₁).nextEntityId :=
      (removeEntity_shell _ (runCr initEM ops₁) id).1
    have h2 := runCr_next_mono ops₂
      (removeEntityTop (runCr initEM ops₁) id).2
    have h3 := createEntity_ge
      (runCr (removeEntityTop (runCr initEM ops₁) id).2 ops₂)
    omega

/-- A store whose counter sits on a live id: the scan has to walk past
it, exercising the minimality clause non-vacuously. -/
def demoC9 : EMState := ⟨1, [1], [(1, [])], []⟩

/-- Witness: on `demoC9` the minimality clause applies at id 1 (the
counter equals 1, the allocation returns 2, and 1 is indeed live), and
after `create; create` from the fresh store, removing entity 1 and
creating again never hands id 1 back. -/
theorem C9_amended_unique_counter_alloc_witness :
    (1 : Int) ≤ 1 ∧ (1 : Int) < (createEntity demoC9).1 ∧
    (1 : Int) ∈ demoC9.entities ∧
    (1 : Int) ∈ (runCr initEM [CrOp.create, CrOp.create]).entities ∧
    (createEntity (runCr (removeEntityTop
        (runCr initEM [CrOp.create, CrOp.create]) 1).2 [])).1 ≠ 1 :=
  ⟨by decide, by decide,
   (C9_amended_unique_counter_alloc.2.1 demoC9).2.2 1 (by decide) (by decide),
   by decide,
   C9_amended_unique_counter_alloc.2.2.2 [CrOp.create, CrOp.create] [] 1
     (by decide)⟩

end EngineProof
